import Mathlib

/-!
Frame reduction and interpolation orchestration (`src/interp/iz3interp.cpp`).

A shallow embedding of `frame_reducer`, `iz3interp` and the solver-driving
`iz3interpolate` entry point, followed by theorems about them.

Conventions of the embedding
* `std::vector<T>` is `List T`; a read or write outside the vector is undefined
  behaviour in the source and is the fault `out_of_range` here.
* `hash_map<K,V>` is an association list in which the newest binding of a key
  shadows the older ones; `hash_set<K>` is a list used through membership.
* `int` values supplied by the caller (parent vectors) are `Int`; indices the
  code itself produces are `Nat`.
* The `while` loop of `get_frames` takes a fuel argument, one unit per
  iteration; running out of fuel is the fault `no_termination`.
* The proof translator, the secondary prover, the tree converter and the
  solver are external collaborators and appear as parameters.
-/

namespace iz3

/-! ## Terms and proofs -/

/-- Modelled from the spec: the operator codes of the term representation
(`opr`, declared in `iz3mgr.h`).  The file tests for `And` and for the
"interpolation marker" `Interp` only; `True` and `False` are what `mk_true` and
`mk_false` build, and every other operator is `Or`, `Not` or an
`Uninterpreted` symbol. -/
inductive opr
  | True
  | False
  | And
  | Or
  | Not
  | Interp
  | Uninterpreted (n : Nat)
  deriving DecidableEq, Repr

/-- Modelled from the spec: the term representation (`ast`, declared in
`iz3mgr.h`), "one formula built by conjoining sub-formulas, some of which are
wrapped in an interpolation marker operator": an operator applied to
arguments.  Terms are hash-consed, so equal structure is equal identity. -/
inductive ast
  | app (o : opr) (args : List ast)
  deriving Repr

/-- Rule tags of proof nodes: the assumption rule and all the others. -/
inductive pfrule
  | PR_ASSERTED
  | PR_OTHER (k : Nat)
  deriving DecidableEq, Repr

/-- Modelled from the spec: the proof object (`z3pf`, declared in `iz3mgr.h`)
is "a refutation DAG; nodes are proof steps with a rule tag and zero or more
premises; a distinguished assumption rule tags leaves that directly restate an
input formula".  `asserted con` is a `PR_ASSERTED` leaf concluding `con`;
`step k con prems` is a node of any other rule `k` with premises `prems`.
Shared sub-proofs are equal subterms. -/
inductive z3pf
  | asserted (con : ast)
  | step (k : Nat) (con : ast) (prems : List z3pf)
  deriving Repr

mutual
/-- Structural equality test on terms. -/
def ast.beq : ast → ast → Bool
  | .app o as, .app o' as' => decide (o = o') && ast.beqList as as'
/-- Structural equality test on argument lists. -/
def ast.beqList : List ast → List ast → Bool
  | [], [] => true
  | a :: as, b :: bs => ast.beq a b && ast.beqList as bs
  | _, _ => false
end

mutual
theorem ast_beq_iff : ∀ (a b : ast), ast.beq a b = true ↔ a = b
  | .app o as, .app o' as' => by
    simp [ast.beq, ast_beqList_iff as as']
theorem ast_beqList_iff : ∀ (as bs : List ast), ast.beqList as bs = true ↔ as = bs
  | [], [] => by simp [ast.beqList]
  | [], _ :: _ => by simp [ast.beqList]
  | _ :: _, [] => by simp [ast.beqList]
  | a :: as, b :: bs => by
    simp [ast.beqList, ast_beq_iff a b, ast_beqList_iff as bs]
end

instance : DecidableEq ast := fun a b => decidable_of_iff _ (ast_beq_iff a b)

mutual
/-- Structural equality test on proofs. -/
def z3pf.beq : z3pf → z3pf → Bool
  | .asserted c, .asserted c' => decide (c = c')
  | .step k c ps, .step k' c' ps' => decide (k = k') && decide (c = c') && z3pf.beqList ps ps'
  | _, _ => false
/-- Structural equality test on premise lists. -/
def z3pf.beqList : List z3pf → List z3pf → Bool
  | [], [] => true
  | a :: as, b :: bs => z3pf.beq a b && z3pf.beqList as bs
  | _, _ => false
end

mutual
theorem z3pf_beq_iff : ∀ (a b : z3pf), z3pf.beq a b = true ↔ a = b
  | .asserted c, .asserted c' => by simp [z3pf.beq]
  | .asserted _, .step _ _ _ => by simp [z3pf.beq]
  | .step _ _ _, .asserted _ => by simp [z3pf.beq]
  | .step k c ps, .step k' c' ps' => by
    simp [z3pf.beq, z3pf_beqList_iff ps ps', and_assoc]
theorem z3pf_beqList_iff : ∀ (as bs : List z3pf), z3pf.beqList as bs = true ↔ as = bs
  | [], [] => by simp [z3pf.beqList]
  | [], _ :: _ => by simp [z3pf.beqList]
  | _ :: _, [] => by simp [z3pf.beqList]
  | a :: as, b :: bs => by
    simp [z3pf.beqList, z3pf_beq_iff a b, z3pf_beqList_iff as bs]
end

instance : DecidableEq z3pf := fun a b => decidable_of_iff _ (z3pf_beq_iff a b)

/-- The term `true` (`mk_true()`). -/
def mk_true : ast := .app .True []

/-- The term `false` (`mk_false()`). -/
def mk_false : ast := .app .False []

/-- A default-constructed `ast`; the code overwrites it before any read. -/
instance : Inhabited ast := ⟨.app (.Uninterpreted 0) []⟩

/-- An uninterpreted constant, used as an atomic formula. -/
def atom (n : Nat) : ast := .app (.Uninterpreted n) []

/-- Operator of a term (`op(t)`). -/
def op : ast → opr
  | .app o _ => o

/-- Arguments of a term (`arg(t,0)`, ..., `arg(t,num_args(t)-1)`). -/
def args : ast → List ast
  | .app _ as => as

/-- Rule of a proof node (`pr(proof)`). -/
def pr : z3pf → pfrule
  | .asserted _ => .PR_ASSERTED
  | .step k _ _ => .PR_OTHER k

/-- Conclusion of a proof node (`conc(proof)`). -/
def conc : z3pf → ast
  | .asserted c => c
  | .step _ c _ => c

/-- Premises of a proof node (`prem(proof,0)`, ..., `prem(proof,num_prems-1)`). -/
def prems : z3pf → List z3pf
  | .asserted _ => []
  | .step _ _ ps => ps

/-! ## Containers -/

/-- The "no parent" entry of a parent vector. -/
def SHRT_MAX : Int := 32767

/-- What the source leaves undefined or cannot finish. -/
inductive fault
  | out_of_range
  | length_error
  | no_termination
  deriving DecidableEq, Repr

instance {ε α : Type} [DecidableEq ε] [DecidableEq α] : DecidableEq (Except ε α)
  | .ok a, .ok b => decidable_of_iff (a = b) (by simp)
  | .error a, .error b => decidable_of_iff (a = b) (by simp)
  | .ok _, .error _ => isFalse (by simp)
  | .error _, .ok _ => isFalse (by simp)

/-- Association-list model of `hash_map<K,V>`. -/
abbrev hash_map (κ ν : Type) := List (κ × ν)

/-- Lookup: `m.find(k)`, the newest binding of `k`. -/
def hash_map.find {κ ν : Type} [DecidableEq κ] (m : hash_map κ ν) (k : κ) : Option ν :=
  match m with
  | [] => none
  | (k', v) :: rest => if k = k' then some v else hash_map.find rest k

/-- Update: `m[k] = v`. -/
def hash_map.set {κ ν : Type} (m : hash_map κ ν) (k : κ) (v : ν) : hash_map κ ν :=
  (k, v) :: m

/-- Read `v[i]` for an unsigned index. -/
def vget {α : Type} (v : List α) (i : Nat) : Except fault α :=
  match v[i]? with
  | some a => .ok a
  | none => .error .out_of_range

/-- Read `v[i]` for an `int` index. -/
def vget_int {α : Type} (v : List α) (i : Int) : Except fault α :=
  if i < 0 then .error .out_of_range else vget v i.toNat

/-- Write `v[i] = a` for an unsigned index. -/
def vset {α : Type} (v : List α) (i : Nat) (a : α) : Except fault (List α) :=
  if i < v.length then .ok (v.set i a) else .error .out_of_range

/-- Write `v[i] = a` for an `int` index. -/
def vset_int {α : Type} (v : List α) (i : Int) (a : α) : Except fault (List α) :=
  if i < 0 then .error .out_of_range else vset v i.toNat a

/-- The call `v.resize(n)`, new slots holding `d`. -/
def resize {α : Type} (v : List α) (n : Nat) (d : α) : List α :=
  v.take n ++ List.replicate (n - v.length) d

/-! ## `frame_reducer` -/

/-- Data members of `frame_reducer`. -/
structure frame_reducer where
  frames : Nat
  frame_map : hash_map ast Nat
  assertions_map : List Nat
  orig_parents_copy : List Int
  used_frames : List Bool
  deriving DecidableEq, Repr

mutual
/-- The method `get_proof_assumptions_rec`: the state is `(memo, used_frames)`. -/
def get_proof_assumptions_rec (frame_map : hash_map ast Nat) :
    z3pf → List z3pf × List Bool → List z3pf × List Bool
  | .asserted con, (memo, used_frames) =>
    if z3pf.asserted con ∈ memo then (memo, used_frames)
    else
      match frame_map.find con with
      | some frame => (z3pf.asserted con :: memo, used_frames.set frame true)
      | none => (z3pf.asserted con :: memo, used_frames)
  | .step k con ps, (memo, used_frames) =>
    if z3pf.step k con ps ∈ memo then (memo, used_frames)
    else get_proof_assumptions_prems frame_map ps (z3pf.step k con ps :: memo, used_frames)
/-- The premise loop of `get_proof_assumptions_rec`. -/
def get_proof_assumptions_prems (frame_map : hash_map ast Nat) :
    List z3pf → List z3pf × List Bool → List z3pf × List Bool
  | [], st => st
  | arg :: rest, st =>
    get_proof_assumptions_prems frame_map rest (get_proof_assumptions_rec frame_map arg st)
end

/-- Loop `for i: frame_map[z3_preds[i]] = i` of `get_frames`. -/
def build_frame_map (z3_preds : List ast) (frame_map : hash_map ast Nat) : hash_map ast Nat :=
  (List.range z3_preds.length).foldl
    (fun m i => m.set (z3_preds.getD i default) i) frame_map

/-- State of the retention loop of `get_frames`:
`assertions`, `assertions_map`, `assertions_back_map`. -/
abbrev retain_state := List ast × List Nat × List Nat

/-- Body of the retention loop (lines 93-97). -/
def retain_step (z3_preds : List ast) (used_frames : List Bool)
    (st : retain_state) (i : Nat) : retain_state :=
  if used_frames.getD i false || i == z3_preds.length - 1 then
    let assertions := st.1 ++ [z3_preds.getD i default]
    (assertions, st.2.1 ++ [i], st.2.2.set i (assertions.length - 1))
  else st

/-- The retention loop `for i < z3_preds.size()` of `get_frames`. -/
def retain_loop (z3_preds : List ast) (used_frames : List Bool)
    (st : retain_state) : retain_state :=
  (List.range z3_preds.length).foldl (retain_step z3_preds used_frames) st

/-- The loop condition `p != SHRT_MAX && !used_frames[p]`. -/
def walk_cond (used_frames : List Bool) (p : Int) : Except fault Bool :=
  if p = SHRT_MAX then .ok false
  else
    match vget_int used_frames p with
    | .error e => .error e
    | .ok u => .ok (!u)

/-- The loop `while(p != SHRT_MAX && !used_frames[p]) p = orig_parents[p];`,
with one unit of fuel per execution of the body. -/
def parent_walk (orig_parents : List Int) (used_frames : List Bool) :
    Nat → Int → Except fault Int
  | 0, p =>
    match walk_cond used_frames p with
    | .error e => .error e
    | .ok false => .ok p
    | .ok true => .error .no_termination
  | fuel + 1, p =>
    match walk_cond used_frames p with
    | .error e => .error e
    | .ok false => .ok p
    | .ok true =>
      match vget_int orig_parents p with
      | .error e => .error e
      | .ok q => parent_walk orig_parents used_frames fuel q

/-- Right-hand side of `parents[i] = ...` in the parent loop of `get_frames`
(lines 102-105). -/
def reduced_parent (fuel : Nat) (orig_parents : List Int) (used_frames : List Bool)
    (assertions_map : List Nat) (assertions_back_map : List Nat) (i : Nat) :
    Except fault Int := do
  let a ← vget assertions_map i
  let p0 ← vget orig_parents a
  let p ← parent_walk orig_parents used_frames fuel p0
  if p = SHRT_MAX then pure p
  else (fun (b : Nat) => (b : Int)) <$> vget_int assertions_back_map p

/-- Body of the parent loop of `get_frames`. -/
def parents_step (fuel : Nat) (orig_parents : List Int) (used_frames : List Bool)
    (assertions_map : List Nat) (assertions_back_map : List Nat)
    (parents : List Int) (i : Nat) : Except fault (List Int) := do
  let v ← reduced_parent fuel orig_parents used_frames assertions_map assertions_back_map i
  vset parents i v

/-- The method `get_frames` on a freshly constructed `frame_reducer`; `assertions`
and `parents` are the caller's output vectors. -/
def get_frames (fuel : Nat) (z3_preds : List ast) (orig_parents : List Int)
    (assertions : List ast) (parents : List Int) (proof : z3pf) :
    Except fault (frame_reducer × List ast × List Int) :=
  let frames := z3_preds.length
  let frame_map := build_frame_map z3_preds []
  let used_frames :=
    (get_proof_assumptions_rec frame_map proof ([], resize [] frames false)).2
  let st := retain_loop z3_preds used_frames (assertions, [], List.replicate frames 0)
  let fr : frame_reducer :=
    { frames := frames, frame_map := frame_map, assertions_map := st.2.1,
      orig_parents_copy := orig_parents, used_frames := used_frames }
  if orig_parents.length ≠ 0 then
    match (List.range st.1.length).foldlM
        (parents_step fuel orig_parents used_frames st.2.1 st.2.2)
        (resize parents st.1.length 0) with
    | .error e => .error e
    | .ok parents => .ok (fr, st.1, parents)
  else .ok (fr, st.1, parents)

/-- Body of the write-back loop of `fix_interpolants` (line 118). -/
def unfixed_step (assertions_map : List Nat) (unfixed : List ast)
    (interpolants : List ast) (i : Nat) : Except fault (List ast) := do
  let a ← vget assertions_map i
  let u ← vget unfixed i
  vset interpolants a u

/-- Body of the propagation loop of `fix_interpolants` (lines 120-122). -/
def propagate_step (fr : frame_reducer) (interpolants : List ast) (i : Nat) :
    Except fault (List ast) :=
  (if fr.orig_parents_copy.length = 0 then pure ((i : Int) + 1)
   else vget fr.orig_parents_copy i) >>= fun p =>
  if p < (fr.frames : Int) - 1 then
    vget_int fr.used_frames p >>= fun u =>
    if !u then vget interpolants i >>= fun x => vset_int interpolants p x
    else pure interpolants
  else pure interpolants

/-- The method `fix_interpolants`; the result is the new value of `interpolants`. -/
def fix_interpolants (fr : frame_reducer) (interpolants : List ast) :
    Except fault (List ast) :=
  let unfixed := interpolants
  if fr.frames = 0 then .error .length_error
  else
    let v0 := resize interpolants (fr.frames - 1) default
    let v1 := (List.range (fr.frames - 1)).foldl (fun v i => v.set i mk_true) v0
    match (List.range unfixed.length).foldlM (unfixed_step fr.assertions_map unfixed) v1 with
    | .error e => .error e
    | .ok v2 => (List.range (fr.frames - 2)).foldlM (propagate_step fr) v2

/-! ## `iz3interp` -/

/-- The method `is_linear`. -/
def is_linear (parents : List Int) : Bool :=
  (List.range (parents.length - 1)).all (fun i => parents.getD i 0 == (i : Int) + 1)

/-- Modelled from the spec: the external secondary prover, proof translator and
proof object, built over "the reduced frames, reduced parents, and theory
facts": `tr cnsts parents theory proof i` is the interpolant that
`pf.interpolate` followed by `tr->quantify` delivers for cut `i`. -/
abbrev translator := List ast → List Int → List ast → z3pf → Nat → ast

/-- The method `proof_to_interpolant` (parent-vector overload); the result is
the new value of `interps`. -/
def proof_to_interpolant (tr : translator) (fuel : Nat) (proof : z3pf) (cnsts : List ast)
    (parents : List Int) (theory : List ast) : Except fault (List ast) :=
  match get_frames fuel cnsts parents [] [] proof with
  | .error e => .error e
  | .ok (fr, cnsts_vec, parents_vec) =>
    let num := cnsts_vec.length
    if num = 0 then .error .length_error
    else
      let parents_vec := if is_linear parents_vec then [] else parents_vec
      let interps_vec :=
        (List.range (num - 1)).foldl
          (fun v i => v.set i (tr cnsts_vec parents_vec theory proof i))
          (List.replicate (num - 1) default)
      fix_interpolants fr interps_vec

/-- Result of the external `to_parents_vec_representation`:
`cnsts`, `parents`, `theory`, `pos_map`. -/
structure parents_vec_representation where
  cnsts : List ast
  parents : List Int
  theory : List ast
  pos_map : List Int

/-- Modelled from the spec: the external `to_parents_vec_representation` of
`iz3base`, which "accepts a partition tree and a flat constraint list; returns
a flat frame list, a parent vector, the set of theory-only facts, and a
position map from tree slots to flat indices". -/
abbrev tree_converter := List ast → ast → parents_vec_representation

/-- Lines 275-278: "get the interps for the tree positions". -/
def tree_positions (pos_map : List Int) (interps : List ast) : List ast :=
  let _interps := interps
  (List.range pos_map.length).foldl
    (fun v i => v.set i (if i < _interps.length then _interps.getD i default else mk_false))
    (resize interps pos_map.length default)

/-- The method `proof_to_interpolant` (tree overload). -/
def proof_to_interpolant_tree (conv : tree_converter) (tr : translator) (fuel : Nat)
    (proof : z3pf) (_cnsts : List ast) (tree : ast) : Except fault (List ast) :=
  let r := conv _cnsts tree
  match proof_to_interpolant tr fuel proof r.cnsts r.parents r.theory with
  | .error e => .error e
  | .ok interps => .ok (tree_positions r.pos_map interps)

mutual
/-- The method `has_interp`; the result is the answer and the new memo table. -/
def has_interp : ast → hash_map ast Bool → Bool × hash_map ast Bool
  | .app o as, memo =>
    match memo.find (.app o as) with
    | some b => (b, memo)
    | none =>
      if o = .Interp then (true, memo.set (.app o as) true)
      else if o = .And then
        let r := has_interp_args as (false, memo)
        (r.1, r.2.set (.app o as) r.1)
      else (false, memo.set (.app o as) false)
/-- The argument loop `res |= has_interp(memo, arg(t,i))`; the state is `(res, memo)`. -/
def has_interp_args : List ast → Bool × hash_map ast Bool → Bool × hash_map ast Bool
  | [], st => st
  | a :: rest, (res, memo) =>
    let r := has_interp a memo
    has_interp_args rest (res || r.1, r.2)
end

mutual
/-- The method `collect_conjuncts`; the state is `(cnsts, memo)`. -/
def collect_conjuncts : ast → List ast × hash_map ast Bool → List ast × hash_map ast Bool
  | .app o as, (cnsts, memo) =>
    let r := has_interp (.app o as) memo
    if !r.1 then (cnsts ++ [.app o as], r.2)
    else collect_conjuncts_args as (cnsts, r.2)
/-- The argument loop of `collect_conjuncts`. -/
def collect_conjuncts_args :
    List ast → List ast × hash_map ast Bool → List ast × hash_map ast Bool
  | [], st => st
  | a :: rest, st => collect_conjuncts_args rest (collect_conjuncts a st)
end

/-! ## The solver-driving entry point -/

/-- Verdicts of the solver. -/
inductive lbool
  | l_false
  | l_undef
  | l_true
  deriving DecidableEq, Repr

/-- A model handed out by the solver. -/
structure model where
  id : Nat
  deriving DecidableEq, Repr

/-- Calls a solver receives. -/
inductive solver_call
  | assert_expr (e : ast)
  | check_sat
  | get_proof
  | get_model
  deriving DecidableEq, Repr

/-- Modelled from the spec: the caller-provided theory solver (`solver`,
declared outside this file), into which the leaves are asserted, whose
satisfiability check gives the verdict, and which hands out a proof on UNSAT
and a model on SAT.  It is the list of calls received so far, oldest first,
and its answers as functions of the formulas asserted into it. -/
structure solver where
  calls : List solver_call
  check_sat_answer : List ast → lbool
  get_proof_answer : List ast → z3pf
  get_model_answer : List ast → model

/-- Formulas asserted into a solver, in order of assertion. -/
def solver.asserted (s : solver) : List ast :=
  s.calls.filterMap (fun c => match c with | .assert_expr e => some e | _ => none)

/-- The call `s.assert_expr(e)`. -/
def solver.assert_expr (s : solver) (e : ast) : solver :=
  { s with calls := s.calls ++ [.assert_expr e] }

/-- The call `s.check_sat(0,0)`. -/
def solver.check_sat (s : solver) : lbool × solver :=
  (s.check_sat_answer s.asserted, { s with calls := s.calls ++ [.check_sat] })

/-- The call `s.get_proof()`. -/
def solver.get_proof (s : solver) : z3pf × solver :=
  (s.get_proof_answer s.asserted, { s with calls := s.calls ++ [.get_proof] })

/-- The call `s.get_model(m)`. -/
def solver.get_model (s : solver) : model × solver :=
  (s.get_model_answer s.asserted, { s with calls := s.calls ++ [.get_model] })

/-- The method `assert_conjuncts`; the result is the solver and the new `cnsts`. -/
def assert_conjuncts (s : solver) (cnsts : List ast) (t : ast) : solver × List ast :=
  let memo : hash_map ast Bool := []
  let cnsts := (collect_conjuncts t (cnsts, memo)).1
  ((List.range cnsts.length).foldl (fun s i => s.assert_expr (cnsts.getD i default)) s, cnsts)

/-- The idiom `dst.resize(src.size()); for i: dst[i] = uncook(src[i])`. -/
def uncook_into (dst src : List ast) : List ast :=
  (List.range src.length).foldl (fun v i => v.set i (src.getD i default))
    (resize dst src.length default)

/-- What `iz3interpolate` (solver overload) returns and leaves in its
reference arguments. -/
structure interpolate_outcome where
  res : lbool
  s : solver
  cnsts : List ast
  interps : List ast
  m : Option model

/-- The function `iz3interpolate(_m_manager, s, tree, cnsts, interps, m, options)`.
The model slot `m` is `some _` when the caller passed a non-null reference. -/
def iz3interpolate (conv : tree_converter) (tr : translator) (fuel : Nat) (s : solver)
    (tree : ast) (cnsts interps : List ast) (m : Option model) :
    Except fault interpolate_outcome :=
  let _tree := tree
  let a := assert_conjuncts s [] _tree
  let _cnsts := a.2
  let c := a.1.check_sat
  let res := c.1
  if res = lbool.l_false then
    let g := c.2.get_proof
    match proof_to_interpolant_tree conv tr fuel g.1 _cnsts _tree with
    | .error e => .error e
    | .ok _interps =>
      .ok { res := res, s := g.2, cnsts := uncook_into cnsts _cnsts,
            interps := uncook_into interps _interps, m := m }
  else if m.isSome then
    let g := c.2.get_model
    .ok { res := res, s := g.2, cnsts := uncook_into cnsts _cnsts,
          interps := interps, m := some g.1 }
  else
    .ok { res := res, s := c.2, cnsts := uncook_into cnsts _cnsts,
          interps := interps, m := m }

/-! ## Vocabulary of the properties -/

/-- Nodes reachable from a proof through premises. -/
inductive reachable : z3pf → z3pf → Prop
  | here (p : z3pf) : reachable p p
  | through (k : Nat) (con : ast) (ps : List z3pf) (q r : z3pf) :
      q ∈ ps → reachable q r → reachable (z3pf.step k con ps) r

mutual
/-- Conclusions of the assumption leaves of a proof, left to right, computed
without a visited set. -/
def asserted_concs : z3pf → List ast
  | .asserted con => [con]
  | .step _ _ ps => asserted_concs_prems ps
/-- Conclusions of the assumption leaves of a list of proofs. -/
def asserted_concs_prems : List z3pf → List ast
  | [] => []
  | p :: rest => asserted_concs p ++ asserted_concs_prems rest
end

mutual
/-- An interpolation marker occurs somewhere in the term. -/
def contains_interp : ast → Bool
  | .app o as => decide (o = opr.Interp) || contains_interp_args as
/-- An interpolation marker occurs somewhere in one of the terms. -/
def contains_interp_args : List ast → Bool
  | [] => false
  | a :: rest => contains_interp a || contains_interp_args rest
end

mutual
/-- Formulas built from atoms by conjunction and the unary interpolation
marker; an atom is any marker-free term that is not a conjunction. -/
def built : ast → Bool
  | .app o as =>
    if o = opr.Interp then as.length == 1 && built_args as
    else if o = opr.And then built_args as
    else !contains_interp_args as
/-- Every term of the list is `built`. -/
def built_args : List ast → Bool
  | [] => true
  | a :: rest => built a && built_args rest
end

/-- Every frame that `frame_map` assigns to an assumption leaf of `q` is marked
in `used_frames`. -/
def marked (frame_map : hash_map ast Nat) (used_frames : List Bool) (q : z3pf) : Prop :=
  ∀ c, c ∈ asserted_concs q → ∀ j, frame_map.find c = some j → used_frames[j]? = some true

/-- The used-frame vector that `get_frames` computes from the frames and the proof. -/
def used_of (z3_preds : List ast) (proof : z3pf) : List Bool :=
  (get_proof_assumptions_rec (build_frame_map z3_preds []) proof
    ([], resize [] z3_preds.length false)).2

/-- Test of the retention loop: frame `i` is used or is the final frame. -/
def keep (n : Nat) (used_frames : List Bool) (i : Nat) : Bool :=
  used_frames.getD i false || i == n - 1

/-- Original indices of the frames the retention loop keeps, in order. -/
def retained (n : Nat) (used_frames : List Bool) : List Nat :=
  (List.range n).filter (keep n used_frames)

/-- The backward map the retention loop of `get_frames` builds. -/
def back_map_of (z3_preds : List ast) (used_frames : List Bool) : List Nat :=
  (retain_loop z3_preds used_frames ([], [], List.replicate z3_preds.length 0)).2.2

/-- The parent `p` that iteration `i` of the propagation loop of
`fix_interpolants` reads (line 120), when the read is in range. -/
def propagate_parent (fr : frame_reducer) (i : Nat) : Option Int :=
  if fr.orig_parents_copy.length = 0 then some ((i : Int) + 1) else fr.orig_parents_copy[i]?

/-- Every entry of a parent vector for `n` frames is the sentinel or an
in-range index (`strict`: an index larger than its own position). -/
def entries_ok (strict : Bool) (n : Nat) (parents : List Int) : Prop :=
  ∀ i : Nat, ∀ p : Int, parents[i]? = some p →
    p = SHRT_MAX ∨ (0 ≤ p ∧ p < n ∧ (strict = true → (i : Int) < p))

theorem entries_ok_iff (strict : Bool) (n : Nat) (parents : List Int) :
    (∀ i : Nat, i < parents.length →
      (parents.getD i 0 = SHRT_MAX ∨
        (0 ≤ parents.getD i 0 ∧ parents.getD i 0 < n ∧
          (strict = true → (i : Int) < parents.getD i 0)))) ↔
    entries_ok strict n parents := by
  constructor
  · intro h i p hp
    have hi : i < parents.length := by
      by_contra hc
      rw [List.getElem?_eq_none (by omega)] at hp
      exact Option.noConfusion hp
    have := h i hi
    rw [List.getD_eq_getElem?_getD, hp] at this
    exact this
  · intro h i hi
    have := h i parents[i] (List.getElem?_eq_getElem hi)
    rw [List.getD_eq_getElem?_getD, List.getElem?_eq_getElem hi]
    exact this

instance (strict : Bool) (n : Nat) (parents : List Int) :
    Decidable (entries_ok strict n parents) :=
  decidable_of_iff _ (entries_ok_iff strict n parents)

/-- A parent vector acceptable for `n` frames: empty (an implicit chain), or
one entry per frame, each the sentinel or an in-range index. -/
def parents_ok (strict : Bool) (n : Nat) (parents : List Int) : Prop :=
  parents = [] ∨ (parents.length = n ∧ entries_ok strict n parents)

instance (strict : Bool) (n : Nat) (parents : List Int) :
    Decidable (parents_ok strict n parents) := by
  unfold parents_ok; infer_instance

/-- The explicit linear chain `[1, 2, ..., n-1, SHRT_MAX]` over `n` frames. -/
def explicit_chain (n : Nat) : List Int :=
  (List.range n).map (fun i => if i + 1 = n then SHRT_MAX else (i : Int) + 1)

/-- What slot `j` holds after the propagation loop of `fix_interpolants` has run
along a chain, given the sequence `v2` it started from: an unused slot takes
the final value of the slot before it. -/
def chain_fill (used_frames : List Bool) (v2 : List ast) : Nat → Option ast
  | 0 => v2[0]?
  | j + 1 =>
    if used_frames[j + 1]? = some false then chain_fill used_frames v2 j else v2[j + 1]?

mutual
/-- What `has_interp` computes when no memo table is used: a marker is reached
from the term through conjunctions only. -/
def interp_through_and : ast → Bool
  | .app o as =>
    if o = opr.Interp then true
    else if o = opr.And then interp_through_and_args as
    else false
/-- Some term of the list reaches a marker through conjunctions. -/
def interp_through_and_args : List ast → Bool
  | [] => false
  | a :: rest => interp_through_and a || interp_through_and_args rest
end

mutual
/-- What `collect_conjuncts` appends when no memo table is used. -/
def conjuncts : ast → List ast
  | .app o as => if interp_through_and (.app o as) then conjuncts_args as else [.app o as]
/-- Concatenation of the `conjuncts` of a list of terms, in order. -/
def conjuncts_args : List ast → List ast
  | [] => []
  | a :: rest => conjuncts a ++ conjuncts_args rest
end

/-- Every answer stored in a memo table of `has_interp` is the right one. -/
def memo_ok (memo : hash_map ast Bool) : Prop :=
  ∀ t b, memo.find t = some b → b = interp_through_and t

/-- A solver that has received no call yet and answers every check with `v`;
its proof asserts `atom 1` and `atom 2`. -/
def demo_solver (v : lbool) : solver :=
  { calls := [],
    check_sat_answer := fun _ => v,
    get_proof_answer := fun _ => .step 0 mk_false [.asserted (atom 1), .asserted (atom 2)],
    get_model_answer := fun _ => { id := 7 } }

/-- The tree `Interp(atom 1) ∧ atom 2`. -/
def demo_tree : ast := .app .And [.app .Interp [atom 1], atom 2]

/-- A converter that returns the two frames of `demo_tree` as an implicit chain. -/
def demo_conv : tree_converter :=
  fun _ _ => { cnsts := [atom 1, atom 2], parents := [], theory := [], pos_map := [0, 1] }

/-- A translator whose every interpolant is `atom 9`. -/
def demo_tr : translator := fun _ _ _ _ _ => atom 9

mutual
/-- The traversal of `get_proof_assumptions_rec` with the visited set taken
out: a node is processed every time it is reached. -/
def get_proof_assumptions_nomemo (frame_map : hash_map ast Nat) :
    z3pf → List Bool → List Bool
  | .asserted con, used_frames =>
    match frame_map.find con with
    | some frame => used_frames.set frame true
    | none => used_frames
  | .step _ _ ps, used_frames => get_proof_assumptions_nomemo_prems frame_map ps used_frames
/-- The premise loop of `get_proof_assumptions_nomemo`. -/
def get_proof_assumptions_nomemo_prems (frame_map : hash_map ast Nat) :
    List z3pf → List Bool → List Bool
  | [], used_frames => used_frames
  | arg :: rest, used_frames =>
    get_proof_assumptions_nomemo_prems frame_map rest
      (get_proof_assumptions_nomemo frame_map arg used_frames)
end

mutual
/-- Truth value of a formula under an assignment `σ` to its atoms: a
conjunction is the conjunction of its arguments, the interpolation marker is
read through (a marker on one argument has the truth value of the argument),
and every other term is an atom. -/
def truth (σ : ast → Bool) : ast → Bool
  | .app o as =>
    if o = opr.And ∨ o = opr.Interp then truth_args σ as else σ (.app o as)
/-- Conjunction of the truth values of a list of formulas. -/
def truth_args (σ : ast → Bool) : List ast → Bool
  | [] => true
  | a :: rest => truth σ a && truth_args σ rest
end

/-- Frames extracted from a tree by `collect_conjuncts`, started as
`assert_conjuncts` starts it: no frames yet and an empty memo table. -/
def frames_of (t : ast) : List ast :=
  (collect_conjuncts t ([], [])).1

end iz3

namespace iz3

/-! ## Loops over index ranges -/

theorem foldl_set_length {α : Type} (f : Nat → α) (n : Nat) (v : List α) :
    ((List.range n).foldl (fun v i => v.set i (f i)) v).length = v.length := by
  induction n with
  | zero => simp
  | succ n ih => simp [List.range_succ, List.foldl_append, ih]

theorem foldl_set_getElem? {α : Type} (f : Nat → α) (n : Nat) (v : List α) (i : Nat) :
    ((List.range n).foldl (fun v i => v.set i (f i)) v)[i]? =
      if i < n ∧ i < v.length then some (f i) else v[i]? := by
  induction n with
  | zero => simp
  | succ n ih =>
    simp only [List.range_succ, List.foldl_append, List.foldl_cons, List.foldl_nil]
    rw [List.getElem?_set]
    by_cases h : n = i
    · subst h
      simp only [foldl_set_length, if_true]
      by_cases h2 : n < v.length
      · simp [h2]
      · simp [h2]; omega
    · rw [if_neg h, ih]
      have : (i < n + 1 ∧ i < v.length) ↔ (i < n ∧ i < v.length) := by omega
      simp only [this]

theorem resize_length {α : Type} (v : List α) (n : Nat) (d : α) :
    (resize v n d).length = n := by
  simp [resize]; omega

theorem tree_positions_length (pos_map : List Int) (interps : List ast) :
    (tree_positions pos_map interps).length = pos_map.length := by
  simp [tree_positions, foldl_set_length, resize_length]

theorem tree_positions_getElem? (pos_map : List Int) (interps : List ast) (i : Nat)
    (h : i < pos_map.length) :
    (tree_positions pos_map interps)[i]? =
      some (if i < interps.length then interps.getD i default else mk_false) := by
  simp [tree_positions, foldl_set_getElem?, resize_length, h]

theorem uncook_into_eq (dst src : List ast) : uncook_into dst src = src := by
  apply List.ext_getElem?
  intro i
  simp only [uncook_into, foldl_set_getElem?, resize_length]
  by_cases h : i < src.length
  · simp [h, List.getD_eq_getElem?_getD, List.getElem?_eq_getElem h]
  · simp [h, List.getElem?_eq_none (Nat.le_of_not_lt h), resize_length]
    omega

/-! ## Linearity detection -/

/-- C4: `is_linear` answers true exactly when every non-last position `i` holds
`i+1`, the last entry never being read; `[1,2,3,SHRT_MAX]` is linear and
`[2,2,SHRT_MAX]` is not. -/
theorem C4_is_linear_iff :
    (∀ parents : List Int,
      is_linear parents = true ↔
        ∀ i : Nat, i + 1 < parents.length → parents[i]? = some ((i : Int) + 1)) ∧
    is_linear [1, 2, 3, SHRT_MAX] = true ∧
    is_linear [2, 2, SHRT_MAX] = false := by
  refine ⟨?_, by decide, by decide⟩
  intro parents
  simp only [is_linear, List.all_eq_true, List.mem_range, beq_iff_eq]
  constructor
  · intro h i hi
    have hi2 : i < parents.length := by omega
    have := h i (by omega)
    rw [List.getD_eq_getElem?_getD, List.getElem?_eq_getElem hi2] at this
    rw [List.getElem?_eq_getElem hi2]
    simpa using this
  · intro h i hi
    have hi2 : i < parents.length := by omega
    have := h i (by omega)
    rw [List.getD_eq_getElem?_getD, this]
    simp

/-! ## The tree overload -/

/-- C6 (what the code does): slot `i` of the tree overload's result is the flat
interpolant at index `i` itself, not at `pos_map[i]`; with the position map
`[1,0]` the flat sequence `[atom 1, atom 2]` comes back unpermuted, and so does
the result of the whole tree overload when the converter reports `[1,0]`. -/
theorem C6_tree_positions_ignore_pos_map :
    (∀ (pos_map : List Int) (interps : List ast) (i : Nat), i < pos_map.length →
      (tree_positions pos_map interps)[i]? =
        some (if i < interps.length then interps.getD i default else mk_false)) ∧
    tree_positions [1, 0] [atom 1, atom 2] = [atom 1, atom 2] ∧
    tree_positions [1, 0] [atom 1, atom 2] ≠ [atom 2, atom 1] ∧
    proof_to_interpolant_tree
        (fun _ _ => { cnsts := [atom 1, atom 2, atom 3], parents := [], theory := [],
                      pos_map := [1, 0] })
        (fun _ _ _ _ i => atom (10 + i)) 3
        (.step 0 mk_false [.asserted (atom 1), .asserted (atom 2), .asserted (atom 3)])
        [atom 1, atom 2, atom 3] mk_true = .ok [atom 10, atom 11] :=
  ⟨tree_positions_getElem?, by decide, by decide, by decide⟩

/-! ## The reduced parent vector -/

/-- C7 (what the code does): on frames `[atom 1, atom 2]` with parents
`[1, SHRT_MAX]` and a proof asserting only `atom 1`, both frames are retained
(reduced indices 0 and 1) but the reduced parent of frame 0 is the sentinel,
not 1: the walk steps over the retained final frame because it is not marked
used. -/
theorem C7_unused_final_frame_skipped :
    get_frames 2 [atom 1, atom 2] [1, SHRT_MAX] [] [] (.asserted (atom 1)) =
      .ok ({ frames := 2, frame_map := [(atom 2, 1), (atom 1, 0)],
             assertions_map := [0, 1], orig_parents_copy := [1, SHRT_MAX],
             used_frames := [true, false] },
           [atom 1, atom 2], [SHRT_MAX, SHRT_MAX]) := by
  decide

end iz3

namespace iz3

/-! ## Generic loop lemmas -/

theorem foldlM_range_inv {σ : Type} (f : σ → Nat → Except fault σ) (Inv : Nat → σ → Prop)
    (n : Nat) (s0 : σ) (h0 : Inv 0 s0)
    (hstep : ∀ i s, i < n → Inv i s → ∃ s', f s i = .ok s' ∧ Inv (i + 1) s') :
    ∃ s, (List.range n).foldlM f s0 = .ok s ∧ Inv n s := by
  induction n with
  | zero => exact ⟨s0, rfl, h0⟩
  | succ n ih =>
    obtain ⟨s, hs, hinv⟩ := ih (fun i s hi => hstep i s (by omega))
    obtain ⟨s', hs', hinv'⟩ := hstep n s (by omega) hinv
    refine ⟨s', ?_, hinv'⟩
    rw [List.range_succ, List.foldlM_append, hs]
    simp only [List.foldlM_cons, List.foldlM_nil]
    show (f s n >>= fun x => pure x) = _
    rw [hs']; rfl

theorem foldl_range_inv {σ : Type} (f : σ → Nat → σ) (Inv : Nat → σ → Prop)
    (n : Nat) (s0 : σ) (h0 : Inv 0 s0)
    (hstep : ∀ i s, i < n → Inv i s → Inv (i + 1) (f s i)) :
    Inv n ((List.range n).foldl f s0) := by
  induction n with
  | zero => exact h0
  | succ n ih =>
    rw [List.range_succ, List.foldl_append]
    exact hstep n _ (by omega) (ih (fun i s hi => hstep i s (by omega)))

theorem vget_ok {α : Type} (v : List α) (i : Nat) (h : i < v.length) :
    vget v i = .ok (v[i]) := by
  simp [vget, List.getElem?_eq_getElem h]

theorem vget_eq_ok {α : Type} (v : List α) (i : Nat) (a : α) (h : v[i]? = some a) :
    vget v i = .ok a := by
  simp [vget, h]

theorem vget_int_eq_ok {α : Type} (v : List α) (p : Int) (a : α) (h0 : 0 ≤ p)
    (h : v[p.toNat]? = some a) : vget_int v p = .ok a := by
  simp [vget_int, not_lt.mpr h0, vget, h]

theorem vset_ok {α : Type} (v : List α) (i : Nat) (a : α) (h : i < v.length) :
    vset v i a = .ok (v.set i a) := by
  simp [vset, h]

theorem vset_int_ok {α : Type} (v : List α) (p : Int) (a : α) (h0 : 0 ≤ p)
    (h : p.toNat < v.length) : vset_int v p a = .ok (v.set p.toNat a) := by
  simp [vset_int, not_lt.mpr h0, vset, h]

/-! ## The used-frame vector -/

mutual
theorem rec_used_length (fm : hash_map ast Nat) :
    ∀ (p : z3pf) (st : List z3pf × List Bool),
      (get_proof_assumptions_rec fm p st).2.length = st.2.length
  | .asserted con, (memo, used) => by
    simp only [get_proof_assumptions_rec]
    split_ifs
    · rfl
    · split <;> simp
  | .step k con ps, (memo, used) => by
    simp only [get_proof_assumptions_rec]
    split_ifs
    · rfl
    · exact prems_used_length fm ps _
theorem prems_used_length (fm : hash_map ast Nat) :
    ∀ (ps : List z3pf) (st : List z3pf × List Bool),
      (get_proof_assumptions_prems fm ps st).2.length = st.2.length
  | [], st => by simp [get_proof_assumptions_prems]
  | p :: rest, st => by
    simp only [get_proof_assumptions_prems]
    rw [prems_used_length fm rest, rec_used_length fm p]
end

theorem used_of_length (z3_preds : List ast) (proof : z3pf) :
    (used_of z3_preds proof).length = z3_preds.length := by
  simp [used_of, rec_used_length, resize_length]

/-! ## The retention loop -/

theorem retain_foldl_lists (z3_preds : List ast) (used : List Bool) (n : Nat)
    (st : retain_state) :
    ((List.range n).foldl (retain_step z3_preds used) st).1 =
        st.1 ++ ((List.range n).filter (keep z3_preds.length used)).map
          (fun i => z3_preds.getD i default) ∧
    ((List.range n).foldl (retain_step z3_preds used) st).2.1 =
        st.2.1 ++ (List.range n).filter (keep z3_preds.length used) ∧
    ((List.range n).foldl (retain_step z3_preds used) st).2.2.length = st.2.2.length := by
  induction n with
  | zero => simp
  | succ n ih =>
    obtain ⟨h1, h2, h3⟩ := ih
    rw [List.range_succ, List.foldl_append, List.filter_append]
    simp only [List.foldl_cons, List.foldl_nil]
    by_cases hk : keep z3_preds.length used n = true
    · have hk' : (used.getD n false || n == z3_preds.length - 1) = true := hk
      simp only [retain_step, hk', if_true, h1, h2, h3, List.filter_cons, hk,
        List.filter_nil, List.map_append, List.map_cons, List.map_nil, List.append_assoc,
        List.length_set, and_self]
    · have hk' : (used.getD n false || n == z3_preds.length - 1) = false := by
        simpa [keep] using hk
      simp only [retain_step, hk', Bool.false_eq_true, if_false, h1, h2, h3,
        List.filter_cons, hk, List.filter_nil, List.append_nil, and_self]

theorem retain_foldl_back (z3_preds : List ast) (used : List Bool) (n : Nat)
    (st : retain_state) (k : Nat) (i : Nat)
    (hk : ((List.range n).filter (keep z3_preds.length used))[k]? = some i)
    (hi : i < st.2.2.length) :
    ((List.range n).foldl (retain_step z3_preds used) st).2.2[i]? =
      some (st.1.length + k) := by
  induction n generalizing k i with
  | zero => simp at hk
  | succ n ih =>
    obtain ⟨h1, h2, h3⟩ := retain_foldl_lists z3_preds used n st
    rw [List.range_succ, List.filter_append] at hk
    rw [List.range_succ, List.foldl_append]
    simp only [List.foldl_cons, List.foldl_nil]
    have hmem : ∀ j, j ∈ (List.range n).filter (keep z3_preds.length used) → j < n := by
      intro j hj
      exact List.mem_range.mp (List.mem_filter.mp hj).1
    by_cases hkn : keep z3_preds.length used n = true
    · have hk' : (used.getD n false || n == z3_preds.length - 1) = true := hkn
      simp only [retain_step, hk', if_true]
      rw [List.getElem?_set]
      by_cases hlt : k < ((List.range n).filter (keep z3_preds.length used)).length
      · rw [List.getElem?_append_left hlt] at hk
        have hin : i < n := hmem i (List.getElem?_mem hk)
        rw [if_neg (by omega)]
        exact ih k i hk hi
      · rw [List.getElem?_append_right (by omega)] at hk
        simp only [List.filter_cons, hkn, if_true, List.filter_nil] at hk
        have hk0 : k - ((List.range n).filter (keep z3_preds.length used)).length = 0 := by
          by_contra hne
          rw [List.getElem?_eq_none (by simp; omega)] at hk
          exact Option.noConfusion hk
        rw [hk0] at hk
        simp only [List.getElem?_cons_zero, Option.some.injEq] at hk
        subst hk
        simp only [if_true, h3, hi, h1, List.length_append, List.length_map,
          List.length_cons, List.length_nil]
        congr 1
        omega
    · have hk' : (used.getD n false || n == z3_preds.length - 1) = false := by
        simpa [keep] using hkn
      simp only [List.filter_cons, hkn, Bool.false_eq_true, if_false, List.filter_nil,
        List.append_nil] at hk
      simp only [retain_step, hk', Bool.false_eq_true, if_false]
      exact ih k i hk hi

end iz3

namespace iz3

theorem retain_loop_eq (z3_preds : List ast) (used : List Bool) :
    retain_loop z3_preds used ([], [], List.replicate z3_preds.length 0) =
      ((retained z3_preds.length used).map (fun i => z3_preds.getD i default),
        retained z3_preds.length used, back_map_of z3_preds used) := by
  obtain ⟨h1, h2, _⟩ := retain_foldl_lists z3_preds used z3_preds.length
    ([], [], List.replicate z3_preds.length 0)
  simp only [List.nil_append] at h1 h2
  refine Prod.ext ?_ (Prod.ext ?_ ?_)
  · exact h1
  · exact h2
  · rfl

theorem back_map_of_length (z3_preds : List ast) (used : List Bool) :
    (back_map_of z3_preds used).length = z3_preds.length := by
  have := (retain_foldl_lists z3_preds used z3_preds.length
    ([], [], List.replicate z3_preds.length 0)).2.2
  simpa [back_map_of, retain_loop] using this

theorem retained_lt (n : Nat) (used : List Bool) (k i : Nat)
    (h : (retained n used)[k]? = some i) : i < n :=
  List.mem_range.mp (List.mem_filter.mp (List.getElem?_mem h)).1

theorem back_map_of_retained (z3_preds : List ast) (used : List Bool) (k i : Nat)
    (h : (retained z3_preds.length used)[k]? = some i) :
    (back_map_of z3_preds used)[i]? = some k := by
  have := retain_foldl_back z3_preds used z3_preds.length
    ([], [], List.replicate z3_preds.length 0) k i h
    (by simpa using retained_lt _ _ _ _ h)
  simpa [back_map_of, retain_loop] using this

theorem retained_eq (n : Nat) (used : List Bool) (hn : 1 ≤ n) :
    retained n used = (List.range (n - 1)).filter (fun i => used.getD i false) ++ [n - 1] := by
  obtain ⟨m, rfl⟩ : ∃ m, n = m + 1 := ⟨n - 1, by omega⟩
  simp only [retained, List.range_succ, List.filter_append, Nat.add_sub_cancel]
  congr 1
  · apply List.filter_congr
    intro i hi
    have : i < m := List.mem_range.mp hi
    have hne : (i == m) = false := by simp; omega
    simp [keep, hne]
  · simp [keep]

theorem retained_length_pos (n : Nat) (used : List Bool) (hn : 1 ≤ n) :
    1 ≤ (retained n used).length := by
  rw [retained_eq n used hn]; simp

/-- Entries of the forward map before the last one are used frames below `n-1`. -/
theorem retained_init (n : Nat) (used : List Bool) (hn : 1 ≤ n) (k i : Nat)
    (hk : k + 1 < (retained n used).length) (h : (retained n used)[k]? = some i) :
    i < n - 1 ∧ used.getD i false = true := by
  rw [retained_eq n used hn] at h hk
  simp only [List.length_append, List.length_cons, List.length_nil] at hk
  rw [List.getElem?_append_left (by omega)] at h
  have := List.mem_filter.mp (List.getElem?_mem h)
  exact ⟨List.mem_range.mp this.1, by simpa using this.2⟩

theorem foldlM_set_ok {α : Type} (g : Nat → Except fault α) (vals : Nat → α) (n : Nat)
    (v0 : List α) (hlen : n ≤ v0.length) (h : ∀ i, i < n → g i = .ok (vals i)) :
    (List.range n).foldlM (fun v i => do let x ← g i; vset v i x) v0 =
      .ok ((List.range n).foldl (fun v i => v.set i (vals i)) v0) := by
  obtain ⟨s, hs, hinv⟩ := foldlM_range_inv (fun v i => do let x ← g i; vset v i x)
    (fun i s => s = (List.range i).foldl (fun v i => v.set i (vals i)) v0) n v0 rfl
    (by
      intro i s hi hs
      refine ⟨s.set i (vals i), ?_, ?_⟩
      · show (g i >>= fun x => vset s i x) = _
        rw [h i hi]
        show vset s i (vals i) = _
        apply vset_ok
        rw [hs, foldl_set_length]; omega
      · show s.set i (vals i) = _
        rw [List.range_succ, List.foldl_append, ← hs]; rfl)
  rw [hs, hinv]

theorem foldl_set_resize_nil {α : Type} (vals : Nat → α) (n : Nat) (d : α) :
    (List.range n).foldl (fun v i => v.set i (vals i)) (resize [] n d) =
      (List.range n).map vals := by
  apply List.ext_getElem?
  intro i
  rw [foldl_set_getElem?, resize_length]
  by_cases h : i < n
  · simp [h, List.getElem?_eq_getElem]
  · simp [h, List.getElem?_eq_none, resize_length, Nat.le_of_not_lt h]

/-- Closed form of `get_frames` once every reduced parent is known to be computed. -/
theorem get_frames_ok (fuel : Nat) (z3_preds : List ast) (orig_parents : List Int)
    (proof : z3pf) (vals : Nat → Int)
    (h : orig_parents.length ≠ 0 →
      ∀ i, i < (retained z3_preds.length (used_of z3_preds proof)).length →
        reduced_parent fuel orig_parents (used_of z3_preds proof)
          (retained z3_preds.length (used_of z3_preds proof))
          (back_map_of z3_preds (used_of z3_preds proof)) i = .ok (vals i)) :
    get_frames fuel z3_preds orig_parents [] [] proof =
      .ok ({ frames := z3_preds.length, frame_map := build_frame_map z3_preds [],
             assertions_map := retained z3_preds.length (used_of z3_preds proof),
             orig_parents_copy := orig_parents, used_frames := used_of z3_preds proof },
           (retained z3_preds.length (used_of z3_preds proof)).map
             (fun i => z3_preds.getD i default),
           if orig_parents.length ≠ 0 then
             (List.range (retained z3_preds.length (used_of z3_preds proof)).length).map vals
           else []) := by
  unfold get_frames
  simp only
  have hu : (get_proof_assumptions_rec (build_frame_map z3_preds []) proof
      ([], resize [] z3_preds.length false)).2 = used_of z3_preds proof := rfl
  rw [hu, retain_loop_eq]
  simp only [List.length_map]
  by_cases hp : orig_parents.length ≠ 0
  · rw [if_pos hp, if_pos hp]
    have := foldlM_set_ok
      (reduced_parent fuel orig_parents (used_of z3_preds proof)
          (retained z3_preds.length (used_of z3_preds proof))
          (back_map_of z3_preds (used_of z3_preds proof))) vals
      (retained z3_preds.length (used_of z3_preds proof)).length
      (resize [] (retained z3_preds.length (used_of z3_preds proof)).length 0)
      (by rw [resize_length]) (h hp)
    unfold parents_step
    rw [this, foldl_set_resize_nil]
  · rw [if_neg hp, if_neg hp]

/-! ## The parent walk -/

theorem walk_cond_stop (used : List Bool) (p : Int)
    (h : p = SHRT_MAX ∨ (0 ≤ p ∧ used[p.toNat]? = some true)) :
    walk_cond used p = .ok false := by
  unfold walk_cond
  by_cases hs : p = SHRT_MAX
  · simp [hs]
  · rcases h with h | ⟨h0, hu⟩
    · exact absurd h hs
    · simp [hs, vget_int_eq_ok used p true h0 hu]

theorem walk_cond_go (used : List Bool) (p : Int) (hs : p ≠ SHRT_MAX) (h0 : 0 ≤ p)
    (hu : used[p.toNat]? = some false) : walk_cond used p = .ok true := by
  unfold walk_cond
  simp [hs, vget_int_eq_ok used p false h0 hu]

theorem parent_walk_used (parents : List Int) (used : List Bool) (fuel : Nat) (p : Int)
    (h : p = SHRT_MAX ∨ (0 ≤ p ∧ used[p.toNat]? = some true)) :
    parent_walk parents used fuel p = .ok p := by
  cases fuel <;> simp [parent_walk, walk_cond_stop used p h]

theorem parent_walk_ok (parents : List Int) (used : List Bool) (n : Nat)
    (hlen : parents.length = n) (hu : used.length = n) (hv : entries_ok true n parents) :
    ∀ (fuel : Nat) (p : Int),
      (p = SHRT_MAX ∨ (0 ≤ p ∧ p < n ∧ n ≤ fuel + p.toNat)) →
      ∃ q, parent_walk parents used fuel p = .ok q ∧
        (q = SHRT_MAX ∨ (0 ≤ q ∧ q < n ∧ used[q.toNat]? = some true)) := by
  intro fuel
  induction fuel with
  | zero =>
    intro p hp
    rcases hp with hp | ⟨h0, hlt, hf⟩
    · exact ⟨p, parent_walk_used _ _ _ _ (Or.inl hp), Or.inl hp⟩
    · omega
  | succ fuel ih =>
    intro p hp
    by_cases hs : p = SHRT_MAX
    · exact ⟨p, parent_walk_used _ _ _ _ (Or.inl hs), Or.inl hs⟩
    · rcases hp with hp | ⟨h0, hlt, hf⟩
      · exact absurd hp hs
      · have hpn : p.toNat < n := by omega
        have hpu : p.toNat < used.length := by omega
        have hpp : p.toNat < parents.length := by omega
        cases hb : used[p.toNat] with
        | true =>
          have hu1 : used[p.toNat]? = some true := by
            rw [List.getElem?_eq_getElem (by omega), hb]
          exact ⟨p, parent_walk_used _ _ _ _ (Or.inr ⟨h0, hu1⟩), Or.inr ⟨h0, hlt, hu1⟩⟩
        | false =>
          have hu1 : used[p.toNat]? = some false := by
            rw [List.getElem?_eq_getElem (by omega), hb]
          have hq : parents[p.toNat]? = some parents[p.toNat] :=
            List.getElem?_eq_getElem hpp
          have hent := hv p.toNat _ hq
          have hnext : ∃ q, parent_walk parents used fuel parents[p.toNat]
              = .ok q ∧ (q = SHRT_MAX ∨ (0 ≤ q ∧ q < n ∧ used[q.toNat]? = some true)) := by
            apply ih
            rcases hent with h | ⟨h1, h2, h3⟩
            · exact Or.inl h
            · have := h3 rfl
              exact Or.inr ⟨h1, h2, by omega⟩
          obtain ⟨q, hq1, hq2⟩ := hnext
          refine ⟨q, ?_, hq2⟩
          simp [parent_walk, walk_cond_go used p hs h0 hu1,
            vget_int_eq_ok parents p _ h0 hq, hq1]

end iz3

namespace iz3

theorem nodup_getElem?_inj {α : Type} {l : List α} (h : l.Nodup) {i j : Nat} {a : α}
    (hi : l[i]? = some a) (hj : l[j]? = some a) : i = j := by
  rw [List.nodup_iff_getElem?_ne_getElem?] at h
  have hil : i < l.length := by
    by_contra hc
    rw [List.getElem?_eq_none (by omega)] at hi
    exact Option.noConfusion hi
  have hjl : j < l.length := by
    by_contra hc
    rw [List.getElem?_eq_none (by omega)] at hj
    exact Option.noConfusion hj
  by_contra hne
  rcases Nat.lt_or_gt_of_ne hne with hlt | hgt
  · exact h i j hlt hjl (by rw [hi, hj])
  · exact h j i hgt hil (by rw [hi, hj])

theorem retained_nodup (n : Nat) (used : List Bool) : (retained n used).Nodup :=
  (List.nodup_range n).filter _

/-! ## `fix_interpolants`, loop by loop -/

/-- The write-back loop (line 117-118): every slot named by the forward map
receives its reduced interpolant, every other slot is left alone. -/
theorem write_back_ok (amap : List Nat) (unfixed v1 : List ast) (hnd : amap.Nodup)
    (hin : ∀ k, k < unfixed.length → ∃ i, amap[k]? = some i ∧ i < v1.length) :
    ∃ v2, (List.range unfixed.length).foldlM (unfixed_step amap unfixed) v1 = .ok v2 ∧
      v2.length = v1.length ∧
      (∀ k i, k < unfixed.length → amap[k]? = some i → v2[i]? = unfixed[k]?) ∧
      (∀ j, (∀ k, k < unfixed.length → amap[k]? ≠ some j) → v2[j]? = v1[j]?) := by
  have := foldlM_range_inv (unfixed_step amap unfixed)
    (fun m v => v.length = v1.length ∧
      (∀ k i, k < m → amap[k]? = some i → v[i]? = unfixed[k]?) ∧
      (∀ j, (∀ k, k < m → amap[k]? ≠ some j) → v[j]? = v1[j]?))
    unfixed.length v1
    ⟨rfl, fun k i hk => absurd hk (Nat.not_lt_zero k), fun j _ => rfl⟩
    (by
      intro m v hm ⟨hl, hA, hB⟩
      obtain ⟨a, ha, hal⟩ := hin m hm
      have hu : unfixed[m]? = some unfixed[m] := List.getElem?_eq_getElem hm
      refine ⟨v.set a unfixed[m], ?_, ?_, ?_, ?_⟩
      · show (vget amap m >>= fun a => vget unfixed m >>= fun u => vset v a u) = _
        rw [vget_eq_ok amap m a ha]
        show (vget unfixed m >>= fun u => vset v a u) = _
        rw [vget_eq_ok unfixed m _ hu]
        exact vset_ok v a _ (by omega)
      · simp [hl]
      · intro k i hk hki
        rw [List.getElem?_set]
        by_cases hkm : k = m
        · subst hkm
          rw [ha] at hki
          cases hki
          simp [hl, hal, hu]
        · have hne : a ≠ i := by
            intro hai
            subst hai
            exact hkm (nodup_getElem?_inj hnd hki ha)
          rw [if_neg hne]
          exact hA k i (by omega) hki
      · intro j hj
        have hne : a ≠ j := by
          intro haj
          subst haj
          exact hj m (by omega) ha
        rw [List.getElem?_set, if_neg hne]
        exact hB j (fun k hk => hj k (by omega)))
  obtain ⟨v2, h1, h2, h3, h4⟩ := this
  exact ⟨v2, h1, h2, h3, h4⟩

/-- One iteration of the propagation loop (lines 120-122) in closed form. -/
theorem propagate_step_ok (fr : frame_reducer) (v : List ast) (i : Nat) (p : Int)
    (hp : propagate_parent fr i = some p) (h0 : 0 ≤ p)
    (hul : fr.used_frames.length = fr.frames) (hvl : v.length = fr.frames - 1)
    (hi : i < v.length) :
    propagate_step fr v i =
      .ok (if p < (fr.frames : Int) - 1 ∧ fr.used_frames[p.toNat]? = some false
           then v.set p.toNat v[i] else v) := by
  have hread : (if fr.orig_parents_copy.length = 0 then (pure ((i : Int) + 1) : Except fault Int)
      else vget fr.orig_parents_copy i) = .ok p := by
    unfold propagate_parent at hp
    by_cases hz : fr.orig_parents_copy.length = 0
    · rw [if_pos hz] at hp ⊢
      cases hp; rfl
    · rw [if_neg hz] at hp ⊢
      exact vget_eq_ok _ _ _ hp
  unfold propagate_step
  rw [hread]
  show (if p < (fr.frames : Int) - 1 then _ else _) = _
  by_cases hlt : p < (fr.frames : Int) - 1
  · rw [if_pos hlt]
    have hpn : p.toNat < fr.used_frames.length := by omega
    have hu : fr.used_frames[p.toNat]? = some fr.used_frames[p.toNat] :=
      List.getElem?_eq_getElem hpn
    rw [vget_int_eq_ok _ p _ h0 hu]
    show (if (!fr.used_frames[p.toNat]) = true then _ else _) = _
    cases hb : fr.used_frames[p.toNat] with
    | true =>
      rw [hb] at hu
      simp [hu, hlt]
      rfl
    | false =>
      rw [hb] at hu
      simp only [Bool.not_false, if_true, hu, hlt, and_self]
      rw [vget_ok v i hi]
      exact vset_int_ok v p _ h0 (by omega)
  · rw [if_neg hlt]
    simp [hlt]
    rfl

end iz3

namespace iz3

theorem entries_ok_nonneg {strict : Bool} {n : Nat} {parents : List Int}
    (h : entries_ok strict n parents) {i : Nat} {p : Int} (hp : parents[i]? = some p) :
    0 ≤ p := by
  rcases h i p hp with h | ⟨h, _⟩
  · rw [h]; decide
  · exact h

/-- The closed form of `fix_interpolants` before its propagation loop. -/
theorem fix_interpolants_eq (fr : frame_reducer) (unfixed : List ast) (hN : 1 ≤ fr.frames)
    (hnd : fr.assertions_map.Nodup)
    (hin : ∀ k, k < unfixed.length →
      ∃ i, fr.assertions_map[k]? = some i ∧ i < fr.frames - 1) :
    ∃ v2, v2.length = fr.frames - 1 ∧
      (∀ k i, k < unfixed.length → fr.assertions_map[k]? = some i → v2[i]? = unfixed[k]?) ∧
      (∀ j, j < fr.frames - 1 → (∀ k, k < unfixed.length → fr.assertions_map[k]? ≠ some j) →
        v2[j]? = some mk_true) ∧
      fix_interpolants fr unfixed = (List.range (fr.frames - 2)).foldlM (propagate_step fr) v2 := by
  have hl1 : ((List.range (fr.frames - 1)).foldl (fun v i => v.set i mk_true)
      (resize unfixed (fr.frames - 1) default)).length = fr.frames - 1 := by
    rw [foldl_set_length, resize_length]
  obtain ⟨v2, h1, h2, h3, h4⟩ := write_back_ok fr.assertions_map unfixed
    ((List.range (fr.frames - 1)).foldl (fun v i => v.set i mk_true)
      (resize unfixed (fr.frames - 1) default)) hnd
    (by intro k hk; rw [hl1]; exact hin k hk)
  refine ⟨v2, by rw [h2, hl1], h3, ?_, ?_⟩
  · intro j hj hk
    rw [h4 j hk, foldl_set_getElem?, resize_length]
    simp [hj]
  · unfold fix_interpolants
    have hz : fr.frames ≠ 0 := by omega
    simp only [hz, if_false]
    rw [h1]

/-- The propagation loop keeps the length of the sequence. -/
theorem propagate_loop_length (fr : frame_reducer) (v2 : List ast)
    (hul : fr.used_frames.length = fr.frames) (hvl : v2.length = fr.frames - 1)
    (hpar : ∀ i, i < fr.frames - 2 → ∃ p, propagate_parent fr i = some p ∧ 0 ≤ p) :
    ∃ r, (List.range (fr.frames - 2)).foldlM (propagate_step fr) v2 = .ok r ∧
      r.length = fr.frames - 1 := by
  apply foldlM_range_inv (propagate_step fr) (fun _ v => v.length = fr.frames - 1)
    (fr.frames - 2) v2 hvl
  intro i v hi hv
  obtain ⟨p, hp, h0⟩ := hpar i hi
  refine ⟨_, propagate_step_ok fr v i p hp h0 hul hv (by omega), ?_⟩
  split_ifs
  · simp [hv]
  · exact hv

/-- A well-formed original parent vector makes every read of the propagation
loop succeed with a non-negative parent. -/
theorem propagate_parent_ok (fr : frame_reducer) (strict : Bool)
    (hp : parents_ok strict fr.frames fr.orig_parents_copy) (i : Nat)
    (hi : i < fr.frames - 2) : ∃ p, propagate_parent fr i = some p ∧ 0 ≤ p := by
  unfold propagate_parent
  rcases hp with hp | ⟨hl, he⟩
  · simp only [hp, List.length_nil, if_true]
    exact ⟨_, rfl, by omega⟩
  · have hne : fr.orig_parents_copy.length ≠ 0 := by omega
    rw [if_neg hne]
    have hil : i < fr.orig_parents_copy.length := by omega
    exact ⟨_, List.getElem?_eq_getElem hil,
      entries_ok_nonneg he (List.getElem?_eq_getElem hil)⟩

/-- Every reduced parent is computed when the original parent vector is
well formed with strictly larger parents and the fuel covers the frame count. -/
theorem reduced_parent_ok (fuel : Nat) (z3_preds : List ast) (parents : List Int)
    (used : List Bool) (hu : used.length = z3_preds.length)
    (hl : parents.length = z3_preds.length)
    (he : entries_ok true z3_preds.length parents) (hf : z3_preds.length ≤ fuel)
    (i : Nat) (hi : i < (retained z3_preds.length used).length) :
    ∃ v, reduced_parent fuel parents used (retained z3_preds.length used)
      (back_map_of z3_preds used) i = .ok v := by
  have ha : (retained z3_preds.length used)[i]? = some (retained z3_preds.length used)[i] :=
    List.getElem?_eq_getElem hi
  have haN := retained_lt _ _ _ _ ha
  have hap : (retained z3_preds.length used)[i] < parents.length := by omega
  have hp0 : parents[(retained z3_preds.length used)[i]]? =
      some parents[(retained z3_preds.length used)[i]] :=
    List.getElem?_eq_getElem hap
  obtain ⟨q, hq, hq2⟩ := parent_walk_ok parents used z3_preds.length hl hu he fuel
    parents[(retained z3_preds.length used)[i]]
    (by
      rcases he _ _ hp0 with h | ⟨h1, h2, _⟩
      · exact Or.inl h
      · exact Or.inr ⟨h1, h2, by omega⟩)
  unfold reduced_parent
  simp only [bind, Except.bind, vget_eq_ok _ _ _ ha, vget_eq_ok _ _ _ hp0, hq]
  by_cases hs : q = SHRT_MAX
  · simp [hs, pure, Except.pure]
  · rcases hq2 with h | ⟨h0, hlt, _⟩
    · exact absurd h hs
    · have hb : q.toNat < (back_map_of z3_preds used).length := by
        rw [back_map_of_length]; omega
      simp [hs, vget_int_eq_ok _ q _ h0 (List.getElem?_eq_getElem hb), Functor.map,
        Except.map]

/-- Under the contract of `C1` the reduction succeeds; this is its result. -/
theorem get_frames_total (fuel : Nat) (z3_preds : List ast) (parents : List Int)
    (proof : z3pf) (hp : parents_ok true z3_preds.length parents)
    (hf : z3_preds.length ≤ fuel) :
    ∃ parents_vec, get_frames fuel z3_preds parents [] [] proof =
      .ok ({ frames := z3_preds.length, frame_map := build_frame_map z3_preds [],
             assertions_map := retained z3_preds.length (used_of z3_preds proof),
             orig_parents_copy := parents, used_frames := used_of z3_preds proof },
           (retained z3_preds.length (used_of z3_preds proof)).map
             (fun i => z3_preds.getD i default), parents_vec) := by
  let vals : Nat → Int := fun i =>
    match reduced_parent fuel parents (used_of z3_preds proof)
        (retained z3_preds.length (used_of z3_preds proof))
        (back_map_of z3_preds (used_of z3_preds proof)) i with
    | .ok v => v
    | .error _ => 0
  refine ⟨_, get_frames_ok fuel z3_preds parents proof vals ?_⟩
  intro hne i hi
  rcases hp with hp | ⟨hl, he⟩
  · simp [hp] at hne
  · obtain ⟨v, hv⟩ := reduced_parent_ok fuel z3_preds parents (used_of z3_preds proof)
      (used_of_length _ _) hl he hf i hi
    simp only [vals, hv]

/-- After a successful reduction, expansion returns one entry per original cut. -/
theorem fix_interpolants_total (z3_preds : List ast) (parents : List Int) (strict : Bool)
    (used : List Bool) (fm : hash_map ast Nat) (hN : 1 ≤ z3_preds.length)
    (hu : used.length = z3_preds.length)
    (hp : parents_ok strict z3_preds.length parents) (unfixed : List ast)
    (hlen : unfixed.length = (retained z3_preds.length used).length - 1) :
    ∃ r, fix_interpolants
        { frames := z3_preds.length, frame_map := fm,
          assertions_map := retained z3_preds.length used,
          orig_parents_copy := parents, used_frames := used } unfixed = .ok r ∧
      r.length = z3_preds.length - 1 := by
  obtain ⟨v2, hv2, _, _, heq⟩ := fix_interpolants_eq
    { frames := z3_preds.length, frame_map := fm,
      assertions_map := retained z3_preds.length used,
      orig_parents_copy := parents, used_frames := used } unfixed hN
    (retained_nodup _ _)
    (by
      intro k hk
      have hk2 : k < (retained z3_preds.length used).length := by
        show k < (retained z3_preds.length used).length
        omega
      exact ⟨_, List.getElem?_eq_getElem hk2,
        (retained_init _ _ hN k _ (by omega) (List.getElem?_eq_getElem hk2)).1⟩)
  rw [heq]
  exact propagate_loop_length _ v2 hu hv2 (fun i hi => propagate_parent_ok _ strict hp i hi)

theorem proof_to_interpolant_eq (tr : translator) (fuel : Nat) (proof : z3pf)
    (cnsts : List ast) (parents : List Int) (theory : List ast) (fr : frame_reducer)
    (cnsts_vec : List ast) (parents_vec : List Int)
    (h : get_frames fuel cnsts parents [] [] proof = .ok (fr, cnsts_vec, parents_vec))
    (hnum : cnsts_vec.length ≠ 0) :
    ∃ interps_vec, interps_vec.length = cnsts_vec.length - 1 ∧
      proof_to_interpolant tr fuel proof cnsts parents theory =
        fix_interpolants fr interps_vec := by
  refine ⟨(List.range (cnsts_vec.length - 1)).foldl
      (fun v i => v.set i
        (tr cnsts_vec (if is_linear parents_vec then [] else parents_vec) theory proof i))
      (List.replicate (cnsts_vec.length - 1) default), ?_, ?_⟩
  · rw [foldl_set_length]; simp
  · unfold proof_to_interpolant
    rw [h]
    simp only [hnum, if_false]

/-! ## Count invariant -/

/-- C1: for `N >= 1` frames, a parent vector that is empty or has one entry per
frame, each the sentinel or a larger in-range index, any proof, and fuel for
`N` iterations of the parent walk, `get_frames` succeeds; `fix_interpolants`
then turns any sequence of one interpolant per reduced cut into a sequence of
exactly `N-1` entries, and so does `proof_to_interpolant` for every translator. -/
theorem C1_count_invariant (fuel : Nat) (proof : z3pf) (cnsts : List ast)
    (parents : List Int) (hN : 1 ≤ cnsts.length)
    (hp : parents_ok true cnsts.length parents) (hf : cnsts.length ≤ fuel) :
    ∃ fr cnsts_vec parents_vec,
      get_frames fuel cnsts parents [] [] proof = .ok (fr, cnsts_vec, parents_vec) ∧
      (∀ unfixed : List ast, unfixed.length = cnsts_vec.length - 1 →
        ∃ r, fix_interpolants fr unfixed = .ok r ∧ r.length = cnsts.length - 1) ∧
      (∀ (tr : translator) (theory : List ast),
        ∃ interps, proof_to_interpolant tr fuel proof cnsts parents theory = .ok interps ∧
          interps.length = cnsts.length - 1) := by
  obtain ⟨parents_vec, hg⟩ := get_frames_total fuel cnsts parents proof hp hf
  have hfix : ∀ unfixed : List ast,
      unfixed.length = ((retained cnsts.length (used_of cnsts proof)).map
        (fun i => cnsts.getD i default)).length - 1 →
      ∃ r, fix_interpolants
        { frames := cnsts.length, frame_map := build_frame_map cnsts [],
          assertions_map := retained cnsts.length (used_of cnsts proof),
          orig_parents_copy := parents, used_frames := used_of cnsts proof } unfixed = .ok r ∧
        r.length = cnsts.length - 1 := by
    intro unfixed hlen
    exact fix_interpolants_total cnsts parents true _ _ hN (used_of_length _ _) hp unfixed
      (by simpa using hlen)
  refine ⟨_, _, parents_vec, hg, hfix, ?_⟩
  intro tr theory
  obtain ⟨iv, hiv, heq⟩ := proof_to_interpolant_eq tr fuel proof cnsts parents theory _ _ _ hg
    (by
      have := retained_length_pos cnsts.length (used_of cnsts proof) hN
      simp only [List.length_map]; omega)
  rw [heq]
  exact hfix iv hiv

theorem C1_count_invariant_witness :
    ∃ fr cnsts_vec parents_vec,
      get_frames 3 [atom 1, atom 2, atom 3] [1, 2, SHRT_MAX] [] []
          (.step 0 mk_false [.asserted (atom 1), .asserted (atom 3)]) =
        .ok (fr, cnsts_vec, parents_vec) ∧
      (∀ unfixed : List ast, unfixed.length = cnsts_vec.length - 1 →
        ∃ r, fix_interpolants fr unfixed = .ok r ∧
          r.length = [atom 1, atom 2, atom 3].length - 1) ∧
      (∀ (tr : translator) (theory : List ast),
        ∃ interps, proof_to_interpolant tr 3
            (.step 0 mk_false [.asserted (atom 1), .asserted (atom 3)])
            [atom 1, atom 2, atom 3] [1, 2, SHRT_MAX] theory = .ok interps ∧
          interps.length = [atom 1, atom 2, atom 3].length - 1) :=
  C1_count_invariant 3 (.step 0 mk_false [.asserted (atom 1), .asserted (atom 3)])
    [atom 1, atom 2, atom 3] [1, 2, SHRT_MAX] (by decide) (by decide) (by decide)

end iz3

namespace iz3

/-! ## Soundness of reduction -/

theorem frame_map_loop_find (z3_preds : List ast) (n : Nat) (c : ast) (j : Nat) :
    hash_map.find ((List.range n).foldl
        (fun m i => hash_map.set m (z3_preds.getD i default) i) ([] : hash_map ast Nat)) c
      = some j ↔
    j < n ∧ z3_preds.getD j default = c ∧
      ∀ k, j < k → k < n → z3_preds.getD k default ≠ c := by
  induction n generalizing j with
  | zero => simp [hash_map.find]
  | succ n ih =>
    have hset : ∀ (m : hash_map ast Nat) (a : ast) (i : Nat),
        (hash_map.set m a i).find c = if c = a then some i else m.find c := by
      intros; rfl
    rw [List.range_succ, List.foldl_append]
    simp only [List.foldl_cons, List.foldl_nil]
    rw [hset]
    by_cases hc : c = z3_preds.getD n default
    · rw [if_pos hc]
      constructor
      · intro h
        cases h
        exact ⟨by omega, hc.symm, fun k h1 h2 => by omega⟩
      · rintro ⟨h1, h2, h3⟩
        by_cases hjn : j = n
        · rw [hjn]
        · exact absurd hc.symm (h3 n (by omega) (by omega))
    · rw [if_neg hc, ih]
      constructor
      · rintro ⟨h1, h2, h3⟩
        refine ⟨by omega, h2, fun k hk1 hk2 => ?_⟩
        by_cases hkn : k = n
        · rw [hkn]; exact fun h => hc h.symm
        · exact h3 k hk1 (by omega)
      · rintro ⟨h1, h2, h3⟩
        have hjn : j ≠ n := by
          intro h
          rw [h] at h2
          exact hc h2.symm
        exact ⟨by omega, h2, fun k hk1 hk2 => h3 k hk1 (by omega)⟩

/-- The frame map sends a formula to the last index at which it occurs. -/
theorem build_frame_map_find (z3_preds : List ast) (c : ast) (j : Nat) :
    (build_frame_map z3_preds []).find c = some j ↔
      z3_preds[j]? = some c ∧ ∀ k, j < k → z3_preds[k]? ≠ some c := by
  unfold build_frame_map
  rw [frame_map_loop_find]
  constructor
  · rintro ⟨h1, h2, h3⟩
    refine ⟨by rw [List.getElem?_eq_getElem h1]; simpa [List.getD_eq_getElem?_getD,
      List.getElem?_eq_getElem h1] using h2, fun k hk hkc => ?_⟩
    have hkl : k < z3_preds.length := by
      by_contra hc
      rw [List.getElem?_eq_none (by omega)] at hkc
      exact Option.noConfusion hkc
    exact h3 k hk hkl (by rw [List.getD_eq_getElem?_getD, hkc]; rfl)
  · rintro ⟨h1, h2⟩
    have hjl : j < z3_preds.length := by
      by_contra hc
      rw [List.getElem?_eq_none (by omega)] at h1
      exact Option.noConfusion h1
    refine ⟨hjl, by rw [List.getD_eq_getElem?_getD, h1]; rfl, fun k hk hkl hkc => ?_⟩
    apply h2 k hk
    rw [List.getElem?_eq_getElem hkl]
    rw [List.getD_eq_getElem?_getD, List.getElem?_eq_getElem hkl] at hkc
    simpa using hkc

theorem build_frame_map_lt (z3_preds : List ast) (c : ast) (j : Nat)
    (h : (build_frame_map z3_preds []).find c = some j) : j < z3_preds.length := by
  have := ((build_frame_map_find z3_preds c j).mp h).1
  by_contra hc
  rw [List.getElem?_eq_none (by omega)] at this
  exact Option.noConfusion this

theorem mem_asserted_concs_prems (ps : List z3pf) (c : ast) :
    c ∈ asserted_concs_prems ps ↔ ∃ p, p ∈ ps ∧ c ∈ asserted_concs p := by
  induction ps with
  | nil => simp [asserted_concs_prems]
  | cons p rest ih =>
    simp only [asserted_concs_prems, List.mem_append, ih, List.mem_cons]
    constructor
    · rintro (h | ⟨q, hq, hc⟩)
      · exact ⟨p, Or.inl rfl, h⟩
      · exact ⟨q, Or.inr hq, hc⟩
    · rintro ⟨q, hq | hq, hc⟩
      · subst hq
        exact Or.inl hc
      · exact Or.inr ⟨q, hq, hc⟩

mutual
theorem mem_asserted_concs_reachable :
    ∀ (p : z3pf) (c : ast), c ∈ asserted_concs p → reachable p (.asserted c)
  | .asserted con, c, h => by
    simp only [asserted_concs, List.mem_singleton] at h
    subst h
    exact reachable.here _
  | .step k con ps, c, h => by
    simp only [asserted_concs] at h
    obtain ⟨q, hq, hr⟩ := mem_prems_reachable ps c h
    exact reachable.through k con ps q _ hq hr
theorem mem_prems_reachable :
    ∀ (ps : List z3pf) (c : ast), c ∈ asserted_concs_prems ps →
      ∃ q, q ∈ ps ∧ reachable q (.asserted c)
  | [], c, h => by simp [asserted_concs_prems] at h
  | p :: rest, c, h => by
    simp only [asserted_concs_prems, List.mem_append] at h
    rcases h with h | h
    · exact ⟨p, List.mem_cons_self _ _, mem_asserted_concs_reachable p c h⟩
    · obtain ⟨q, hq, hr⟩ := mem_prems_reachable rest c h
      exact ⟨q, List.mem_cons_of_mem _ hq, hr⟩
end

theorem reachable_mem_asserted_concs (p r : z3pf) (h : reachable p r) :
    ∀ c, r = .asserted c → c ∈ asserted_concs p := by
  induction h with
  | here p =>
    intro c hc
    subst hc
    simp [asserted_concs]
  | through k con ps q r hq _ ih =>
    intro c hc
    simp only [asserted_concs]
    exact (mem_asserted_concs_prems ps c).mpr ⟨q, hq, ih c hc⟩

/-- The unmemoized leaf list is exactly the set of reachable assumption leaves. -/
theorem mem_asserted_concs_iff (p : z3pf) (c : ast) :
    c ∈ asserted_concs p ↔ reachable p (.asserted c) :=
  ⟨mem_asserted_concs_reachable p c, fun h => reachable_mem_asserted_concs p _ h c rfl⟩

theorem marked_mono (fm : hash_map ast Nat) (used used2 : List Bool) (q : z3pf)
    (hm : ∀ j : Nat, used[j]? = some true → used2[j]? = some true) (h : marked fm used q) :
    marked fm used2 q :=
  fun c hc j hj => hm j (h c hc j hj)

mutual
/-- Completeness of the memoized traversal: under the invariant that every
visited node no larger than the current one is fully marked, the call marks
every leaf below the current node and every node it adds to the memo set. -/
theorem rec_complete (fm : hash_map ast Nat) :
    ∀ (p : z3pf) (memo : List z3pf) (used : List Bool),
      (∀ c j, fm.find c = some j → j < used.length) →
      (∀ q, q ∈ memo → sizeOf q ≤ sizeOf p → marked fm used q) →
      (∀ q, q ∈ memo → q ∈ (get_proof_assumptions_rec fm p (memo, used)).1) ∧
      (∀ j : Nat, used[j]? = some true →
        (get_proof_assumptions_rec fm p (memo, used)).2[j]? = some true) ∧
      marked fm (get_proof_assumptions_rec fm p (memo, used)).2 p ∧
      (∀ q, q ∈ (get_proof_assumptions_rec fm p (memo, used)).1 → q ∉ memo →
        marked fm (get_proof_assumptions_rec fm p (memo, used)).2 q)
  | .asserted con, memo, used, hfm, hpre => by
    simp only [get_proof_assumptions_rec]
    by_cases hin : z3pf.asserted con ∈ memo
    · rw [if_pos hin]
      exact ⟨fun q hq => hq, fun j hj => hj, hpre _ hin (Nat.le_refl _),
        fun q hq hnq => absurd hq hnq⟩
    · rw [if_neg hin]
      cases hf : fm.find con with
      | none =>
        have hm : marked fm used (.asserted con) := by
          intro c hc j hj
          simp only [asserted_concs, List.mem_singleton] at hc
          subst hc
          rw [hf] at hj
          exact Option.noConfusion hj
        refine ⟨fun q hq => List.mem_cons_of_mem _ hq, fun j hj => hj, hm, ?_⟩
        intro q hq hnq
        simp only [List.mem_cons] at hq
        rcases hq with hq | hq
        · rw [hq]; exact hm
        · exact absurd hq hnq
      | some frame =>
        have hlt := hfm con frame hf
        have hmono : ∀ j : Nat, used[j]? = some true → (used.set frame true)[j]? = some true := by
          intro j hj
          rw [List.getElem?_set]
          by_cases h1 : frame = j
          · rw [if_pos h1, if_pos hlt]
          · rw [if_neg h1]
            exact hj
        have hm : marked fm (used.set frame true) (.asserted con) := by
          intro c hc j hj
          simp only [asserted_concs, List.mem_singleton] at hc
          subst hc
          rw [hf] at hj
          cases hj
          rw [List.getElem?_set]
          simp [hlt]
        refine ⟨fun q hq => List.mem_cons_of_mem _ hq, hmono, hm, ?_⟩
        intro q hq hnq
        simp only [List.mem_cons] at hq
        rcases hq with hq | hq
        · rw [hq]; exact hm
        · exact absurd hq hnq
  | .step k con ps, memo, used, hfm, hpre => by
    simp only [get_proof_assumptions_rec]
    by_cases hin : z3pf.step k con ps ∈ memo
    · rw [if_pos hin]
      exact ⟨fun q hq => hq, fun j hj => hj, hpre _ hin (Nat.le_refl _),
        fun q hq hnq => absurd hq hnq⟩
    · rw [if_neg hin]
      have hsz : ∀ p, p ∈ ps → sizeOf p ≤ sizeOf (z3pf.step k con ps) - 1 := by
        intro p hp
        have := List.sizeOf_lt_of_mem hp
        simp only [z3pf.step.sizeOf_spec]
        omega
      have hpre2 : ∀ q, q ∈ z3pf.step k con ps :: memo →
          sizeOf q ≤ sizeOf (z3pf.step k con ps) - 1 → marked fm used q := by
        intro q hq hs
        simp only [List.mem_cons] at hq
        rcases hq with hq | hq
        · rw [hq] at hs
          simp only [z3pf.step.sizeOf_spec] at hs
          omega
        · exact hpre q hq (by omega)
      obtain ⟨h1, h2, h3, h4⟩ := prems_complete fm ps
        (sizeOf (z3pf.step k con ps) - 1) (z3pf.step k con ps :: memo) used hfm hsz hpre2
      have hm : marked fm (get_proof_assumptions_prems fm ps
          (z3pf.step k con ps :: memo, used)).2 (.step k con ps) := by
        intro c hc j hj
        simp only [asserted_concs] at hc
        obtain ⟨p, hp, hcp⟩ := (mem_asserted_concs_prems ps c).mp hc
        exact h3 p hp c hcp j hj
      refine ⟨fun q hq => h1 q (List.mem_cons_of_mem _ hq), h2, hm, ?_⟩
      intro q hq hnq
      by_cases hqp : q = z3pf.step k con ps
      · rw [hqp]; exact hm
      · apply h4 q hq
        simp only [List.mem_cons, not_or]
        exact ⟨hqp, hnq⟩
theorem prems_complete (fm : hash_map ast Nat) :
    ∀ (ps : List z3pf) (B : Nat) (memo : List z3pf) (used : List Bool),
      (∀ c j, fm.find c = some j → j < used.length) →
      (∀ p, p ∈ ps → sizeOf p ≤ B) →
      (∀ q, q ∈ memo → sizeOf q ≤ B → marked fm used q) →
      (∀ q, q ∈ memo → q ∈ (get_proof_assumptions_prems fm ps (memo, used)).1) ∧
      (∀ j : Nat, used[j]? = some true →
        (get_proof_assumptions_prems fm ps (memo, used)).2[j]? = some true) ∧
      (∀ p, p ∈ ps → marked fm (get_proof_assumptions_prems fm ps (memo, used)).2 p) ∧
      (∀ q, q ∈ (get_proof_assumptions_prems fm ps (memo, used)).1 → q ∉ memo →
        marked fm (get_proof_assumptions_prems fm ps (memo, used)).2 q)
  | [], B, memo, used, hfm, hB, hpre => by
    simp only [get_proof_assumptions_prems]
    exact ⟨fun q hq => hq, fun j hj => hj, fun p hp => absurd hp (List.not_mem_nil p),
      fun q hq hnq => absurd hq hnq⟩
  | p :: rest, B, memo, used, hfm, hB, hpre => by
    simp only [get_proof_assumptions_prems]
    obtain ⟨a1, a2, a3, a4⟩ := rec_complete fm p memo used hfm
      (fun q hq hs => hpre q hq (Nat.le_trans hs (hB p (List.mem_cons_self _ _))))
    have hfm1 : ∀ c j, fm.find c = some j →
        j < (get_proof_assumptions_rec fm p (memo, used)).2.length := by
      intro c j hj
      rw [rec_used_length]
      exact hfm c j hj
    have hpre1 : ∀ q, q ∈ (get_proof_assumptions_rec fm p (memo, used)).1 → sizeOf q ≤ B →
        marked fm (get_proof_assumptions_rec fm p (memo, used)).2 q := by
      intro q hq hs
      by_cases hqm : q ∈ memo
      · exact marked_mono fm _ _ q a2 (hpre q hqm hs)
      · exact a4 q hq hqm
    obtain ⟨b1, b2, b3, b4⟩ := prems_complete fm rest B
      (get_proof_assumptions_rec fm p (memo, used)).1
      (get_proof_assumptions_rec fm p (memo, used)).2 hfm1
      (fun q hq => hB q (List.mem_cons_of_mem _ hq)) hpre1
    refine ⟨fun q hq => b1 q (a1 q hq), fun j hj => b2 j (a2 j hj), ?_, ?_⟩
    · intro q hq
      simp only [List.mem_cons] at hq
      rcases hq with hq | hq
      · rw [hq]
        exact marked_mono fm _ _ p b2 a3
      · exact b3 q hq
    · intro q hq hnq
      by_cases hq1 : q ∈ (get_proof_assumptions_rec fm p (memo, used)).1
      · exact marked_mono fm _ _ q b2 (a4 q hq1 hnq)
      · exact b4 q hq hq1
end

mutual
/-- Soundness of the traversal: a frame marked afterwards was marked before
or is the frame of an assumption leaf below the node. -/
theorem rec_sound (fm : hash_map ast Nat) :
    ∀ (p : z3pf) (memo : List z3pf) (used : List Bool) (j : Nat),
      (get_proof_assumptions_rec fm p (memo, used)).2[j]? = some true →
      used[j]? = some true ∨ ∃ c, c ∈ asserted_concs p ∧ fm.find c = some j
  | .asserted con, memo, used, j, h => by
    simp only [get_proof_assumptions_rec] at h
    by_cases hin : z3pf.asserted con ∈ memo
    · rw [if_pos hin] at h
      exact Or.inl h
    · rw [if_neg hin] at h
      cases hf : fm.find con with
      | none =>
        rw [hf] at h
        exact Or.inl h
      | some frame =>
        rw [hf] at h
        simp only at h
        rw [List.getElem?_set] at h
        by_cases hfj : frame = j
        · right
          refine ⟨con, by simp [asserted_concs], ?_⟩
          rw [hf, hfj]
        · rw [if_neg hfj] at h
          exact Or.inl h
  | .step k con ps, memo, used, j, h => by
    simp only [get_proof_assumptions_rec] at h
    by_cases hin : z3pf.step k con ps ∈ memo
    · rw [if_pos hin] at h
      exact Or.inl h
    · rw [if_neg hin] at h
      rcases prems_sound fm ps _ used j h with h | ⟨c, hc, hj⟩
      · exact Or.inl h
      · exact Or.inr ⟨c, by simpa [asserted_concs] using hc, hj⟩
theorem prems_sound (fm : hash_map ast Nat) :
    ∀ (ps : List z3pf) (memo : List z3pf) (used : List Bool) (j : Nat),
      (get_proof_assumptions_prems fm ps (memo, used)).2[j]? = some true →
      used[j]? = some true ∨ ∃ c, c ∈ asserted_concs_prems ps ∧ fm.find c = some j
  | [], memo, used, j, h => by
    simp only [get_proof_assumptions_prems] at h
    exact Or.inl h
  | p :: rest, memo, used, j, h => by
    simp only [get_proof_assumptions_prems] at h
    rcases prems_sound fm rest (get_proof_assumptions_rec fm p (memo, used)).1
        (get_proof_assumptions_rec fm p (memo, used)).2 j h with h | ⟨c, hc, hj⟩
    · rcases rec_sound fm p memo used j h with h | ⟨c, hc, hj⟩
      · exact Or.inl h
      · exact Or.inr ⟨c, by simp [asserted_concs_prems, hc], hj⟩
    · exact Or.inr ⟨c, by simp [asserted_concs_prems, hc], hj⟩
end

end iz3

namespace iz3

theorem resize_nil_false (n j : Nat) : (resize ([] : List Bool) n false)[j]? ≠ some true := by
  intro h
  have hmem := List.getElem?_mem h
  simp [resize] at hmem

/-- The used-frame vector of `get_frames`: frame `j` is marked exactly when a
reachable assumption leaf concludes its formula and `j` is the last frame
carrying that formula. -/
theorem used_of_iff (z3_preds : List ast) (proof : z3pf) (j : Nat) :
    (used_of z3_preds proof)[j]? = some true ↔
      ∃ c, reachable proof (.asserted c) ∧ z3_preds[j]? = some c ∧
        ∀ k, j < k → z3_preds[k]? ≠ some c := by
  unfold used_of
  constructor
  · intro h
    rcases rec_sound _ proof [] _ j h with h | ⟨c, hc, hj⟩
    · exact absurd h (resize_nil_false _ _)
    · have := (build_frame_map_find z3_preds c j).mp hj
      exact ⟨c, (mem_asserted_concs_iff proof c).mp hc, this.1, this.2⟩
  · rintro ⟨c, hr, h1, h2⟩
    have hfm : ∀ c j, (build_frame_map z3_preds []).find c = some j →
        j < (resize ([] : List Bool) z3_preds.length false).length := by
      intro c j hj
      rw [resize_length]
      exact build_frame_map_lt z3_preds c j hj
    obtain ⟨_, _, hm, _⟩ := rec_complete (build_frame_map z3_preds []) proof []
      (resize [] z3_preds.length false) hfm
      (fun q hq => absurd hq (List.not_mem_nil q))
    exact hm c ((mem_asserted_concs_iff proof c).mpr hr) j
      ((build_frame_map_find z3_preds c j).mpr ⟨h1, h2⟩)

theorem mem_retained (n : Nat) (used : List Bool) (j : Nat) :
    j ∈ retained n used ↔ j < n ∧ (j = n - 1 ∨ used[j]? = some true) := by
  simp only [retained, List.mem_filter, List.mem_range, keep, Bool.or_eq_true, beq_iff_eq]
  constructor
  · rintro ⟨h1, h2 | h2⟩
    · refine ⟨h1, Or.inr ?_⟩
      rw [List.getD_eq_getElem?_getD] at h2
      cases hu : used[j]? with
      | none => simp [hu] at h2
      | some b => simp [hu] at h2; rw [h2]
    · exact ⟨h1, Or.inl h2⟩
  · rintro ⟨h1, h2 | h2⟩
    · exact ⟨h1, Or.inr h2⟩
    · exact ⟨h1, Or.inl (by rw [List.getD_eq_getElem?_getD, h2]; rfl)⟩

/-- C2 (amended): on every well-formed input `get_frames` succeeds, the reduced
list is the original list read at the retained indices, and an index `j` is
retained exactly when it is the final frame, or some assumption leaf reachable
from the root concludes `F[j]` and no later frame carries the same formula. -/
theorem C2_retained_iff (fuel : Nat) (F : List ast) (parents : List Int) (P : z3pf)
    (hp : parents_ok true F.length parents) (hf : F.length ≤ fuel) :
    ∃ fr cnsts_vec parents_vec,
      get_frames fuel F parents [] [] P = .ok (fr, cnsts_vec, parents_vec) ∧
      cnsts_vec = fr.assertions_map.map (fun i => F.getD i default) ∧
      ∀ j, j ∈ fr.assertions_map ↔
        j < F.length ∧
          (j = F.length - 1 ∨
            ∃ c, reachable P (.asserted c) ∧ F[j]? = some c ∧
              ∀ k, j < k → F[k]? ≠ some c) := by
  obtain ⟨pv, hg⟩ := get_frames_total fuel F parents P hp hf
  refine ⟨_, _, pv, hg, rfl, ?_⟩
  intro j
  show j ∈ retained F.length (used_of F P) ↔ _
  rw [mem_retained, used_of_iff]

theorem C2_retained_iff_witness :
    ∃ fr cnsts_vec parents_vec,
      get_frames 3 [atom 1, atom 1, atom 2] [2, 2, SHRT_MAX] [] [] (.asserted (atom 1)) =
        .ok (fr, cnsts_vec, parents_vec) ∧
      cnsts_vec = fr.assertions_map.map (fun i => [atom 1, atom 1, atom 2].getD i default) ∧
      ∀ j, j ∈ fr.assertions_map ↔
        j < [atom 1, atom 1, atom 2].length ∧
          (j = [atom 1, atom 1, atom 2].length - 1 ∨
            ∃ c, reachable (.asserted (atom 1)) (.asserted c) ∧
              [atom 1, atom 1, atom 2][j]? = some c ∧
              ∀ k, j < k → [atom 1, atom 1, atom 2][k]? ≠ some c) :=
  C2_retained_iff 3 [atom 1, atom 1, atom 2] [2, 2, SHRT_MAX] (.asserted (atom 1))
    (by decide) (by decide)

/-- C2 (as stated, refuted): with frames `[atom 1, atom 1, atom 2]` and a proof
that is one assumption leaf concluding `atom 1`, frame 0 is not retained
although a reachable assumption leaf concludes its formula. -/
theorem C2_counterexample_repeated_formula :
    get_frames 0 [atom 1, atom 1, atom 2] [] [] [] (.asserted (atom 1)) =
      .ok ({ frames := 3, frame_map := [(atom 2, 2), (atom 1, 1), (atom 1, 0)],
             assertions_map := [1, 2], orig_parents_copy := [],
             used_frames := [false, true, false] },
           [atom 1, atom 2], []) ∧
    ¬ ((0 ∈ [1, 2]) ↔
        ∃ c, reachable (.asserted (atom 1)) (.asserted c) ∧
          [atom 1, atom 1, atom 2][0]? = some c) := by
  refine ⟨by decide, ?_⟩
  intro h
  have : (0 : Nat) ∈ [1, 2] := h.mpr ⟨atom 1, reachable.here _, rfl⟩
  simp at this

end iz3

namespace iz3

/-! ## Round trip on no-op reduction -/

theorem map_getD_range {α : Type} (l : List α) (d : α) :
    (List.range l.length).map (fun i => l.getD i d) = l := by
  apply List.ext_getElem?
  intro i
  by_cases h : i < l.length
  · simp [h, List.getElem?_eq_getElem, List.getD_eq_getElem?_getD]
  · simp [h, List.getElem?_eq_none, Nat.le_of_not_lt h]

theorem retained_all_used (n : Nat) (used : List Bool)
    (h : ∀ j, j < n → used[j]? = some true) : retained n used = List.range n := by
  unfold retained
  rw [List.filter_eq_self]
  intro j hj
  have := h j (List.mem_range.mp hj)
  simp [keep, List.getD_eq_getElem?_getD, this]

theorem range_getElem?_some (n k : Nat) (h : k < n) : (List.range n)[k]? = some k := by
  rw [List.getElem?_eq_getElem (by simpa using h)]
  simp

/-- C3: when the proof marks every frame used and the parent vector is empty or
has one entry per frame, each the sentinel or an in-range index, `get_frames`
returns the original frame list with the identity forward map and the original
parent vector, and `fix_interpolants` returns every sequence of `N-1`
interpolants unchanged. -/
theorem C3_no_op_round_trip (fuel : Nat) (F : List ast) (parents : List Int) (P : z3pf)
    (hall : ∀ j, j < F.length → (used_of F P)[j]? = some true)
    (hp : parents_ok false F.length parents) :
    ∃ fr, get_frames fuel F parents [] [] P = .ok (fr, F, parents) ∧
      fr.used_frames = used_of F P ∧
      fr.assertions_map = List.range F.length ∧
      (1 ≤ F.length → ∀ unfixed : List ast, unfixed.length = F.length - 1 →
        fix_interpolants fr unfixed = .ok unfixed) := by
  have hret := retained_all_used F.length (used_of F P) hall
  have hg := get_frames_ok fuel F parents P (fun i => parents.getD i 0) (by
    intro hne i hi
    rw [hret, List.length_range] at hi
    rcases hp with hp | ⟨hl, he⟩
    · simp [hp] at hne
    · have ha : (retained F.length (used_of F P))[i]? = some i := by
        rw [hret]; exact range_getElem?_some _ _ hi
      have hil : i < parents.length := by omega
      have hp0 : parents[i]? = some parents[i] := List.getElem?_eq_getElem hil
      have hstop : parents[i] = SHRT_MAX ∨
          (0 ≤ parents[i] ∧ (used_of F P)[parents[i].toNat]? = some true) := by
        rcases he i _ hp0 with h | ⟨h1, h2, _⟩
        · exact Or.inl h
        · exact Or.inr ⟨h1, hall _ (by omega)⟩
      unfold reduced_parent
      simp only [bind, Except.bind, vget_eq_ok _ _ _ ha, vget_eq_ok _ _ _ hp0,
        parent_walk_used parents (used_of F P) fuel _ hstop]
      have hd : parents.getD i 0 = parents[i] := by
        rw [List.getD_eq_getElem?_getD, hp0]; rfl
      rw [hd]
      by_cases hs : parents[i] = SHRT_MAX
      · simp [hs, pure, Except.pure]
      · rcases he i _ hp0 with h | ⟨h1, h2, _⟩
        · exact absurd h hs
        · have hb : (back_map_of F (used_of F P))[parents[i].toNat]? =
              some parents[i].toNat :=
            back_map_of_retained F (used_of F P) _ _ (by
              rw [hret]; exact range_getElem?_some _ _ (by omega))
          simp only [hs, if_false, vget_int_eq_ok _ _ _ h1 hb, Functor.map, Except.map]
          congr 1
          omega)
  rw [hret, map_getD_range] at hg
  have hpv : (if parents.length ≠ 0 then
      (List.range (List.range F.length).length).map (fun i => parents.getD i 0)
      else []) = parents := by
    rcases hp with hp | ⟨hl, _⟩
    · simp [hp]
    · by_cases hz : parents.length ≠ 0
      · rw [if_pos hz, List.length_range, ← hl, map_getD_range]
      · rw [if_neg hz]
        have : parents.length = 0 := by omega
        exact (List.length_eq_zero.mp this).symm
  rw [hpv] at hg
  refine ⟨_, hg, rfl, rfl, ?_⟩
  intro hN unfixed hlen
  obtain ⟨v2, hv2, hA, _, heq⟩ := fix_interpolants_eq
    { frames := F.length, frame_map := build_frame_map F [],
      assertions_map := List.range F.length,
      orig_parents_copy := parents, used_frames := used_of F P } unfixed hN
    (List.nodup_range _)
    (by
      intro k hk
      exact ⟨k, range_getElem?_some _ _ (by omega), by
        show k < F.length - 1
        omega⟩)
  have hv2u : v2 = unfixed := by
    apply List.ext_getElem?
    intro k
    by_cases hk : k < unfixed.length
    · exact hA k k hk (range_getElem?_some _ _ (by omega))
    · rw [List.getElem?_eq_none (by
        have : v2.length = F.length - 1 := hv2
        omega), List.getElem?_eq_none (by omega)]
  rw [heq, hv2u]
  obtain ⟨r, hr, hinv⟩ := foldlM_range_inv
    (propagate_step (⟨F.length, build_frame_map F [], List.range F.length, parents,
      used_of F P⟩ : frame_reducer))
    (fun _ v => v = unfixed) (F.length - 2) unfixed rfl (by
      intro i v hi hv
      obtain ⟨p, hpp, h0⟩ := propagate_parent_ok
        (⟨F.length, build_frame_map F [], List.range F.length, parents,
          used_of F P⟩ : frame_reducer) false hp i hi
      refine ⟨v, ?_, hv⟩
      rw [propagate_step_ok _ v i p hpp h0 (used_of_length _ _)
        (by rw [hv, hlen]) (by rw [hv, hlen]; omega)]
      have hcond : ¬ (p < ((F.length : Nat) : Int) - 1 ∧
          (used_of F P)[p.toNat]? = some false) := by
        rintro ⟨hlt, hu⟩
        rw [hall p.toNat (by omega)] at hu
        cases hu
      rw [if_neg hcond])
  rw [hr, hinv]

theorem C3_no_op_round_trip_witness :
    ∃ fr, get_frames 0 [atom 1, atom 2, atom 3] [2, 2, SHRT_MAX] [] []
        (.step 0 mk_false [.asserted (atom 3), .asserted (atom 1), .asserted (atom 2)]) =
        .ok (fr, [atom 1, atom 2, atom 3], [2, 2, SHRT_MAX]) ∧
      fr.used_frames = used_of [atom 1, atom 2, atom 3]
        (.step 0 mk_false [.asserted (atom 3), .asserted (atom 1), .asserted (atom 2)]) ∧
      fr.assertions_map = List.range [atom 1, atom 2, atom 3].length ∧
      (1 ≤ [atom 1, atom 2, atom 3].length → ∀ unfixed : List ast,
        unfixed.length = [atom 1, atom 2, atom 3].length - 1 →
        fix_interpolants fr unfixed = .ok unfixed) :=
  C3_no_op_round_trip 0 [atom 1, atom 2, atom 3] [2, 2, SHRT_MAX]
    (.step 0 mk_false [.asserted (atom 3), .asserted (atom 1), .asserted (atom 2)])
    (by decide) (by decide)

end iz3

namespace iz3

/-! ## Chain re-expansion -/

theorem explicit_chain_getElem? (n i : Nat) (h : i < n) :
    (explicit_chain n)[i]? = some (if i + 1 = n then SHRT_MAX else (i : Int) + 1) := by
  simp [explicit_chain, List.getElem?_map, range_getElem?_some n i h]

theorem explicit_chain_ok (n : Nat) : parents_ok true n (explicit_chain n) := by
  right
  refine ⟨by simp [explicit_chain], ?_⟩
  intro i p hp
  have hi : i < n := by
    by_contra hc
    rw [List.getElem?_eq_none (by simp [explicit_chain]; omega)] at hp
    exact Option.noConfusion hp
  rw [explicit_chain_getElem? n i hi] at hp
  cases hp
  by_cases hl : i + 1 = n
  · exact Or.inl (by rw [if_pos hl])
  · right
    rw [if_neg hl]
    refine ⟨by omega, by omega, fun _ => by omega⟩

theorem chain_parents_ok (n : Nat) (parents : List Int)
    (h : parents = [] ∨ parents = explicit_chain n) : parents_ok true n parents := by
  rcases h with h | h
  · exact Or.inl h
  · rw [h]; exact explicit_chain_ok n

theorem chain_propagate_parent (fr : frame_reducer)
    (h : fr.orig_parents_copy = [] ∨ fr.orig_parents_copy = explicit_chain fr.frames)
    (i : Nat) (hi : i < fr.frames - 2) : propagate_parent fr i = some ((i : Int) + 1) := by
  unfold propagate_parent
  rcases h with h | h
  · simp [h]
  · have hne : fr.orig_parents_copy.length ≠ 0 := by
      rw [h]; simp [explicit_chain]; omega
    rw [if_neg hne, h, explicit_chain_getElem? _ _ (by omega), if_neg (by omega)]

theorem retained_index_of_used (n : Nat) (used : List Bool) (hn : 1 ≤ n) (u : Nat)
    (hu : u < n - 1) (h : used[u]? = some true) :
    ∃ i, i + 1 < (retained n used).length ∧ (retained n used)[i]? = some u := by
  have hmem : u ∈ (List.range (n - 1)).filter (fun i => used.getD i false) := by
    rw [List.mem_filter]
    exact ⟨List.mem_range.mpr hu, by rw [List.getD_eq_getElem?_getD, h]; rfl⟩
  obtain ⟨i, hi⟩ := List.getElem?_of_mem hmem
  have hil : i < ((List.range (n - 1)).filter (fun i => used.getD i false)).length := by
    by_contra hc
    rw [List.getElem?_eq_none (by omega)] at hi
    exact Option.noConfusion hi
  refine ⟨i, ?_, ?_⟩
  · rw [retained_eq n used hn]
    simp only [List.length_append, List.length_cons, List.length_nil]
    omega
  · rw [retained_eq n used hn, List.getElem?_append_left hil]
    exact hi

theorem chain_fill_used (used : List Bool) (v2 : List ast) (u : Nat)
    (hu : used[u]? = some true) :
    ∀ j, u ≤ j → (∀ k, u < k → k ≤ j → used[k]? = some false) →
      chain_fill used v2 j = v2[u]? := by
  intro j
  induction j with
  | zero =>
    intro h _
    have : u = 0 := by omega
    subst this
    rfl
  | succ j ih =>
    intro h hk
    by_cases hju : u = j + 1
    · subst hju
      simp [chain_fill, hu]
    · have := hk (j + 1) (by omega) (Nat.le_refl _)
      simp only [chain_fill, this, if_true]
      exact ih (by omega) (fun k h1 h2 => hk k h1 (by omega))

theorem chain_fill_unused (used : List Bool) (v2 : List ast) (x : ast)
    (h0 : v2[0]? = some x) :
    ∀ j, (∀ k, k ≤ j → used[k]? = some false) → chain_fill used v2 j = some x := by
  intro j
  induction j with
  | zero => intro _; exact h0
  | succ j ih =>
    intro hk
    have := hk (j + 1) (Nat.le_refl _)
    simp only [chain_fill, this, if_true]
    exact ih (fun k hkj => hk k (by omega))

/-- The propagation loop along a chain fills every slot as `chain_fill` says. -/
theorem chain_propagate_loop (fr : frame_reducer) (v2 : List ast)
    (hchain : fr.orig_parents_copy = [] ∨ fr.orig_parents_copy = explicit_chain fr.frames)
    (hul : fr.used_frames.length = fr.frames) (hvl : v2.length = fr.frames - 1) :
    ∃ r, (List.range (fr.frames - 2)).foldlM (propagate_step fr) v2 = .ok r ∧
      r.length = fr.frames - 1 ∧
      ∀ j, j < fr.frames - 1 → r[j]? = chain_fill fr.used_frames v2 j := by
  obtain ⟨r, hr, hlen, hA, _⟩ := foldlM_range_inv (propagate_step fr)
    (fun i v => v.length = fr.frames - 1 ∧
      (∀ j, j ≤ i → j < fr.frames - 1 → v[j]? = chain_fill fr.used_frames v2 j) ∧
      (∀ j, i < j → v[j]? = v2[j]?))
    (fr.frames - 2) v2
    ⟨hvl, fun j hj _ => by
      have : j = 0 := by omega
      subst this
      rfl, fun j _ => rfl⟩
    (by
      intro i v hi ⟨hl, hA, hB⟩
      have hp := chain_propagate_parent fr hchain i hi
      rw [propagate_step_ok fr v i _ hp (by omega) hul hl (by omega)]
      have hcast : ((i : Int) + 1).toNat = i + 1 := by omega
      have hlt : (i : Int) + 1 < (fr.frames : Int) - 1 := by omega
      rw [hcast]
      have hvi : v[i]? = chain_fill fr.used_frames v2 i := hA i (Nat.le_refl _) (by omega)
      by_cases hu : fr.used_frames[i + 1]? = some false
      · rw [if_pos ⟨hlt, hu⟩]
        refine ⟨_, rfl, by simp [hl], ?_, ?_⟩
        · intro j hj hjn
          rw [List.getElem?_set]
          by_cases hji : i + 1 = j
          · rw [if_pos hji, if_pos (by omega), ← hji]
            simp only [chain_fill, hu, if_true]
            rw [← hvi, List.getElem?_eq_getElem (by omega)]
          · rw [if_neg hji]
            exact hA j (by omega) hjn
        · intro j hj
          rw [List.getElem?_set, if_neg (by omega)]
          exact hB j (by omega)
      · rw [if_neg (fun h => hu h.2)]
        refine ⟨_, rfl, hl, ?_, ?_⟩
        · intro j hj hjn
          by_cases hji : j = i + 1
          · subst hji
            simp only [chain_fill, hu, if_false]
            exact hB _ (by omega)
          · exact hA j (by omega) hjn
        · intro j hj
          exact hB j (by omega))
  refine ⟨r, hr, hlen, fun j hj => hA j (by omega) hj⟩

/-- C5: along a linear chain (parent vector empty or `[1,...,N-1,SHRT_MAX]`),
for any proof, `get_frames` followed by `fix_interpolants` leaves in every cut
`j` in `[0, N-2]` the reduced interpolant of the nearest used frame at or
before `j`, and `true` when no frame at or before `j` is used; and frames
`A,B,C` with only `A` and `C` asserted reduce to `[A,C]` and return `[I,I]`
for the single computed interpolant `I`. -/
theorem C5_chain_re_expansion :
    (∀ (fuel : Nat) (F : List ast) (parents : List Int) (P : z3pf),
      1 ≤ F.length → (parents = [] ∨ parents = explicit_chain F.length) →
      F.length ≤ fuel →
      ∃ fr cnsts_vec parents_vec,
        get_frames fuel F parents [] [] P = .ok (fr, cnsts_vec, parents_vec) ∧
        ∀ unfixed : List ast, unfixed.length = cnsts_vec.length - 1 →
          ∃ r, fix_interpolants fr unfixed = .ok r ∧ r.length = F.length - 1 ∧
            ∀ j, j < F.length - 1 →
              (∀ u, u ≤ j → fr.used_frames[u]? = some true →
                (∀ k, u < k → k ≤ j → fr.used_frames[k]? = some false) →
                ∃ i, fr.assertions_map[i]? = some u ∧ i < unfixed.length ∧
                  r[j]? = unfixed[i]?) ∧
              ((∀ k, k ≤ j → fr.used_frames[k]? = some false) → r[j]? = some mk_true)) ∧
    (∀ (I : ast) (parents : List Int), (parents = [] ∨ parents = [1, 2, SHRT_MAX]) →
      (∃ fr pv, get_frames 3 [atom 1, atom 2, atom 3] parents [] []
          (.step 0 mk_false [.asserted (atom 1), .asserted (atom 3)]) =
            .ok (fr, [atom 1, atom 3], pv)) ∧
      proof_to_interpolant (fun _ _ _ _ _ => I) 3
          (.step 0 mk_false [.asserted (atom 1), .asserted (atom 3)])
          [atom 1, atom 2, atom 3] parents [] = .ok [I, I]) := by
  constructor
  · intro fuel F parents P hN hchain hf
    obtain ⟨pv, hg⟩ := get_frames_total fuel F parents P
      (chain_parents_ok _ _ hchain) hf
    refine ⟨_, _, pv, hg, ?_⟩
    intro unfixed hlen
    simp only [List.length_map] at hlen
    have hin : ∀ k, k < unfixed.length →
        ∃ i, (retained F.length (used_of F P))[k]? = some i ∧ i < F.length - 1 := by
      intro k hk
      have hk2 : k < (retained F.length (used_of F P)).length := by omega
      exact ⟨_, List.getElem?_eq_getElem hk2,
        (retained_init _ _ hN k _ (by omega) (List.getElem?_eq_getElem hk2)).1⟩
    obtain ⟨v2, hv2, hA, hB, heq⟩ := fix_interpolants_eq
      (⟨F.length, build_frame_map F [], retained F.length (used_of F P), parents,
        used_of F P⟩ : frame_reducer) unfixed hN (retained_nodup _ _) hin
    obtain ⟨r, hr, hrl, hfill⟩ := chain_propagate_loop
      (⟨F.length, build_frame_map F [], retained F.length (used_of F P), parents,
        used_of F P⟩ : frame_reducer) v2 hchain (used_of_length _ _) hv2
    refine ⟨r, by rw [heq]; exact hr, hrl, ?_⟩
    intro j hj
    constructor
    · intro u huj hu hk
      obtain ⟨i, hi1, hi2⟩ := retained_index_of_used F.length (used_of F P) hN u
        (by omega) hu
      refine ⟨i, hi2, by omega, ?_⟩
      rw [hfill j hj, chain_fill_used _ v2 u hu j huj hk]
      exact hA i u (by omega) hi2
    · intro hk
      rw [hfill j hj]
      apply chain_fill_unused _ v2 mk_true _ j hk
      apply hB 0 (by show 0 < F.length - 1; omega)
      intro k hkl hk0
      have := (retained_init _ _ hN k 0 (by omega) hk0).2
      have h0 := hk 0 (Nat.zero_le _)
      rw [List.getD_eq_getElem?_getD] at this
      have h0q : (used_of F P)[0]? = some false := h0
      rw [h0q] at this
      exact Bool.noConfusion this
  · intro I parents hp
    rcases hp with hp | hp <;> subst hp
    · exact ⟨⟨_, _, rfl⟩, rfl⟩
    · exact ⟨⟨_, _, rfl⟩, rfl⟩

theorem C5_chain_re_expansion_witness :
    ∃ fr cnsts_vec parents_vec,
      get_frames 3 [atom 1, atom 2, atom 3] (explicit_chain 3) [] []
          (.step 0 mk_false [.asserted (atom 1), .asserted (atom 3)]) =
        .ok (fr, cnsts_vec, parents_vec) ∧
      ∀ unfixed : List ast, unfixed.length = cnsts_vec.length - 1 →
        ∃ r, fix_interpolants fr unfixed = .ok r ∧
          r.length = [atom 1, atom 2, atom 3].length - 1 ∧
          ∀ j, j < [atom 1, atom 2, atom 3].length - 1 →
            (∀ u, u ≤ j → fr.used_frames[u]? = some true →
              (∀ k, u < k → k ≤ j → fr.used_frames[k]? = some false) →
              ∃ i, fr.assertions_map[i]? = some u ∧ i < unfixed.length ∧
                r[j]? = unfixed[i]?) ∧
            ((∀ k, k ≤ j → fr.used_frames[k]? = some false) → r[j]? = some mk_true) :=
  C5_chain_re_expansion.1 3 [atom 1, atom 2, atom 3] (explicit_chain 3)
    (.step 0 mk_false [.asserted (atom 1), .asserted (atom 3)])
    (by decide) (Or.inr rfl) (by decide)

end iz3

namespace iz3

/-! ## Conjunct extraction -/

theorem memo_ok_nil : memo_ok [] := by
  intro t b h
  simp [hash_map.find] at h

theorem memo_ok_set (memo : hash_map ast Bool) (t : ast) (h : memo_ok memo) :
    memo_ok (memo.set t (interp_through_and t)) := by
  intro t2 b hb
  simp only [hash_map.set, hash_map.find] at hb
  by_cases ht : t2 = t
  · rw [if_pos ht] at hb
    cases hb
    rw [ht]
  · rw [if_neg ht] at hb
    exact h t2 b hb

mutual
/-- The memo table never changes the answer of `has_interp`. -/
theorem has_interp_correct :
    ∀ (t : ast) (memo : hash_map ast Bool), memo_ok memo →
      (has_interp t memo).1 = interp_through_and t ∧ memo_ok (has_interp t memo).2
  | .app o as, memo, hm => by
    simp only [has_interp]
    cases hf : hash_map.find memo (.app o as) with
    | some b => exact ⟨hm _ b hf, hm⟩
    | none =>
      simp only
      by_cases h1 : o = opr.Interp
      · have hv : interp_through_and (.app o as) = true := by
          simp [interp_through_and, h1]
        rw [if_pos h1]
        refine ⟨hv.symm, ?_⟩
        have := memo_ok_set memo (.app o as) hm
        rw [hv] at this
        exact this
      · rw [if_neg h1]
        by_cases h2 : o = opr.And
        · rw [if_pos h2]
          obtain ⟨a1, a2⟩ := has_interp_args_correct as false memo hm
          have hv : interp_through_and (.app o as) = interp_through_and_args as := by
            simp [interp_through_and, h1, h2]
          simp only [Bool.false_or] at a1
          refine ⟨by rw [a1, hv], ?_⟩
          have := memo_ok_set (has_interp_args as (false, memo)).2 (.app o as) a2
          rw [hv, ← a1] at this
          exact this
        · rw [if_neg h2]
          have hv : interp_through_and (.app o as) = false := by
            simp [interp_through_and, h1, h2]
          refine ⟨hv.symm, ?_⟩
          have := memo_ok_set memo (.app o as) hm
          rw [hv] at this
          exact this
theorem has_interp_args_correct :
    ∀ (as : List ast) (res : Bool) (memo : hash_map ast Bool), memo_ok memo →
      (has_interp_args as (res, memo)).1 = (res || interp_through_and_args as) ∧
      memo_ok (has_interp_args as (res, memo)).2
  | [], res, memo, hm => by
    simp [has_interp_args, interp_through_and_args, hm]
  | a :: rest, res, memo, hm => by
    simp only [has_interp_args]
    obtain ⟨a1, a2⟩ := has_interp_correct a memo hm
    obtain ⟨b1, b2⟩ := has_interp_args_correct rest (res || (has_interp a memo).1)
      (has_interp a memo).2 a2
    refine ⟨?_, b2⟩
    rw [b1, a1]
    simp [interp_through_and_args, Bool.or_assoc]
end

mutual
/-- The method `collect_conjuncts` appends `conjuncts t` to the frame list. -/
theorem collect_conjuncts_correct :
    ∀ (t : ast) (cnsts : List ast) (memo : hash_map ast Bool), memo_ok memo →
      (collect_conjuncts t (cnsts, memo)).1 = cnsts ++ conjuncts t ∧
      memo_ok (collect_conjuncts t (cnsts, memo)).2
  | .app o as, cnsts, memo, hm => by
    obtain ⟨a1, a2⟩ := has_interp_correct (.app o as) memo hm
    simp only [collect_conjuncts, conjuncts, a1]
    cases hv : interp_through_and (.app o as) with
    | false => exact ⟨by simp, a2⟩
    | true =>
      simp only [Bool.not_true, Bool.false_eq_true, if_false, if_true]
      exact collect_conjuncts_args_correct as cnsts _ a2
theorem collect_conjuncts_args_correct :
    ∀ (as : List ast) (cnsts : List ast) (memo : hash_map ast Bool), memo_ok memo →
      (collect_conjuncts_args as (cnsts, memo)).1 = cnsts ++ conjuncts_args as ∧
      memo_ok (collect_conjuncts_args as (cnsts, memo)).2
  | [], cnsts, memo, hm => by
    simp [collect_conjuncts_args, conjuncts_args, hm]
  | a :: rest, cnsts, memo, hm => by
    simp only [collect_conjuncts_args]
    obtain ⟨a1, a2⟩ := collect_conjuncts_correct a cnsts memo hm
    obtain ⟨b1, b2⟩ := collect_conjuncts_args_correct rest
      (collect_conjuncts a (cnsts, memo)).1 (collect_conjuncts a (cnsts, memo)).2 a2
    refine ⟨?_, b2⟩
    rw [b1, a1]
    simp [conjuncts_args]
end

theorem frames_of_eq (t : ast) : frames_of t = conjuncts t := by
  have := (collect_conjuncts_correct t [] [] memo_ok_nil).1
  simpa [frames_of] using this

theorem conjuncts_args_eq (as : List ast) :
    conjuncts_args as = as.flatMap conjuncts := by
  induction as with
  | nil => rfl
  | cons a rest ih => simp [conjuncts_args, ih, List.flatMap_cons]

mutual
theorem built_interp_through_and :
    ∀ (t : ast), built t = true → interp_through_and t = contains_interp t
  | .app o as, h => by
    simp only [built] at h
    simp only [interp_through_and, contains_interp]
    by_cases h1 : o = opr.Interp
    · simp [h1]
    · rw [if_neg h1] at h ⊢
      by_cases h2 : o = opr.And
      · rw [if_pos h2] at h ⊢
        simp [h1, built_args_interp_through_and as h]
      · rw [if_neg h2] at h ⊢
        simp only [Bool.not_eq_true'] at h
        simp [h1, h]
theorem built_args_interp_through_and :
    ∀ (as : List ast), built_args as = true →
      interp_through_and_args as = contains_interp_args as
  | [], _ => rfl
  | a :: rest, h => by
    simp only [built_args, Bool.and_eq_true] at h
    simp only [interp_through_and_args, contains_interp_args,
      built_interp_through_and a h.1, built_args_interp_through_and rest h.2]
end

theorem built_args_of_interp (o : opr) (as : List ast) (h : built (.app o as) = true)
    (hi : interp_through_and (.app o as) = true) : built_args as = true := by
  simp only [built] at h
  simp only [interp_through_and] at hi
  by_cases h1 : o = opr.Interp
  · rw [if_pos h1] at h
    simp only [Bool.and_eq_true] at h
    exact h.2
  · rw [if_neg h1] at h hi
    by_cases h2 : o = opr.And
    · rw [if_pos h2] at h
      exact h
    · rw [if_neg h2] at hi
      exact Bool.noConfusion hi

mutual
theorem conjuncts_marker_free :
    ∀ (t : ast), built t = true → ∀ f, f ∈ conjuncts t → contains_interp f = false
  | .app o as, h, f, hf => by
    simp only [conjuncts] at hf
    cases hv : interp_through_and (.app o as) with
    | false =>
      rw [hv] at hf
      simp only [Bool.false_eq_true, if_false, List.mem_singleton] at hf
      rw [hf, ← built_interp_through_and _ h, hv]
    | true =>
      rw [hv] at hf
      simp only [if_true] at hf
      exact conjuncts_args_marker_free as (built_args_of_interp o as h hv) f hf
theorem conjuncts_args_marker_free :
    ∀ (as : List ast), built_args as = true →
      ∀ f, f ∈ conjuncts_args as → contains_interp f = false
  | [], _, f, hf => by simp [conjuncts_args] at hf
  | a :: rest, h, f, hf => by
    simp only [built_args, Bool.and_eq_true] at h
    simp only [conjuncts_args, List.mem_append] at hf
    rcases hf with hf | hf
    · exact conjuncts_marker_free a h.1 f hf
    · exact conjuncts_args_marker_free rest h.2 f hf
end

/-- C8: for a formula built from atoms by conjunction and the unary marker,
`collect_conjuncts` appends its frames to the list it is given; a formula
without a marker yields `[t]`, a formula with a marker yields the
concatenation of the frame lists of its arguments in argument order, and no
frame of the result contains a marker. -/
theorem C8_collect_conjuncts (t : ast) (hb : built t = true) :
    (∀ cnsts : List ast, (collect_conjuncts t (cnsts, [])).1 = cnsts ++ frames_of t) ∧
    (contains_interp t = false → frames_of t = [t]) ∧
    (contains_interp t = true → frames_of t = (args t).flatMap frames_of) ∧
    (∀ f, f ∈ frames_of t → contains_interp f = false) := by
  refine ⟨?_, ?_, ?_, ?_⟩
  · intro cnsts
    rw [frames_of_eq]
    exact (collect_conjuncts_correct t cnsts [] memo_ok_nil).1
  · intro h
    rw [← built_interp_through_and t hb] at h
    rw [frames_of_eq]
    cases t with
    | app o as => simp [conjuncts, h]
  · intro h
    rw [← built_interp_through_and t hb] at h
    rw [frames_of_eq]
    have hfun : frames_of = conjuncts := funext frames_of_eq
    rw [hfun]
    cases t with
    | app o as => simp [conjuncts, h, args, conjuncts_args_eq]
  · intro f hf
    rw [frames_of_eq] at hf
    exact conjuncts_marker_free t hb f hf

theorem C8_collect_conjuncts_witness :
    (∀ cnsts : List ast,
      (collect_conjuncts
        (.app .And [.app .Interp [atom 1],
          .app .And [atom 2, .app .Interp [.app .And [atom 3, atom 1]]],
          .app .And [atom 1, atom 2]]) (cnsts, [])).1 =
        cnsts ++ frames_of
          (.app .And [.app .Interp [atom 1],
            .app .And [atom 2, .app .Interp [.app .And [atom 3, atom 1]]],
            .app .And [atom 1, atom 2]])) ∧
    (contains_interp
        (.app .And [.app .Interp [atom 1],
          .app .And [atom 2, .app .Interp [.app .And [atom 3, atom 1]]],
          .app .And [atom 1, atom 2]]) = false →
      frames_of
        (.app .And [.app .Interp [atom 1],
          .app .And [atom 2, .app .Interp [.app .And [atom 3, atom 1]]],
          .app .And [atom 1, atom 2]]) =
        [.app .And [.app .Interp [atom 1],
          .app .And [atom 2, .app .Interp [.app .And [atom 3, atom 1]]],
          .app .And [atom 1, atom 2]]]) ∧
    (contains_interp
        (.app .And [.app .Interp [atom 1],
          .app .And [atom 2, .app .Interp [.app .And [atom 3, atom 1]]],
          .app .And [atom 1, atom 2]]) = true →
      frames_of
        (.app .And [.app .Interp [atom 1],
          .app .And [atom 2, .app .Interp [.app .And [atom 3, atom 1]]],
          .app .And [atom 1, atom 2]]) =
        (args (.app .And [.app .Interp [atom 1],
          .app .And [atom 2, .app .Interp [.app .And [atom 3, atom 1]]],
          .app .And [atom 1, atom 2]])).flatMap frames_of) ∧
    (∀ f, f ∈ frames_of
        (.app .And [.app .Interp [atom 1],
          .app .And [atom 2, .app .Interp [.app .And [atom 3, atom 1]]],
          .app .And [atom 1, atom 2]]) → contains_interp f = false) :=
  C8_collect_conjuncts
    (.app .And [.app .Interp [atom 1],
      .app .And [atom 2, .app .Interp [.app .And [atom 3, atom 1]]],
      .app .And [atom 1, atom 2]]) (by decide)

end iz3

namespace iz3

/-! ## The solver-driving entry point -/

theorem assert_loop_eq (s : solver) (l : List ast) (n : Nat) (hn : n ≤ l.length) :
    (List.range n).foldl (fun s i => s.assert_expr (l.getD i default)) s =
      { s with calls := s.calls ++ (l.take n).map solver_call.assert_expr } := by
  induction n with
  | zero => simp
  | succ n ih =>
    have hlt : n < l.length := by omega
    rw [List.range_succ, List.foldl_append, ih (by omega)]
    simp only [List.foldl_cons, List.foldl_nil, solver.assert_expr]
    have ht : List.take (n + 1) l = List.take n l ++ [l[n]] := by
      rw [List.take_succ, List.getElem?_eq_getElem hlt]; rfl
    have hd : l.getD n default = l[n] := by
      rw [List.getD_eq_getElem?_getD, List.getElem?_eq_getElem hlt]; rfl
    rw [ht, hd, List.map_append, List.append_assoc]
    rfl

theorem asserted_append_assert (calls : List solver_call) (l : List ast) :
    (calls ++ l.map solver_call.assert_expr).filterMap
        (fun c => match c with | .assert_expr e => some e | _ => none) =
      calls.filterMap (fun c => match c with | .assert_expr e => some e | _ => none) ++ l := by
  rw [List.filterMap_append]
  congr 1
  induction l with
  | nil => rfl
  | cons a rest ih => simp [List.filterMap_cons, ih]

/-- The method `assert_conjuncts`, started on an empty frame list, asserts the
frames of the tree in order and returns them. -/
theorem assert_conjuncts_eq (s : solver) (t : ast) :
    assert_conjuncts s [] t =
      ({ s with calls := s.calls ++ (frames_of t).map solver_call.assert_expr },
        frames_of t) := by
  unfold assert_conjuncts
  simp only
  rw [assert_loop_eq s _ _ (Nat.le_refl _), List.take_length]
  rfl

theorem assert_conjuncts_asserted (s : solver) (t : ast) :
    (assert_conjuncts s [] t).1.asserted = s.asserted ++ frames_of t := by
  rw [assert_conjuncts_eq]
  exact asserted_append_assert s.calls (frames_of t)

theorem asserted_snoc (s : solver) (c : solver_call)
    (hc : ∀ e, c ≠ solver_call.assert_expr e) :
    solver.asserted { s with calls := s.calls ++ [c] } = s.asserted := by
  simp only [solver.asserted, List.filterMap_append, List.filterMap_cons, List.filterMap_nil]
  cases c with
  | assert_expr e => exact absurd rfl (hc e)
  | check_sat => simp
  | get_proof => simp
  | get_model => simp

/-- C9: `assert_conjuncts` asserts exactly the extracted frames, in order, into
the solver; whenever `iz3interpolate` returns, whatever the verdict, the
solver has been asserted exactly those frames and the frames output is that
same list; it returns on every verdict other than UNSAT, and on UNSAT whenever
the interpolation of the solver's proof goes through. -/
theorem C9_frames_returned_equal_frames_asserted :
    ∀ (conv : tree_converter) (tr : translator) (fuel : Nat) (s : solver) (tree : ast)
      (cnsts interps : List ast) (m : Option model),
      (assert_conjuncts s [] tree).1.asserted = s.asserted ++ frames_of tree ∧
      (assert_conjuncts s [] tree).2 = frames_of tree ∧
      (∀ out, iz3interpolate conv tr fuel s tree cnsts interps m = .ok out →
        out.s.asserted = s.asserted ++ frames_of tree ∧ out.cnsts = frames_of tree ∧
        out.res = s.check_sat_answer (s.asserted ++ frames_of tree)) ∧
      (s.check_sat_answer (s.asserted ++ frames_of tree) ≠ lbool.l_false →
        ∃ out, iz3interpolate conv tr fuel s tree cnsts interps m = .ok out) ∧
      (∀ _interps, proof_to_interpolant_tree conv tr fuel
          (s.get_proof_answer (s.asserted ++ frames_of tree)) (frames_of tree) tree =
            .ok _interps →
        ∃ out, iz3interpolate conv tr fuel s tree cnsts interps m = .ok out) := by
  intro conv tr fuel s tree cnsts interps m
  have ha := assert_conjuncts_asserted s tree
  have h2 : (assert_conjuncts s [] tree).2 = frames_of tree := by
    rw [assert_conjuncts_eq]
  have hres : (assert_conjuncts s [] tree).1.check_sat.1 =
      s.check_sat_answer (s.asserted ++ frames_of tree) := by
    simp only [solver.check_sat, ha]
    rw [assert_conjuncts_eq]
  have hs2 : (assert_conjuncts s [] tree).1.check_sat.2.asserted =
      s.asserted ++ frames_of tree := by
    simp only [solver.check_sat]
    rw [asserted_snoc _ _ (by intro e; simp), ha]
  have hpf : (assert_conjuncts s [] tree).1.check_sat.2.get_proof.1 =
      s.get_proof_answer (s.asserted ++ frames_of tree) := by
    simp only [solver.get_proof]
    rw [hs2]
    simp only [solver.check_sat]
    rw [assert_conjuncts_eq]
  refine ⟨ha, h2, ?_, ?_, ?_⟩
  · intro out hout
    unfold iz3interpolate at hout
    simp only [hres, h2, hpf, uncook_into_eq] at hout
    by_cases hv : s.check_sat_answer (s.asserted ++ frames_of tree) = lbool.l_false
    · rw [if_pos hv] at hout
      cases hpt : proof_to_interpolant_tree conv tr fuel
          (s.get_proof_answer (s.asserted ++ frames_of tree)) (frames_of tree) tree with
      | error e =>
        rw [hpt] at hout
        exact Except.noConfusion hout
      | ok iv =>
        rw [hpt] at hout
        simp only [Except.ok.injEq] at hout
        subst hout
        refine ⟨?_, rfl, rfl⟩
        simp only [solver.get_proof]
        rw [asserted_snoc _ _ (by intro e; simp), hs2]
    · rw [if_neg hv] at hout
      by_cases hm : m.isSome = true
      · rw [if_pos hm] at hout
        simp only [Except.ok.injEq] at hout
        subst hout
        refine ⟨?_, rfl, rfl⟩
        simp only [solver.get_model]
        rw [asserted_snoc _ _ (by intro e; simp), hs2]
      · rw [if_neg hm] at hout
        simp only [Except.ok.injEq] at hout
        subst hout
        exact ⟨hs2, rfl, rfl⟩
  · intro hv
    unfold iz3interpolate
    simp only [hres, h2, hpf, uncook_into_eq]
    rw [if_neg hv]
    by_cases hm : m.isSome = true
    · rw [if_pos hm]; exact ⟨_, rfl⟩
    · rw [if_neg hm]; exact ⟨_, rfl⟩
  · intro iv hiv
    unfold iz3interpolate
    simp only [hres, h2, hpf, uncook_into_eq, hiv]
    by_cases hv : s.check_sat_answer (s.asserted ++ frames_of tree) = lbool.l_false
    · rw [if_pos hv]; exact ⟨_, rfl⟩
    · rw [if_neg hv]
      by_cases hm : m.isSome = true
      · rw [if_pos hm]; exact ⟨_, rfl⟩
      · rw [if_neg hm]; exact ⟨_, rfl⟩

/-- C10: when the solver's check does not answer UNSAT, `iz3interpolate`
returns that verdict, the interpolants output is the vector the caller passed,
the frames output is the asserted frame list, the only calls made to the
solver are the assertions, the check and (if a model slot was passed) one
model request, so no proof is requested, and the outcome does not depend on
the converter, the translator or the fuel, so no interpolation is run. -/
theorem C10_satisfiable_path (conv : tree_converter) (tr : translator) (fuel : Nat)
    (s : solver) (tree : ast) (cnsts interps : List ast) (m : Option model)
    (hv : s.check_sat_answer (s.asserted ++ frames_of tree) ≠ lbool.l_false) :
    ∃ out, iz3interpolate conv tr fuel s tree cnsts interps m = .ok out ∧
      out.res = s.check_sat_answer (s.asserted ++ frames_of tree) ∧
      out.interps = interps ∧
      out.cnsts = frames_of tree ∧
      out.s.calls = s.calls ++ (frames_of tree).map solver_call.assert_expr ++
        [solver_call.check_sat] ++ (if m.isSome then [solver_call.get_model] else []) ∧
      solver_call.get_proof ∉ (frames_of tree).map solver_call.assert_expr ++
        [solver_call.check_sat] ++ (if m.isSome then [solver_call.get_model] else []) ∧
      out.m = (if m.isSome then some (s.get_model_answer (s.asserted ++ frames_of tree))
               else m) ∧
      ∀ (conv2 : tree_converter) (tr2 : translator) (fuel2 : Nat),
        iz3interpolate conv2 tr2 fuel2 s tree cnsts interps m = .ok out := by
  have ha := assert_conjuncts_asserted s tree
  have h2 : (assert_conjuncts s [] tree).2 = frames_of tree := by
    rw [assert_conjuncts_eq]
  have hres : (assert_conjuncts s [] tree).1.check_sat.1 =
      s.check_sat_answer (s.asserted ++ frames_of tree) := by
    simp only [solver.check_sat, ha]
    rw [assert_conjuncts_eq]
  have hs2 : (assert_conjuncts s [] tree).1.check_sat.2.asserted =
      s.asserted ++ frames_of tree := by
    simp only [solver.check_sat]
    rw [asserted_snoc _ _ (by intro e; simp), ha]
  have hnp : solver_call.get_proof ∉ (frames_of tree).map solver_call.assert_expr ++
      [solver_call.check_sat] ++ (if m.isSome then [solver_call.get_model] else []) := by
    by_cases hm : m.isSome = true <;> simp [hm]
  have hall : ∀ (conv2 : tree_converter) (tr2 : translator) (fuel2 : Nat),
      iz3interpolate conv2 tr2 fuel2 s tree cnsts interps m =
        iz3interpolate conv tr fuel s tree cnsts interps m := by
    intro conv2 tr2 fuel2
    unfold iz3interpolate
    simp only [hres, h2, uncook_into_eq]
    rw [if_neg hv, if_neg hv]
  by_cases hm : m.isSome = true
  · have hout : iz3interpolate conv tr fuel s tree cnsts interps m =
        .ok { res := s.check_sat_answer (s.asserted ++ frames_of tree),
              s := (assert_conjuncts s [] tree).1.check_sat.2.get_model.2,
              cnsts := frames_of tree, interps := interps,
              m := some (assert_conjuncts s [] tree).1.check_sat.2.get_model.1 } := by
      unfold iz3interpolate
      simp only [hres, h2, uncook_into_eq]
      rw [if_neg hv, if_pos hm]
    refine ⟨_, hout, rfl, rfl, rfl, ?_, hnp, ?_, fun c t f => by rw [hall, hout]⟩
    · simp only [solver.get_model, solver.check_sat, hm, if_true]
      rw [assert_conjuncts_eq]
    · simp only [hm, if_true, solver.get_model]
      rw [hs2]
      simp only [solver.check_sat]
      rw [assert_conjuncts_eq]
  · have hout : iz3interpolate conv tr fuel s tree cnsts interps m =
        .ok { res := s.check_sat_answer (s.asserted ++ frames_of tree),
              s := (assert_conjuncts s [] tree).1.check_sat.2,
              cnsts := frames_of tree, interps := interps, m := m } := by
      unfold iz3interpolate
      simp only [hres, h2, uncook_into_eq]
      rw [if_neg hv, if_neg hm]
    refine ⟨_, hout, rfl, rfl, rfl, ?_, hnp, ?_, fun c t f => by rw [hall, hout]⟩
    · simp only [solver.check_sat, hm]
      rw [assert_conjuncts_eq]
      simp
    · simp only [hm]
      rfl

end iz3

namespace iz3

theorem C9_frames_returned_equal_frames_asserted_witness :
    ∃ out, iz3interpolate demo_conv demo_tr 2 (demo_solver lbool.l_false) demo_tree
      [] [] none = .ok out :=
  (C9_frames_returned_equal_frames_asserted demo_conv demo_tr 2
    (demo_solver lbool.l_false) demo_tree [] [] none).2.2.2.2 [atom 9, mk_false] (by decide)

theorem C10_satisfiable_path_witness :
    ∃ out, iz3interpolate demo_conv demo_tr 0 (demo_solver lbool.l_true) demo_tree
        [] [atom 5] (some { id := 0 }) = .ok out ∧
      out.res = (demo_solver lbool.l_true).check_sat_answer
        ((demo_solver lbool.l_true).asserted ++ frames_of demo_tree) ∧
      out.interps = [atom 5] ∧
      out.cnsts = frames_of demo_tree ∧
      out.s.calls = (demo_solver lbool.l_true).calls ++
        (frames_of demo_tree).map solver_call.assert_expr ++
        [solver_call.check_sat] ++
        (if (some ({ id := 0 } : model)).isSome then [solver_call.get_model] else []) ∧
      solver_call.get_proof ∉ (frames_of demo_tree).map solver_call.assert_expr ++
        [solver_call.check_sat] ++
        (if (some ({ id := 0 } : model)).isSome then [solver_call.get_model] else []) ∧
      out.m = (if (some ({ id := 0 } : model)).isSome then
          some ((demo_solver lbool.l_true).get_model_answer
            ((demo_solver lbool.l_true).asserted ++ frames_of demo_tree))
        else some { id := 0 }) ∧
      ∀ (conv2 : tree_converter) (tr2 : translator) (fuel2 : Nat),
        iz3interpolate conv2 tr2 fuel2 (demo_solver lbool.l_true) demo_tree
          [] [atom 5] (some { id := 0 }) = .ok out :=
  C10_satisfiable_path demo_conv demo_tr 0 (demo_solver lbool.l_true) demo_tree
    [] [atom 5] (some { id := 0 }) (by decide)

end iz3

namespace iz3

/-! ## What `get_frames` returns -/

/-- Whatever `get_frames` returns, the reducer state and the reduced frame list
are the ones the retention loop builds from the used-frame vector. -/
theorem get_frames_inv (fuel : Nat) (z3_preds : List ast) (orig_parents : List Int)
    (proof : z3pf) (fr : frame_reducer) (cnsts_vec : List ast) (parents_vec : List Int)
    (h : get_frames fuel z3_preds orig_parents [] [] proof = .ok (fr, cnsts_vec, parents_vec)) :
    fr = { frames := z3_preds.length, frame_map := build_frame_map z3_preds [],
           assertions_map := retained z3_preds.length (used_of z3_preds proof),
           orig_parents_copy := orig_parents, used_frames := used_of z3_preds proof } ∧
    cnsts_vec = (retained z3_preds.length (used_of z3_preds proof)).map
      (fun i => z3_preds.getD i default) := by
  unfold get_frames at h
  simp only at h
  have hu : (get_proof_assumptions_rec (build_frame_map z3_preds []) proof
      ([], resize [] z3_preds.length false)).2 = used_of z3_preds proof := rfl
  rw [hu, retain_loop_eq] at h
  simp only [List.length_map] at h
  by_cases hp : orig_parents.length ≠ 0
  · rw [if_pos hp] at h
    split at h
    · exact Except.noConfusion h
    · simp only [Except.ok.injEq, Prod.mk.injEq] at h
      exact ⟨h.1.symm, h.2.1.symm⟩
  · rw [if_neg hp] at h
    simp only [Except.ok.injEq, Prod.mk.injEq] at h
    exact ⟨h.1.symm, h.2.1.symm⟩

theorem retained_pairwise (n : Nat) (used : List Bool) :
    (retained n used).Pairwise (fun a b => a < b) :=
  (List.pairwise_lt_range n).filter _

theorem retained_getLast (n : Nat) (used : List Bool) (hn : 1 ≤ n) :
    (retained n used).getLast? = some (n - 1) := by
  rw [retained_eq n used hn, List.getLast?_concat]

/-- In the forward map, positions and frame indices are ordered alike. -/
theorem retained_lt_iff (n : Nat) (used : List Bool) (i k a b : Nat)
    (hi : (retained n used)[i]? = some a) (hk : (retained n used)[k]? = some b) :
    a < b ↔ i < k := by
  have hil : i < (retained n used).length := by
    by_contra hc
    rw [List.getElem?_eq_none (by omega)] at hi
    exact Option.noConfusion hi
  have hkl : k < (retained n used).length := by
    by_contra hc
    rw [List.getElem?_eq_none (by omega)] at hk
    exact Option.noConfusion hk
  rw [List.getElem?_eq_getElem hil] at hi
  rw [List.getElem?_eq_getElem hkl] at hk
  cases hi
  cases hk
  have hp := List.pairwise_iff_getElem.mp (retained_pairwise n used)
  constructor
  · intro hab
    by_contra hc
    rcases Nat.lt_or_ge k i with h | h
    · have := hp k i hkl hil h
      omega
    · have : i = k := by omega
      subst this
      omega
  · intro hik
    exact hp i k hil hkl hik

/-! ## The forward and backward maps -/

/-- C14: for `N >= 1` frames, any proof and any well-formed parent vector,
`get_frames` returns a forward map that is strictly increasing and ends in
`N-1`; reduced frame `i` is original frame `forward_map[i]`, and the backward
map built by the retention loop sends `forward_map[i]` back to `i`. -/
theorem C14_order_preserving_subsequence (fuel : Nat) (F : List ast) (parents : List Int)
    (P : z3pf) (hN : 1 ≤ F.length) (hp : parents_ok true F.length parents)
    (hf : F.length ≤ fuel) :
    ∃ fr cnsts_vec parents_vec,
      get_frames fuel F parents [] [] P = .ok (fr, cnsts_vec, parents_vec) ∧
      fr.assertions_map.Pairwise (fun a b => a < b) ∧
      fr.assertions_map.getLast? = some (F.length - 1) ∧
      cnsts_vec.length = fr.assertions_map.length ∧
      ∀ i a, fr.assertions_map[i]? = some a →
        a < F.length ∧ cnsts_vec[i]? = F[a]? ∧
        (back_map_of F fr.used_frames)[a]? = some i := by
  obtain ⟨pv, hg⟩ := get_frames_total fuel F parents P hp hf
  refine ⟨_, _, pv, hg, retained_pairwise _ _, retained_getLast _ _ hN, by simp, ?_⟩
  intro i a hia
  have hia2 : (retained F.length (used_of F P))[i]? = some a := hia
  have haN := retained_lt _ _ _ _ hia2
  refine ⟨haN, ?_, back_map_of_retained F (used_of F P) i a hia2⟩
  rw [List.getElem?_map, hia2]
  simp [List.getD_eq_getElem?_getD, List.getElem?_eq_getElem haN]

theorem C14_order_preserving_subsequence_witness :
    ∃ fr cnsts_vec parents_vec,
      get_frames 3 [atom 1, atom 2, atom 3] [2, 2, SHRT_MAX] [] []
          (.asserted (atom 2)) = .ok (fr, cnsts_vec, parents_vec) ∧
      fr.assertions_map.Pairwise (fun a b => a < b) ∧
      fr.assertions_map.getLast? = some ([atom 1, atom 2, atom 3].length - 1) ∧
      cnsts_vec.length = fr.assertions_map.length ∧
      ∀ i a, fr.assertions_map[i]? = some a →
        a < [atom 1, atom 2, atom 3].length ∧
        cnsts_vec[i]? = [atom 1, atom 2, atom 3][a]? ∧
        (back_map_of [atom 1, atom 2, atom 3] fr.used_frames)[a]? = some i :=
  C14_order_preserving_subsequence 3 [atom 1, atom 2, atom 3] [2, 2, SHRT_MAX]
    (.asserted (atom 2)) (by decide) (by decide) (by decide)

/-! ## Termination of the parent walk -/

/-- C17: when every entry of the original parent vector is the sentinel or an
in-range index larger than its own position, `get_frames` returns with fuel
`N`, and for every retained frame the walk started at its parent entry
returns within `N` executions of the loop body, without a read outside the
vectors, at the sentinel or at a used in-range frame. -/
theorem C17_parent_walk_terminates (F : List ast) (parents : List Int) (P : z3pf)
    (hl : parents.length = F.length) (he : entries_ok true F.length parents) :
    ∃ fr cnsts_vec parents_vec,
      get_frames F.length F parents [] [] P = .ok (fr, cnsts_vec, parents_vec) ∧
      ∀ (i a : Nat), fr.assertions_map[i]? = some a →
        ∃ p0 q, fr.orig_parents_copy[a]? = some p0 ∧
          parent_walk fr.orig_parents_copy fr.used_frames F.length p0 = .ok q ∧
          (q = SHRT_MAX ∨
            (0 ≤ q ∧ q < F.length ∧ fr.used_frames[q.toNat]? = some true)) := by
  obtain ⟨pv, hg⟩ := get_frames_total F.length F parents P (Or.inr ⟨hl, he⟩) (Nat.le_refl _)
  refine ⟨_, _, pv, hg, ?_⟩
  intro i a hia
  have hia2 : (retained F.length (used_of F P))[i]? = some a := hia
  have haN := retained_lt _ _ _ _ hia2
  have hap : a < parents.length := by omega
  have hp0 : parents[a]? = some parents[a] := List.getElem?_eq_getElem hap
  obtain ⟨q, hq, hq2⟩ := parent_walk_ok parents (used_of F P) F.length hl
    (used_of_length _ _) he F.length parents[a]
    (by
      rcases he a _ hp0 with h | ⟨h1, h2, _⟩
      · exact Or.inl h
      · exact Or.inr ⟨h1, h2, by omega⟩)
  exact ⟨parents[a], q, hp0, hq, hq2⟩

theorem C17_parent_walk_terminates_witness :
    ∃ fr cnsts_vec parents_vec,
      get_frames [atom 1, atom 2, atom 3, atom 4].length [atom 1, atom 2, atom 3, atom 4]
          [1, 2, 3, SHRT_MAX] [] [] (.asserted (atom 1)) =
        .ok (fr, cnsts_vec, parents_vec) ∧
      ∀ (i a : Nat), fr.assertions_map[i]? = some a →
        ∃ p0 q, fr.orig_parents_copy[a]? = some p0 ∧
          parent_walk fr.orig_parents_copy fr.used_frames
            [atom 1, atom 2, atom 3, atom 4].length p0 = .ok q ∧
          (q = SHRT_MAX ∨
            (0 ≤ q ∧ q < [atom 1, atom 2, atom 3, atom 4].length ∧
              fr.used_frames[q.toNat]? = some true)) :=
  C17_parent_walk_terminates [atom 1, atom 2, atom 3, atom 4] [1, 2, 3, SHRT_MAX]
    (.asserted (atom 1)) (by decide) (by decide)

end iz3

namespace iz3

/-! ## Expansion keeps computed interpolants in place -/

theorem vget_inv {α : Type} (v : List α) (i : Nat) (a : α) (h : vget v i = .ok a) :
    v[i]? = some a := by
  unfold vget at h
  cases hv : v[i]? with
  | none => rw [hv] at h; exact Except.noConfusion h
  | some b =>
    rw [hv] at h
    simp only [Except.ok.injEq] at h
    rw [h]

theorem vget_int_inv {α : Type} (v : List α) (p : Int) (a : α) (h : vget_int v p = .ok a) :
    0 ≤ p ∧ v[p.toNat]? = some a := by
  unfold vget_int at h
  by_cases hp : p < 0
  · rw [if_pos hp] at h; exact Except.noConfusion h
  · rw [if_neg hp] at h
    exact ⟨by omega, vget_inv _ _ _ h⟩

theorem vset_int_inv {α : Type} (v : List α) (p : Int) (a : α) (w : List α)
    (h : vset_int v p a = .ok w) : 0 ≤ p ∧ p.toNat < v.length ∧ w = v.set p.toNat a := by
  unfold vset_int at h
  by_cases hp : p < 0
  · rw [if_pos hp] at h; exact Except.noConfusion h
  · rw [if_neg hp] at h
    unfold vset at h
    by_cases hl : p.toNat < v.length
    · rw [if_pos hl] at h
      simp only [Except.ok.injEq] at h
      exact ⟨by omega, hl, h.symm⟩
    · rw [if_neg hl] at h; exact Except.noConfusion h

/-- Whenever an iteration of the propagation loop returns, it has written at
most one slot, the slot of an unused frame. -/
theorem propagate_step_inv (fr : frame_reducer) (v w : List ast) (i : Nat)
    (h : propagate_step fr v i = .ok w) :
    w = v ∨ ∃ (p : Int) (x : ast), propagate_parent fr i = some p ∧ 0 ≤ p ∧
      p < (fr.frames : Int) - 1 ∧ fr.used_frames[p.toNat]? = some false ∧
      v[i]? = some x ∧ w = v.set p.toNat x := by
  unfold propagate_step at h
  cases hr : (if fr.orig_parents_copy.length = 0 then (pure ((i : Int) + 1) : Except fault Int)
      else vget fr.orig_parents_copy i) with
  | error e =>
    rw [hr] at h
    exact Except.noConfusion h
  | ok p =>
    rw [hr] at h
    have hpp : propagate_parent fr i = some p := by
      unfold propagate_parent
      by_cases hz : fr.orig_parents_copy.length = 0
      · rw [if_pos hz] at hr ⊢
        cases hr; rfl
      · rw [if_neg hz] at hr ⊢
        exact vget_inv _ _ _ hr
    change (if p < (fr.frames : Int) - 1 then
        vget_int fr.used_frames p >>= fun u =>
          if !u then vget v i >>= fun x => vset_int v p x else pure v
      else pure v) = Except.ok w at h
    by_cases hlt : p < (fr.frames : Int) - 1
    · rw [if_pos hlt] at h
      cases hu : vget_int fr.used_frames p with
      | error e =>
        rw [hu] at h
        exact Except.noConfusion h
      | ok u =>
        rw [hu] at h
        obtain ⟨h0, hup⟩ := vget_int_inv _ _ _ hu
        change (if (!u) = true then vget v i >>= fun x => vset_int v p x else pure v)
          = Except.ok w at h
        cases u with
        | true =>
          simp only [Bool.not_true, Bool.false_eq_true, if_false] at h
          left
          cases h; rfl
        | false =>
          simp only [Bool.not_false, if_true] at h
          cases hx : vget v i with
          | error e =>
            rw [hx] at h
            exact Except.noConfusion h
          | ok x =>
            rw [hx] at h
            change vset_int v p x = Except.ok w at h
            obtain ⟨_, _, hw⟩ := vset_int_inv _ _ _ _ h
            exact Or.inr ⟨p, x, hpp, h0, hlt, hup, vget_inv _ _ _ hx, hw⟩
    · rw [if_neg hlt] at h
      left
      cases h; rfl

theorem propagate_step_used (fr : frame_reducer) (v w : List ast) (i : Nat)
    (h : propagate_step fr v i = .ok w) (j : Nat)
    (hj : fr.used_frames[j]? = some true) : w[j]? = v[j]? := by
  rcases propagate_step_inv fr v w i h with h | ⟨p, x, _, _, _, hu, _, hw⟩
  · rw [h]
  · rw [hw, List.getElem?_set]
    have hne : p.toNat ≠ j := by
      intro hpj
      rw [hpj, hj] at hu
      cases hu
    rw [if_neg hne]

/-- The propagation loop returns and leaves the slot of every used frame as it
found it. -/
theorem propagate_loop_used (fr : frame_reducer) (v2 : List ast) (strict : Bool)
    (hul : fr.used_frames.length = fr.frames) (hvl : v2.length = fr.frames - 1)
    (hp : parents_ok strict fr.frames fr.orig_parents_copy) :
    ∃ r, (List.range (fr.frames - 2)).foldlM (propagate_step fr) v2 = .ok r ∧
      r.length = fr.frames - 1 ∧
      ∀ j : Nat, fr.used_frames[j]? = some true → r[j]? = v2[j]? := by
  apply foldlM_range_inv (propagate_step fr)
    (fun _ v => v.length = fr.frames - 1 ∧
      ∀ j : Nat, fr.used_frames[j]? = some true → v[j]? = v2[j]?)
    (fr.frames - 2) v2 ⟨hvl, fun _ _ => rfl⟩
  intro i v hi ⟨hl, hA⟩
  obtain ⟨p, hpp, h0⟩ := propagate_parent_ok fr strict hp i hi
  have hstep := propagate_step_ok fr v i p hpp h0 hul hl (by omega)
  refine ⟨_, hstep, ?_, ?_⟩
  · split_ifs
    · simp [hl]
    · exact hl
  · intro j hj
    rw [propagate_step_used fr v _ i hstep j hj]
    exact hA j hj

/-- C11: for a parent vector that is empty or has one entry per frame, each the
sentinel or an in-range index, and the reducer state left by `get_frames`,
`fix_interpolants` returns `N-1` slots; every slot the forward map writes is
within them and still holds its reduced interpolant at the end, so the slot of
every used non-final frame `j` holds the reduced interpolant whose forward-map
index is `j`; and no iteration of the propagation pass changes the slot of a
used frame. -/
theorem C11_expand_keeps_computed_interpolants (fuel : Nat) (F : List ast)
    (parents : List Int) (P : z3pf) (fr : frame_reducer) (cnsts_vec : List ast)
    (parents_vec : List Int) (unfixed : List ast) (hN : 1 ≤ F.length)
    (hp : parents_ok false F.length parents)
    (hg : get_frames fuel F parents [] [] P = .ok (fr, cnsts_vec, parents_vec))
    (hlen : unfixed.length = cnsts_vec.length - 1) :
    ∃ r, fix_interpolants fr unfixed = .ok r ∧ r.length = F.length - 1 ∧
      (∀ k j, k < unfixed.length → fr.assertions_map[k]? = some j →
        j < F.length - 1 ∧ fr.used_frames[j]? = some true ∧ r[j]? = unfixed[k]?) ∧
      (∀ j, j < F.length - 1 → fr.used_frames[j]? = some true →
        ∃ k, k < unfixed.length ∧ fr.assertions_map[k]? = some j ∧ r[j]? = unfixed[k]?) ∧
      (∀ (v w : List ast) (i : Nat), propagate_step fr v i = .ok w →
        ∀ j : Nat, fr.used_frames[j]? = some true → w[j]? = v[j]?) := by
  obtain ⟨hfr, hcv⟩ := get_frames_inv fuel F parents P fr cnsts_vec parents_vec hg
  subst hfr
  subst hcv
  simp only [List.length_map] at hlen
  have hin : ∀ k, k < unfixed.length →
      ∃ i, (retained F.length (used_of F P))[k]? = some i ∧ i < F.length - 1 := by
    intro k hk
    have hk2 : k < (retained F.length (used_of F P)).length := by omega
    exact ⟨_, List.getElem?_eq_getElem hk2,
      (retained_init _ _ hN k _ (by omega) (List.getElem?_eq_getElem hk2)).1⟩
  obtain ⟨v2, hv2, hA, _, heq⟩ := fix_interpolants_eq
    (⟨F.length, build_frame_map F [], retained F.length (used_of F P), parents,
      used_of F P⟩ : frame_reducer) unfixed hN (retained_nodup _ _) hin
  obtain ⟨r, hr, hrl, hkeep⟩ := propagate_loop_used
    (⟨F.length, build_frame_map F [], retained F.length (used_of F P), parents,
      used_of F P⟩ : frame_reducer) v2 false (used_of_length _ _) hv2 hp
  have hused : ∀ k j, k < unfixed.length →
      (retained F.length (used_of F P))[k]? = some j →
      j < F.length - 1 ∧ (used_of F P)[j]? = some true := by
    intro k j hk hkj
    obtain ⟨h1, h2⟩ := retained_init _ _ hN k j (by omega) hkj
    refine ⟨h1, ?_⟩
    have hjl : j < (used_of F P).length := by rw [used_of_length]; omega
    rw [List.getD_eq_getElem?_getD, List.getElem?_eq_getElem hjl] at h2
    rw [List.getElem?_eq_getElem hjl]
    simpa using h2
  refine ⟨r, by rw [heq]; exact hr, hrl, ?_, ?_, ?_⟩
  · intro k j hk hkj
    obtain ⟨h1, h2⟩ := hused k j hk hkj
    refine ⟨h1, h2, ?_⟩
    rw [hkeep j h2]
    exact hA k j hk hkj
  · intro j hj hu
    obtain ⟨k, hk1, hk2⟩ := retained_index_of_used F.length (used_of F P) hN j hj hu
    refine ⟨k, by omega, hk2, ?_⟩
    rw [hkeep j hu]
    exact hA k j (by omega) hk2
  · intro v w i h j hj
    exact propagate_step_used _ v w i h j hj

theorem C11_expand_keeps_computed_interpolants_witness :
    ∃ r, fix_interpolants
        { frames := 3, frame_map := [(atom 3, 2), (atom 2, 1), (atom 1, 0)],
          assertions_map := [1, 2], orig_parents_copy := [0, 1, SHRT_MAX],
          used_frames := [false, true, false] } [atom 9] = .ok r ∧
      r.length = [atom 1, atom 2, atom 3].length - 1 ∧
      (∀ k j, k < [atom 9].length →
        (frame_reducer.mk 3 [(atom 3, 2), (atom 2, 1), (atom 1, 0)] [1, 2]
          [0, 1, SHRT_MAX] [false, true, false]).assertions_map[k]? = some j →
        j < [atom 1, atom 2, atom 3].length - 1 ∧
        (frame_reducer.mk 3 [(atom 3, 2), (atom 2, 1), (atom 1, 0)] [1, 2]
          [0, 1, SHRT_MAX] [false, true, false]).used_frames[j]? = some true ∧
        r[j]? = [atom 9][k]?) ∧
      (∀ j, j < [atom 1, atom 2, atom 3].length - 1 →
        (frame_reducer.mk 3 [(atom 3, 2), (atom 2, 1), (atom 1, 0)] [1, 2]
          [0, 1, SHRT_MAX] [false, true, false]).used_frames[j]? = some true →
        ∃ k, k < [atom 9].length ∧
          (frame_reducer.mk 3 [(atom 3, 2), (atom 2, 1), (atom 1, 0)] [1, 2]
            [0, 1, SHRT_MAX] [false, true, false]).assertions_map[k]? = some j ∧
          r[j]? = [atom 9][k]?) ∧
      (∀ (v w : List ast) (i : Nat),
        propagate_step (frame_reducer.mk 3 [(atom 3, 2), (atom 2, 1), (atom 1, 0)] [1, 2]
          [0, 1, SHRT_MAX] [false, true, false]) v i = .ok w →
        ∀ j : Nat, (frame_reducer.mk 3 [(atom 3, 2), (atom 2, 1), (atom 1, 0)] [1, 2]
          [0, 1, SHRT_MAX] [false, true, false]).used_frames[j]? = some true →
          w[j]? = v[j]?) :=
  C11_expand_keeps_computed_interpolants 3 [atom 1, atom 2, atom 3] [0, 1, SHRT_MAX]
    (.asserted (atom 2)) _ [atom 2, atom 3] [0, SHRT_MAX] [atom 9]
    (by decide) (by decide) (by decide) (by decide)

end iz3

namespace iz3

/-! ## Memoization -/

mutual
theorem nomemo_length (fm : hash_map ast Nat) :
    ∀ (p : z3pf) (used : List Bool),
      (get_proof_assumptions_nomemo fm p used).length = used.length
  | .asserted con, used => by
    simp only [get_proof_assumptions_nomemo]
    split <;> simp
  | .step k con ps, used => by
    simp only [get_proof_assumptions_nomemo]
    exact nomemo_prems_length fm ps used
theorem nomemo_prems_length (fm : hash_map ast Nat) :
    ∀ (ps : List z3pf) (used : List Bool),
      (get_proof_assumptions_nomemo_prems fm ps used).length = used.length
  | [], used => by simp [get_proof_assumptions_nomemo_prems]
  | p :: rest, used => by
    simp only [get_proof_assumptions_nomemo_prems]
    rw [nomemo_prems_length fm rest, nomemo_length fm p]
end

mutual
/-- The frames marked by the traversal without a visited set. -/
theorem nomemo_iff (fm : hash_map ast Nat) :
    ∀ (p : z3pf) (used : List Bool) (j : Nat),
      (∀ c j, fm.find c = some j → j < used.length) →
      ((get_proof_assumptions_nomemo fm p used)[j]? = some true ↔
        used[j]? = some true ∨ ∃ c, c ∈ asserted_concs p ∧ fm.find c = some j)
  | .asserted con, used, j, hfm => by
    simp only [get_proof_assumptions_nomemo, asserted_concs, List.mem_singleton]
    cases hf : fm.find con with
    | none =>
      simp only
      constructor
      · intro h; exact Or.inl h
      · rintro (h | ⟨c, hc, hj⟩)
        · exact h
        · rw [hc, hf] at hj
          exact Option.noConfusion hj
    | some frame =>
      simp only
      have hlt := hfm con frame hf
      rw [List.getElem?_set]
      by_cases hfj : frame = j
      · rw [if_pos hfj, if_pos hlt]
        constructor
        · intro _
          exact Or.inr ⟨con, rfl, by rw [hf, hfj]⟩
        · intro _; rfl
      · rw [if_neg hfj]
        constructor
        · intro h; exact Or.inl h
        · rintro (h | ⟨c, hc, hj⟩)
          · exact h
          · rw [hc, hf] at hj
            cases hj
            exact absurd rfl hfj
  | .step k con ps, used, j, hfm => by
    simp only [get_proof_assumptions_nomemo, asserted_concs]
    exact nomemo_prems_iff fm ps used j hfm
theorem nomemo_prems_iff (fm : hash_map ast Nat) :
    ∀ (ps : List z3pf) (used : List Bool) (j : Nat),
      (∀ c j, fm.find c = some j → j < used.length) →
      ((get_proof_assumptions_nomemo_prems fm ps used)[j]? = some true ↔
        used[j]? = some true ∨ ∃ c, c ∈ asserted_concs_prems ps ∧ fm.find c = some j)
  | [], used, j, _ => by
    simp [get_proof_assumptions_nomemo_prems, asserted_concs_prems]
  | p :: rest, used, j, hfm => by
    simp only [get_proof_assumptions_nomemo_prems, asserted_concs_prems, List.mem_append]
    rw [nomemo_prems_iff fm rest _ j (by
      intro c j hj
      rw [nomemo_length]
      exact hfm c j hj), nomemo_iff fm p used j hfm]
    constructor
    · rintro ((h | ⟨c, hc, hj⟩) | ⟨c, hc, hj⟩)
      · exact Or.inl h
      · exact Or.inr ⟨c, Or.inl hc, hj⟩
      · exact Or.inr ⟨c, Or.inr hc, hj⟩
    · rintro (h | ⟨c, hc | hc, hj⟩)
      · exact Or.inl (Or.inl h)
      · exact Or.inl (Or.inr ⟨c, hc, hj⟩)
      · exact Or.inr ⟨c, hc, hj⟩
end

/-- The frames marked by the memoized traversal started on an empty visited set. -/
theorem rec_iff (fm : hash_map ast Nat) (p : z3pf) (used : List Bool) (j : Nat)
    (hfm : ∀ c j, fm.find c = some j → j < used.length) :
    (get_proof_assumptions_rec fm p ([], used)).2[j]? = some true ↔
      used[j]? = some true ∨ ∃ c, c ∈ asserted_concs p ∧ fm.find c = some j := by
  constructor
  · exact rec_sound fm p [] used j
  · obtain ⟨_, hmono, hm, _⟩ := rec_complete fm p [] used hfm
      (fun q hq => absurd hq (List.not_mem_nil q))
    rintro (h | ⟨c, hc, hj⟩)
    · exact hmono j h
    · exact hm c hc j hj

theorem bool_list_ext (l1 l2 : List Bool) (hl : l1.length = l2.length)
    (h : ∀ j : Nat, l1[j]? = some true ↔ l2[j]? = some true) : l1 = l2 := by
  apply List.ext_getElem hl
  intro j h1 h2
  have hj := h j
  rw [List.getElem?_eq_getElem h1, List.getElem?_eq_getElem h2] at hj
  cases hb1 : l1[j] <;> cases hb2 : l2[j] <;> simp [hb1, hb2] at hj ⊢

mutual
/-- The visited set, read as the list of the nodes processed so far, never
holds a node twice, and only holds nodes of the proof being traversed. -/
theorem rec_memo_nodup (fm : hash_map ast Nat) :
    ∀ (p : z3pf) (memo : List z3pf) (used : List Bool), memo.Nodup →
      (get_proof_assumptions_rec fm p (memo, used)).1.Nodup ∧
      ∀ q, q ∈ (get_proof_assumptions_rec fm p (memo, used)).1 → q ∈ memo ∨ reachable p q
  | .asserted con, memo, used, hnd => by
    simp only [get_proof_assumptions_rec]
    by_cases hin : z3pf.asserted con ∈ memo
    · rw [if_pos hin]
      exact ⟨hnd, fun q hq => Or.inl hq⟩
    · rw [if_neg hin]
      have hall : ∀ q, q ∈ z3pf.asserted con :: memo →
          q ∈ memo ∨ reachable (z3pf.asserted con) q := by
        intro q hq
        simp only [List.mem_cons] at hq
        rcases hq with hq | hq
        · rw [hq]; exact Or.inr (reachable.here _)
        · exact Or.inl hq
      split
      · exact ⟨List.nodup_cons.mpr ⟨hin, hnd⟩, hall⟩
      · exact ⟨List.nodup_cons.mpr ⟨hin, hnd⟩, hall⟩
  | .step k con ps, memo, used, hnd => by
    simp only [get_proof_assumptions_rec]
    by_cases hin : z3pf.step k con ps ∈ memo
    · rw [if_pos hin]
      exact ⟨hnd, fun q hq => Or.inl hq⟩
    · rw [if_neg hin]
      obtain ⟨h1, h2⟩ := prems_memo_nodup fm ps (z3pf.step k con ps :: memo) used
        (List.nodup_cons.mpr ⟨hin, hnd⟩)
      refine ⟨h1, ?_⟩
      intro q hq
      rcases h2 q hq with h | ⟨r, hr, hrq⟩
      · simp only [List.mem_cons] at h
        rcases h with h | h
        · rw [h]; exact Or.inr (reachable.here _)
        · exact Or.inl h
      · exact Or.inr (reachable.through k con ps r q hr hrq)
theorem prems_memo_nodup (fm : hash_map ast Nat) :
    ∀ (ps : List z3pf) (memo : List z3pf) (used : List Bool), memo.Nodup →
      (get_proof_assumptions_prems fm ps (memo, used)).1.Nodup ∧
      ∀ q, q ∈ (get_proof_assumptions_prems fm ps (memo, used)).1 →
        q ∈ memo ∨ ∃ r, r ∈ ps ∧ reachable r q
  | [], memo, used, hnd => by
    simp only [get_proof_assumptions_prems]
    exact ⟨hnd, fun q hq => Or.inl hq⟩
  | p :: rest, memo, used, hnd => by
    simp only [get_proof_assumptions_prems]
    obtain ⟨a1, a2⟩ := rec_memo_nodup fm p memo used hnd
    obtain ⟨b1, b2⟩ := prems_memo_nodup fm rest
      (get_proof_assumptions_rec fm p (memo, used)).1
      (get_proof_assumptions_rec fm p (memo, used)).2 a1
    refine ⟨b1, ?_⟩
    intro q hq
    rcases b2 q hq with h | ⟨r, hr, hrq⟩
    · rcases a2 q h with h | h
      · exact Or.inl h
      · exact Or.inr ⟨p, List.mem_cons_self _ _, h⟩
    · exact Or.inr ⟨r, List.mem_cons_of_mem _ hr, hrq⟩
end

/-- C13: the used-frame vector that `get_proof_assumptions_rec` computes with
its visited set, started on an empty set, equals the one computed by the same
traversal without a visited set, for every proof (shared sub-proofs are equal
subterms) and every frame list; and the visited set, to which a node is added
exactly when it is processed, never receives a node twice and only receives
nodes reachable from the root. -/
theorem C13_memoization_correct :
    (∀ (F : List ast) (P : z3pf),
      used_of F P =
        get_proof_assumptions_nomemo (build_frame_map F []) P
          (resize [] F.length false)) ∧
    (∀ (fm : hash_map ast Nat) (P : z3pf) (used : List Bool),
      (∀ c j, fm.find c = some j → j < used.length) →
      (get_proof_assumptions_rec fm P ([], used)).2 =
        get_proof_assumptions_nomemo fm P used) ∧
    (∀ (fm : hash_map ast Nat) (P : z3pf) (used : List Bool),
      (get_proof_assumptions_rec fm P ([], used)).1.Nodup ∧
      ∀ q, q ∈ (get_proof_assumptions_rec fm P ([], used)).1 → reachable P q) := by
  have hgen : ∀ (fm : hash_map ast Nat) (P : z3pf) (used : List Bool),
      (∀ c j, fm.find c = some j → j < used.length) →
      (get_proof_assumptions_rec fm P ([], used)).2 =
        get_proof_assumptions_nomemo fm P used := by
    intro fm P used hfm
    apply bool_list_ext
    · rw [rec_used_length, nomemo_length]
    · intro j
      rw [rec_iff fm P used j hfm, nomemo_iff fm P used j hfm]
  refine ⟨?_, hgen, ?_⟩
  · intro F P
    unfold used_of
    apply hgen
    intro c j hj
    rw [resize_length]
    exact build_frame_map_lt F c j hj
  · intro fm P used
    obtain ⟨h1, h2⟩ := rec_memo_nodup fm P [] used List.nodup_nil
    refine ⟨h1, ?_⟩
    intro q hq
    rcases h2 q hq with h | h
    · exact absurd h (List.not_mem_nil q)
    · exact h

theorem C13_memoization_correct_witness :
    (get_proof_assumptions_rec (build_frame_map [atom 1, atom 2, atom 3] [])
        (.step 0 mk_false
          [.step 1 (atom 5) [.asserted (atom 1), .asserted (atom 3)],
           .step 1 (atom 5) [.asserted (atom 1), .asserted (atom 3)],
           .asserted (atom 1)])
        ([], [false, false, false])).2 =
      get_proof_assumptions_nomemo (build_frame_map [atom 1, atom 2, atom 3] [])
        (.step 0 mk_false
          [.step 1 (atom 5) [.asserted (atom 1), .asserted (atom 3)],
           .step 1 (atom 5) [.asserted (atom 1), .asserted (atom 3)],
           .asserted (atom 1)])
        [false, false, false] :=
  C13_memoization_correct.2.1 (build_frame_map [atom 1, atom 2, atom 3] [])
    (.step 0 mk_false
      [.step 1 (atom 5) [.asserted (atom 1), .asserted (atom 3)],
       .step 1 (atom 5) [.asserted (atom 1), .asserted (atom 3)],
       .asserted (atom 1)])
    [false, false, false]
    (fun c j h => build_frame_map_lt [atom 1, atom 2, atom 3] c j h)

/-! ## Conjunct extraction preserves meaning -/

mutual
theorem conjuncts_truth (σ : ast → Bool) :
    ∀ (t : ast), (conjuncts t).all (truth σ) = truth σ t
  | .app o as => by
    simp only [conjuncts]
    cases hv : interp_through_and (.app o as) with
    | false => simp
    | true =>
      simp only [if_true]
      have ho : o = opr.And ∨ o = opr.Interp := by
        simp only [interp_through_and] at hv
        by_cases h1 : o = opr.Interp
        · exact Or.inr h1
        · rw [if_neg h1] at hv
          by_cases h2 : o = opr.And
          · exact Or.inl h2
          · rw [if_neg h2] at hv
            exact Bool.noConfusion hv
      rw [conjuncts_args_truth σ as]
      simp only [truth, ho, if_true]
theorem conjuncts_args_truth (σ : ast → Bool) :
    ∀ (as : List ast), (conjuncts_args as).all (truth σ) = truth_args σ as
  | [] => by simp [conjuncts_args, truth_args]
  | a :: rest => by
    simp only [conjuncts_args, truth_args, List.all_append]
    rw [conjuncts_truth σ a, conjuncts_args_truth σ rest]
end

theorem truth_args_eq_all (σ : ast → Bool) (as : List ast) :
    truth_args σ as = as.all (truth σ) := by
  induction as with
  | nil => rfl
  | cons a rest ih => simp [truth_args, ih]

/-- C18: under every truth assignment to the atoms, with conjunction read as
conjunction and a marker read as the identity on its argument, the conjunction
of the frames that `collect_conjuncts` extracts has the truth value of the
input formula; this holds for every term, in particular for every formula
built from atoms by conjunction and the unary marker. -/
theorem C18_conjuncts_preserve_meaning :
    (∀ (σ : ast → Bool) (a : ast), truth σ (.app .Interp [a]) = truth σ a) ∧
    (∀ (σ : ast → Bool) (as : List ast), truth σ (.app .And as) = as.all (truth σ)) ∧
    (∀ (σ : ast → Bool) (n : Nat), truth σ (atom n) = σ (atom n)) ∧
    (∀ (σ : ast → Bool) (t : ast), (frames_of t).all (truth σ) = truth σ t) := by
  refine ⟨?_, ?_, ?_, ?_⟩
  · intro σ a
    simp [truth, truth_args]
  · intro σ as
    simp [truth, truth_args_eq_all]
  · intro σ n
    simp [truth, atom]
  · intro σ t
    rw [frames_of_eq]
    exact conjuncts_truth σ t

end iz3

namespace iz3

/-! ## Ancestor ordering of the reduced parent vector -/

/-- The parent walk under strictly larger parents: it returns the sentinel, or
a used in-range frame that is not below the frame it started from. -/
theorem parent_walk_ge (parents : List Int) (used : List Bool) (n : Nat)
    (hlen : parents.length = n) (hu : used.length = n) (hv : entries_ok true n parents) :
    ∀ (fuel : Nat) (p : Int),
      (p = SHRT_MAX ∨ (0 ≤ p ∧ p < n ∧ n ≤ fuel + p.toNat)) →
      ∃ q, parent_walk parents used fuel p = .ok q ∧
        (q = SHRT_MAX ∨ (0 ≤ q ∧ q < n ∧ used[q.toNat]? = some true ∧ p ≤ q)) := by
  intro fuel
  induction fuel with
  | zero =>
    intro p hp
    rcases hp with hp | ⟨h0, hlt, hf⟩
    · exact ⟨p, parent_walk_used _ _ _ _ (Or.inl hp), Or.inl hp⟩
    · omega
  | succ fuel ih =>
    intro p hp
    by_cases hs : p = SHRT_MAX
    · exact ⟨p, parent_walk_used _ _ _ _ (Or.inl hs), Or.inl hs⟩
    · rcases hp with hp | ⟨h0, hlt, hf⟩
      · exact absurd hp hs
      · have hpn : p.toNat < n := by omega
        have hpu : p.toNat < used.length := by omega
        have hpp : p.toNat < parents.length := by omega
        cases hb : used[p.toNat] with
        | true =>
          have hu1 : used[p.toNat]? = some true := by
            rw [List.getElem?_eq_getElem (by omega), hb]
          exact ⟨p, parent_walk_used _ _ _ _ (Or.inr ⟨h0, hu1⟩),
            Or.inr ⟨h0, hlt, hu1, Int.le_refl _⟩⟩
        | false =>
          have hu1 : used[p.toNat]? = some false := by
            rw [List.getElem?_eq_getElem (by omega), hb]
          have hq : parents[p.toNat]? = some parents[p.toNat] :=
            List.getElem?_eq_getElem hpp
          have hent := hv p.toNat _ hq
          have hstep : parent_walk parents used (fuel + 1) p =
              parent_walk parents used fuel parents[p.toNat] := by
            simp [parent_walk, walk_cond_go used p hs h0 hu1,
              vget_int_eq_ok parents p _ h0 hq]
          rcases hent with h | ⟨h1, h2, h3⟩
          · refine ⟨parents[p.toNat], ?_, Or.inl h⟩
            rw [hstep]
            exact parent_walk_used _ _ _ _ (Or.inl h)
          · have h4 := h3 rfl
            obtain ⟨q, hq1, hq2⟩ := ih parents[p.toNat] (Or.inr ⟨h1, h2, by omega⟩)
            refine ⟨q, by rw [hstep]; exact hq1, ?_⟩
            rcases hq2 with hq2 | ⟨a1, a2, a3, a4⟩
            · exact Or.inl hq2
            · exact Or.inr ⟨a1, a2, a3, by omega⟩

/-- The value of `reduced_parent` once the walk is known. -/
theorem reduced_parent_eq (fuel : Nat) (z3_preds : List ast) (parents : List Int)
    (used : List Bool) (i a : Nat) (p0 q : Int)
    (ha : (retained z3_preds.length used)[i]? = some a) (hp0 : parents[a]? = some p0)
    (hq : parent_walk parents used fuel p0 = .ok q) :
    (q = SHRT_MAX →
      reduced_parent fuel parents used (retained z3_preds.length used)
        (back_map_of z3_preds used) i = .ok SHRT_MAX) ∧
    (∀ k : Nat, q ≠ SHRT_MAX → 0 ≤ q →
      (retained z3_preds.length used)[k]? = some q.toNat →
      reduced_parent fuel parents used (retained z3_preds.length used)
        (back_map_of z3_preds used) i = .ok (k : Int)) := by
  constructor
  · intro hs
    unfold reduced_parent
    simp only [bind, Except.bind, vget_eq_ok _ _ _ ha, vget_eq_ok _ _ _ hp0, hq]
    simp [hs, pure, Except.pure]
  · intro k hs h0 hk
    have hb := back_map_of_retained z3_preds used k q.toNat hk
    unfold reduced_parent
    simp only [bind, Except.bind, vget_eq_ok _ _ _ ha, vget_eq_ok _ _ _ hp0, hq]
    simp [hs, vget_int_eq_ok _ q _ h0 hb, Functor.map, Except.map]

theorem retained_index_of_mem (n : Nat) (used : List Bool) (j : Nat) (hj : j < n)
    (h : j = n - 1 ∨ used[j]? = some true) :
    ∃ k : Nat, (retained n used)[k]? = some j :=
  List.getElem?_of_mem ((mem_retained n used j).mpr ⟨hj, h⟩)

/-- Every reduced parent computed under strictly larger original parents is
the sentinel or a reduced index above the reduced position it is stored at. -/
theorem reduced_parent_spec (fuel : Nat) (z3_preds : List ast) (parents : List Int)
    (used : List Bool) (hu : used.length = z3_preds.length)
    (hl : parents.length = z3_preds.length)
    (he : entries_ok true z3_preds.length parents) (hf : z3_preds.length ≤ fuel)
    (i : Nat) (hi : i < (retained z3_preds.length used).length) :
    ∃ v, reduced_parent fuel parents used (retained z3_preds.length used)
        (back_map_of z3_preds used) i = .ok v ∧
      (v = SHRT_MAX ∨
        ∃ k : Nat, v = (k : Int) ∧ i < k ∧ k < (retained z3_preds.length used).length) := by
  have ha : (retained z3_preds.length used)[i]? = some (retained z3_preds.length used)[i] :=
    List.getElem?_eq_getElem hi
  have haN := retained_lt _ _ _ _ ha
  have hap : (retained z3_preds.length used)[i] < parents.length := by omega
  have hp0 : parents[(retained z3_preds.length used)[i]]? =
      some parents[(retained z3_preds.length used)[i]] :=
    List.getElem?_eq_getElem hap
  have hent := he _ _ hp0
  obtain ⟨q, hq, hq2⟩ := parent_walk_ge parents used z3_preds.length hl hu he fuel
    parents[(retained z3_preds.length used)[i]]
    (by
      rcases hent with h | ⟨h1, h2, _⟩
      · exact Or.inl h
      · exact Or.inr ⟨h1, h2, by omega⟩)
  obtain ⟨e1, e2⟩ := reduced_parent_eq fuel z3_preds parents used i _ _ q ha hp0 hq
  by_cases hs : q = SHRT_MAX
  · exact ⟨SHRT_MAX, e1 hs, Or.inl rfl⟩
  · rcases hq2 with h | ⟨h0, hlt, hqu, hge⟩
    · exact absurd h hs
    · obtain ⟨k, hk⟩ := retained_index_of_mem z3_preds.length used q.toNat (by omega)
        (Or.inr hqu)
      have hkl : k < (retained z3_preds.length used).length := by
        by_contra hc
        rw [List.getElem?_eq_none (by omega)] at hk
        exact Option.noConfusion hk
      have hlt2 : (retained z3_preds.length used)[i] < q.toNat := by
        rcases hent with h | ⟨_, _, h3⟩
        · rw [h] at hge
          have hq3 := parent_walk_used parents used fuel SHRT_MAX (Or.inl rfl)
          rw [h] at hq
          rw [hq3] at hq
          cases hq
          exact absurd rfl hs
        · have := h3 rfl
          omega
      have hik := (retained_lt_iff z3_preds.length used i k _ _ ha hk).mp hlt2
      exact ⟨(k : Int), e2 k hs h0 hk, Or.inr ⟨k, rfl, hik, hkl⟩⟩

/-- On a well-formed input `get_frames` returns, and its reduced parent vector
lists the values of `reduced_parent`. -/
theorem get_frames_total_vals (fuel : Nat) (z3_preds : List ast) (parents : List Int)
    (proof : z3pf) (hp : parents_ok true z3_preds.length parents)
    (hf : z3_preds.length ≤ fuel) :
    ∃ vals : Nat → Int,
      (parents.length ≠ 0 →
        ∀ i, i < (retained z3_preds.length (used_of z3_preds proof)).length →
          reduced_parent fuel parents (used_of z3_preds proof)
            (retained z3_preds.length (used_of z3_preds proof))
            (back_map_of z3_preds (used_of z3_preds proof)) i = .ok (vals i)) ∧
      get_frames fuel z3_preds parents [] [] proof =
        .ok ({ frames := z3_preds.length, frame_map := build_frame_map z3_preds [],
               assertions_map := retained z3_preds.length (used_of z3_preds proof),
               orig_parents_copy := parents, used_frames := used_of z3_preds proof },
             (retained z3_preds.length (used_of z3_preds proof)).map
               (fun i => z3_preds.getD i default),
             if parents.length ≠ 0 then
               (List.range (retained z3_preds.length (used_of z3_preds proof)).length).map vals
             else []) := by
  let vals : Nat → Int := fun i =>
    match reduced_parent fuel parents (used_of z3_preds proof)
        (retained z3_preds.length (used_of z3_preds proof))
        (back_map_of z3_preds (used_of z3_preds proof)) i with
    | .ok v => v
    | .error _ => 0
  have hvals : parents.length ≠ 0 →
      ∀ i, i < (retained z3_preds.length (used_of z3_preds proof)).length →
        reduced_parent fuel parents (used_of z3_preds proof)
          (retained z3_preds.length (used_of z3_preds proof))
          (back_map_of z3_preds (used_of z3_preds proof)) i = .ok (vals i) := by
    intro hne i hi
    rcases hp with hp | ⟨hl, he⟩
    · simp [hp] at hne
    · obtain ⟨v, hv⟩ := reduced_parent_ok fuel z3_preds parents (used_of z3_preds proof)
        (used_of_length _ _) hl he hf i hi
      simp only [vals, hv]
  exact ⟨vals, hvals, get_frames_ok fuel z3_preds parents proof vals hvals⟩

/-- C15: when every entry of the original parent vector is the sentinel or an
in-range index strictly larger than its own position, `get_frames` returns a
reduced parent vector with one entry per reduced frame, and every entry is the
sentinel or a reduced index strictly larger than its own reduced position and
smaller than the reduced frame count. -/
theorem C15_ancestor_ordering_preserved (fuel : Nat) (F : List ast) (parents : List Int)
    (P : z3pf) (hl : parents.length = F.length) (he : entries_ok true F.length parents)
    (hf : F.length ≤ fuel) :
    ∃ fr cnsts_vec parents_vec,
      get_frames fuel F parents [] [] P = .ok (fr, cnsts_vec, parents_vec) ∧
      (1 ≤ F.length → parents_vec.length = cnsts_vec.length) ∧
      ∀ (i : Nat) (p : Int), parents_vec[i]? = some p →
        p = SHRT_MAX ∨ ((i : Int) < p ∧ p < (cnsts_vec.length : Int)) := by
  obtain ⟨vals, hvals, hg⟩ := get_frames_total_vals fuel F parents P (Or.inr ⟨hl, he⟩) hf
  refine ⟨_, _, _, hg, ?_, ?_⟩
  · intro hN
    have hne : parents.length ≠ 0 := by omega
    rw [if_pos hne]
    simp
  · intro i p hip
    by_cases hne : parents.length ≠ 0
    · rw [if_pos hne] at hip
      have hi : i < (retained F.length (used_of F P)).length := by
        by_contra hc
        rw [List.getElem?_eq_none (by simp; omega)] at hip
        exact Option.noConfusion hip
      rw [List.getElem?_map, range_getElem?_some _ _ hi] at hip
      simp only [Option.map_some', Option.some.injEq] at hip
      obtain ⟨v, hv, hspec⟩ := reduced_parent_spec fuel F parents (used_of F P)
        (used_of_length _ _) hl he hf i hi
      have hvi := hvals hne i hi
      rw [hv] at hvi
      simp only [Except.ok.injEq] at hvi
      rw [← hip, ← hvi]
      rcases hspec with h | ⟨k, hk, hik, hkl⟩
      · exact Or.inl h
      · right
        rw [hk]
        simp only [List.length_map]
        omega
    · rw [if_neg hne] at hip
      simp at hip

theorem C15_ancestor_ordering_preserved_witness :
    ∃ fr cnsts_vec parents_vec,
      get_frames 5 [atom 1, atom 2, atom 3, atom 4, atom 5] [1, 3, 3, 4, SHRT_MAX] [] []
          (.step 0 mk_false [.asserted (atom 1), .asserted (atom 3), .asserted (atom 5)]) =
        .ok (fr, cnsts_vec, parents_vec) ∧
      (1 ≤ [atom 1, atom 2, atom 3, atom 4, atom 5].length →
        parents_vec.length = cnsts_vec.length) ∧
      ∀ (i : Nat) (p : Int), parents_vec[i]? = some p →
        p = SHRT_MAX ∨ ((i : Int) < p ∧ p < (cnsts_vec.length : Int)) :=
  C15_ancestor_ordering_preserved 5 [atom 1, atom 2, atom 3, atom 4, atom 5]
    [1, 3, 3, 4, SHRT_MAX]
    (.step 0 mk_false [.asserted (atom 1), .asserted (atom 3), .asserted (atom 5)])
    (by decide) (by decide) (by decide)

end iz3

namespace iz3

/-! ## The propagation loop on trees -/

theorem ite_set_length {α : Type} (c : Prop) [Decidable c] (v : List α) (a : Nat) (x : α) :
    (if c then v.set a x else v).length = v.length := by
  split_ifs <;> simp

/-- A slot that no iteration writes keeps the value it had before the loop. -/
theorem propagate_loop_untouched (fr : frame_reducer) (v2 : List ast) (strict : Bool)
    (hul : fr.used_frames.length = fr.frames) (hvl : v2.length = fr.frames - 1)
    (hp : parents_ok strict fr.frames fr.orig_parents_copy) (j : Nat)
    (hno : ∀ (k : Nat) (q : Int), k < fr.frames - 2 → propagate_parent fr k = some q →
      q < (fr.frames : Int) - 1 → fr.used_frames[q.toNat]? = some false → q.toNat ≠ j)
    (r : List ast)
    (hr : (List.range (fr.frames - 2)).foldlM (propagate_step fr) v2 = .ok r) :
    r[j]? = v2[j]? := by
  obtain ⟨r2, hr2, _, hinv⟩ := foldlM_range_inv (propagate_step fr)
    (fun _ v => v.length = fr.frames - 1 ∧ v[j]? = v2[j]?)
    (fr.frames - 2) v2 ⟨hvl, rfl⟩ (by
      intro k v hk ⟨hl, hA⟩
      obtain ⟨q, hq, h0⟩ := propagate_parent_ok fr strict hp k hk
      refine ⟨_, propagate_step_ok fr v k q hq h0 hul hl (by omega), ?_, ?_⟩
      · rw [ite_set_length]; exact hl
      · by_cases hc : q < (fr.frames : Int) - 1 ∧ fr.used_frames[q.toNat]? = some false
        · rw [if_pos hc, List.getElem?_set, if_neg (hno k q hk hq hc.1 hc.2)]
          exact hA
        · rw [if_neg hc]
          exact hA)
  rw [hr] at hr2
  cases hr2
  exact hinv

/-- The last iteration that writes slot `p` copies slot `i` into it, and if no
later iteration writes slot `i` either, the two slots agree at the end. -/
theorem propagate_loop_copy (fr : frame_reducer) (v2 : List ast) (strict : Bool)
    (hul : fr.used_frames.length = fr.frames) (hvl : v2.length = fr.frames - 1)
    (hp : parents_ok strict fr.frames fr.orig_parents_copy) (i : Nat) (p : Int)
    (hi : i < fr.frames - 2) (hpi : propagate_parent fr i = some p)
    (hlt : p < (fr.frames : Int) - 1) (hup : fr.used_frames[p.toNat]? = some false)
    (hne : p.toNat ≠ i)
    (hlater : ∀ (k : Nat) (q : Int), i < k → k < fr.frames - 2 →
      propagate_parent fr k = some q → q < (fr.frames : Int) - 1 →
      fr.used_frames[q.toNat]? = some false → q.toNat ≠ p.toNat ∧ q.toNat ≠ i)
    (r : List ast)
    (hr : (List.range (fr.frames - 2)).foldlM (propagate_step fr) v2 = .ok r) :
    r[p.toNat]? = r[i]? := by
  obtain ⟨r2, hr2, _, hinv⟩ := foldlM_range_inv (propagate_step fr)
    (fun k v => v.length = fr.frames - 1 ∧ (i < k → v[p.toNat]? = v[i]?))
    (fr.frames - 2) v2 ⟨hvl, fun h => absurd h (Nat.not_lt_zero i)⟩ (by
      intro k v hk ⟨hl, hA⟩
      obtain ⟨q, hq, h0⟩ := propagate_parent_ok fr strict hp k hk
      refine ⟨_, propagate_step_ok fr v k q hq h0 hul hl (by omega), ?_, ?_⟩
      · rw [ite_set_length]; exact hl
      · intro hik
        by_cases hki : k = i
        · subst hki
          rw [hpi] at hq
          cases hq
          have hkl : k < v.length := by omega
          have e1 : (v.set p.toNat v[k])[p.toNat]? = some v[k] := by
            rw [List.getElem?_set, if_pos rfl, if_pos (by omega)]
          have e2 : (v.set p.toNat v[k])[k]? = some v[k] := by
            rw [List.getElem?_set, if_neg hne]
            exact List.getElem?_eq_getElem hkl
          rw [if_pos ⟨hlt, hup⟩, e1, e2]
        · by_cases hc : q < (fr.frames : Int) - 1 ∧ fr.used_frames[q.toNat]? = some false
          · obtain ⟨n1, n2⟩ := hlater k q (by omega) hk hq hc.1 hc.2
            rw [if_pos hc, List.getElem?_set, List.getElem?_set, if_neg n1, if_neg n2]
            exact hA (by omega)
          · rw [if_neg hc]
            exact hA (by omega))
  rw [hr] at hr2
  cases hr2
  exact hinv (by omega)

/-- With fewer frames than the sentinel value and strictly larger parents,
every slot the propagation loop writes lies above the slot it reads. -/
theorem strict_parent_gt (fr : frame_reducer)
    (hp : parents_ok true fr.frames fr.orig_parents_copy)
    (hS : (fr.frames : Int) ≤ SHRT_MAX) (k : Nat) (q : Int)
    (hq : propagate_parent fr k = some q) (hlt : q < (fr.frames : Int) - 1) :
    0 ≤ q ∧ k < q.toNat := by
  unfold propagate_parent at hq
  rcases hp with hp | ⟨hl, he⟩
  · simp only [hp, List.length_nil, if_true, Option.some.injEq] at hq
    omega
  · by_cases hz : fr.orig_parents_copy.length = 0
    · rw [if_pos hz] at hq
      simp only [Option.some.injEq] at hq
      omega
    · rw [if_neg hz] at hq
      rcases he k q hq with h | ⟨h1, _, h3⟩
      · omega
      · have := h3 rfl
        omega

end iz3

namespace iz3

/-- What `fix_interpolants` leaves in the slot of an unused non-final frame of
a tree with fewer frames than the sentinel value: the slot of the
highest-indexed frame whose parent entry names it, or `true` if there is none. -/
theorem fix_tree_facts (F : List ast) (parents : List Int) (used : List Bool)
    (fm : hash_map ast Nat) (hN : 1 ≤ F.length) (hu : used.length = F.length)
    (hl : parents.length = F.length) (he : entries_ok true F.length parents)
    (hS : (F.length : Int) ≤ SHRT_MAX) (unfixed : List ast)
    (hlen : unfixed.length = (retained F.length used).length - 1) :
    ∃ r, fix_interpolants
        (⟨F.length, fm, retained F.length used, parents, used⟩ : frame_reducer)
        unfixed = .ok r ∧
      r.length = F.length - 1 ∧
      (∀ (i p : Nat), parents[i]? = some (p : Int) → p < F.length - 1 →
        used[p]? = some false → (∀ k, i < k → parents[k]? ≠ some (p : Int)) →
        r[p]? = r[i]?) ∧
      (∀ p : Nat, p < F.length - 1 → used[p]? = some false →
        (∀ i : Nat, parents[i]? ≠ some (p : Int)) → r[p]? = some mk_true) := by
  have hpok : parents_ok true F.length parents := Or.inr ⟨hl, he⟩
  have hin : ∀ k, k < unfixed.length →
      ∃ i, (retained F.length used)[k]? = some i ∧ i < F.length - 1 := by
    intro k hk
    have hk2 : k < (retained F.length used).length := by omega
    exact ⟨_, List.getElem?_eq_getElem hk2,
      (retained_init _ _ hN k _ (by omega) (List.getElem?_eq_getElem hk2)).1⟩
  obtain ⟨v2, hv2, _, hB, heq⟩ := fix_interpolants_eq
    (⟨F.length, fm, retained F.length used, parents, used⟩ : frame_reducer)
    unfixed hN (retained_nodup _ _) hin
  obtain ⟨r, hr, hrl⟩ := propagate_loop_length
    (⟨F.length, fm, retained F.length used, parents, used⟩ : frame_reducer) v2 hu hv2
    (fun i hi => propagate_parent_ok _ true hpok i hi)
  have hne : parents.length ≠ 0 := by omega
  have hpar : ∀ k : Nat, propagate_parent
      (⟨F.length, fm, retained F.length used, parents, used⟩ : frame_reducer) k =
      parents[k]? := by
    intro k
    unfold propagate_parent
    exact if_neg hne
  refine ⟨r, by rw [heq]; exact hr, hrl, ?_, ?_⟩
  · intro i p hip hp hup hlast
    have hpi : (i : Int) < (p : Int) := by
      rcases he i _ hip with h | ⟨_, _, h3⟩
      · omega
      · exact h3 rfl
    have := propagate_loop_copy
      (⟨F.length, fm, retained F.length used, parents, used⟩ : frame_reducer) v2 true
      hu hv2 hpok i (p : Int)
      (by show i < F.length - 2; omega)
      (by rw [hpar]; exact hip)
      (by show (p : Int) < (F.length : Int) - 1; omega)
      (by simpa using hup)
      (by simp; omega)
      (by
        intro k q hik hk hq hqlt _
        obtain ⟨q0, hkq⟩ := strict_parent_gt _ hpok hS k q hq hqlt
        rw [hpar] at hq
        refine ⟨?_, by omega⟩
        intro hqp
        apply hlast k hik
        rw [hq]
        congr 1
        simp only [Int.toNat_ofNat] at hqp
        omega)
      r hr
    simpa using this
  · intro p hp hup hnone
    have := propagate_loop_untouched
      (⟨F.length, fm, retained F.length used, parents, used⟩ : frame_reducer) v2 true
      hu hv2 hpok p
      (by
        intro k q hk hq hqlt _ hqp
        obtain ⟨q0, _⟩ := strict_parent_gt _ hpok hS k q hq hqlt
        rw [hpar] at hq
        apply hnone k
        rw [hq]
        congr 1
        omega)
      r hr
    rw [this]
    apply hB p hp
    intro k hk hkp
    have := (retained_init _ _ hN k p (by omega) hkp).2
    rw [List.getD_eq_getElem?_getD, hup] at this
    exact Bool.noConfusion this

/-- C12 (amended): for fewer frames than the sentinel value and a parent vector
whose entries are the sentinel or a larger in-range index, after `get_frames`
and `fix_interpolants` every pruned frame `i` whose original parent `p` is
pruned and not the final frame, and which is the highest-indexed frame with
parent `p`, has its slot copied into the slot of `p`. -/
theorem C12_propagation_into_pruned_parent (fuel : Nat) (F : List ast)
    (parents : List Int) (P : z3pf) (hN : 1 ≤ F.length)
    (hl : parents.length = F.length) (he : entries_ok true F.length parents)
    (hS : (F.length : Int) ≤ SHRT_MAX) (hf : F.length ≤ fuel) :
    ∃ fr cnsts_vec parents_vec,
      get_frames fuel F parents [] [] P = .ok (fr, cnsts_vec, parents_vec) ∧
      ∀ unfixed : List ast, unfixed.length = cnsts_vec.length - 1 →
        ∃ r, fix_interpolants fr unfixed = .ok r ∧ r.length = F.length - 1 ∧
          ∀ (i p : Nat), fr.used_frames[i]? = some false →
            fr.orig_parents_copy[i]? = some (p : Int) → p < F.length - 1 →
            fr.used_frames[p]? = some false →
            (∀ k, i < k → fr.orig_parents_copy[k]? ≠ some (p : Int)) →
            r[p]? = r[i]? := by
  obtain ⟨pv, hg⟩ := get_frames_total fuel F parents P (Or.inr ⟨hl, he⟩) hf
  refine ⟨_, _, pv, hg, ?_⟩
  intro unfixed hlen
  simp only [List.length_map] at hlen
  obtain ⟨r, hr, hrl, hcopy, _⟩ := fix_tree_facts F parents (used_of F P)
    (build_frame_map F []) hN (used_of_length _ _) hl he hS unfixed hlen
  exact ⟨r, hr, hrl, fun i p _ hip hp hup hlast => hcopy i p hip hp hup hlast⟩

theorem C12_propagation_into_pruned_parent_witness :
    ∃ fr cnsts_vec parents_vec,
      get_frames 5 [atom 1, atom 2, atom 3, atom 4, atom 5] [1, 2, 4, 4, SHRT_MAX] [] []
          (.step 0 mk_false [.asserted (atom 1), .asserted (atom 4)]) =
        .ok (fr, cnsts_vec, parents_vec) ∧
      ∀ unfixed : List ast, unfixed.length = cnsts_vec.length - 1 →
        ∃ r, fix_interpolants fr unfixed = .ok r ∧
          r.length = [atom 1, atom 2, atom 3, atom 4, atom 5].length - 1 ∧
          ∀ (i p : Nat), fr.used_frames[i]? = some false →
            fr.orig_parents_copy[i]? = some (p : Int) →
            p < [atom 1, atom 2, atom 3, atom 4, atom 5].length - 1 →
            fr.used_frames[p]? = some false →
            (∀ k, i < k → fr.orig_parents_copy[k]? ≠ some (p : Int)) →
            r[p]? = r[i]? :=
  C12_propagation_into_pruned_parent 5 [atom 1, atom 2, atom 3, atom 4, atom 5]
    [1, 2, 4, 4, SHRT_MAX] (.step 0 mk_false [.asserted (atom 1), .asserted (atom 4)])
    (by decide) (by decide) (by decide) (by decide) (by decide)

/-- C12 (as stated, refuted): with parents `[1,3,3,4,SHRT_MAX]` and a proof
asserting frames 0, 2 and 4 only, frame 1 and its parent 3 are both pruned and 3
is not the final frame, yet slot 3 ends with the interpolant of frame 2
(`atom 11`) while slot 1 holds the one copied from frame 0 (`atom 10`). -/
theorem C12_counterexample_two_children :
    get_frames 5 [atom 1, atom 2, atom 3, atom 4, atom 5] [1, 3, 3, 4, SHRT_MAX] [] []
        (.step 0 mk_false [.asserted (atom 1), .asserted (atom 3), .asserted (atom 5)]) =
      .ok ({ frames := 5,
             frame_map := [(atom 5, 4), (atom 4, 3), (atom 3, 2), (atom 2, 1), (atom 1, 0)],
             assertions_map := [0, 2, 4], orig_parents_copy := [1, 3, 3, 4, SHRT_MAX],
             used_frames := [true, false, true, false, true] },
           [atom 1, atom 3, atom 5], [2, 2, SHRT_MAX]) ∧
    fix_interpolants
        { frames := 5,
          frame_map := [(atom 5, 4), (atom 4, 3), (atom 3, 2), (atom 2, 1), (atom 1, 0)],
          assertions_map := [0, 2, 4], orig_parents_copy := [1, 3, 3, 4, SHRT_MAX],
          used_frames := [true, false, true, false, true] } [atom 10, atom 11] =
      .ok [atom 10, atom 10, atom 11, atom 11] ∧
    ¬ ([atom 10, atom 10, atom 11, atom 11][3]? =
        [atom 10, atom 10, atom 11, atom 11][1]?) := by
  refine ⟨by decide, by decide, by decide⟩

end iz3

namespace iz3

/-- C16 (amended): for fewer frames than the sentinel value and a parent vector
whose entries are the sentinel or a larger in-range index, after `get_frames`
and `fix_interpolants` the slot of a pruned non-final frame `p` equals the slot
of the highest-indexed frame whose parent is `p`, and is `true` when no frame
has parent `p`; with two children carrying `atom 10` and `atom 11`, slot 3 of
the example ends as `atom 11` alone. -/
theorem C16_expand_on_trees :
    (∀ (fuel : Nat) (F : List ast) (parents : List Int) (P : z3pf),
      1 ≤ F.length → parents.length = F.length → entries_ok true F.length parents →
      (F.length : Int) ≤ SHRT_MAX → F.length ≤ fuel →
      ∃ fr cnsts_vec parents_vec,
        get_frames fuel F parents [] [] P = .ok (fr, cnsts_vec, parents_vec) ∧
        ∀ unfixed : List ast, unfixed.length = cnsts_vec.length - 1 →
          ∃ r, fix_interpolants fr unfixed = .ok r ∧ r.length = F.length - 1 ∧
            ∀ p : Nat, p < F.length - 1 → fr.used_frames[p]? = some false →
              (∀ i : Nat, fr.orig_parents_copy[i]? = some (p : Int) →
                (∀ k, i < k → fr.orig_parents_copy[k]? ≠ some (p : Int)) →
                r[p]? = r[i]?) ∧
              ((∀ i : Nat, fr.orig_parents_copy[i]? ≠ some (p : Int)) →
                r[p]? = some mk_true)) ∧
    proof_to_interpolant (fun _ _ _ _ i => atom (10 + i)) 5
        (.step 0 mk_false [.asserted (atom 1), .asserted (atom 3), .asserted (atom 5)])
        [atom 1, atom 2, atom 3, atom 4, atom 5] [1, 3, 3, 4, SHRT_MAX] [] =
      .ok [atom 10, atom 10, atom 11, atom 11] := by
  refine ⟨?_, by decide⟩
  intro fuel F parents P hN hl he hS hf
  obtain ⟨pv, hg⟩ := get_frames_total fuel F parents P (Or.inr ⟨hl, he⟩) hf
  refine ⟨_, _, pv, hg, ?_⟩
  intro unfixed hlen
  simp only [List.length_map] at hlen
  obtain ⟨r, hr, hrl, hcopy, hleaf⟩ := fix_tree_facts F parents (used_of F P)
    (build_frame_map F []) hN (used_of_length _ _) hl he hS unfixed hlen
  refine ⟨r, hr, hrl, ?_⟩
  intro p hp hup
  exact ⟨fun i hip hlast => hcopy i p hip hp hup hlast, fun hnone => hleaf p hp hup hnone⟩

theorem C16_expand_on_trees_witness :
    ∃ fr cnsts_vec parents_vec,
      get_frames 5 [atom 1, atom 2, atom 3, atom 4, atom 5] [1, 3, 3, 4, SHRT_MAX] [] []
          (.step 0 mk_false [.asserted (atom 1), .asserted (atom 3), .asserted (atom 5)]) =
        .ok (fr, cnsts_vec, parents_vec) ∧
      ∀ unfixed : List ast, unfixed.length = cnsts_vec.length - 1 →
        ∃ r, fix_interpolants fr unfixed = .ok r ∧
          r.length = [atom 1, atom 2, atom 3, atom 4, atom 5].length - 1 ∧
          ∀ p : Nat, p < [atom 1, atom 2, atom 3, atom 4, atom 5].length - 1 →
            fr.used_frames[p]? = some false →
            (∀ i : Nat, fr.orig_parents_copy[i]? = some (p : Int) →
              (∀ k, i < k → fr.orig_parents_copy[k]? ≠ some (p : Int)) →
              r[p]? = r[i]?) ∧
            ((∀ i : Nat, fr.orig_parents_copy[i]? ≠ some (p : Int)) →
              r[p]? = some mk_true) :=
  C16_expand_on_trees.1 5 [atom 1, atom 2, atom 3, atom 4, atom 5] [1, 3, 3, 4, SHRT_MAX]
    (.step 0 mk_false [.asserted (atom 1), .asserted (atom 3), .asserted (atom 5)])
    (by decide) (by decide) (by decide) (by decide) (by decide)

/-! ## Reduction of a chain -/

/-- Along the explicit chain the parent walk climbs one frame at a time to the
next used frame. -/
theorem chain_walk (n : Nat) (used : List Bool) (hS : (n : Int) ≤ SHRT_MAX) (b : Nat)
    (hb : b < n) (hub : used[b]? = some true) :
    ∀ (fuel p : Nat), p ≤ b → b ≤ fuel + p →
      (∀ j, p ≤ j → j < b → used[j]? = some false) →
      parent_walk (explicit_chain n) used fuel (p : Int) = .ok (b : Int) := by
  intro fuel
  induction fuel with
  | zero =>
    intro p hpb hf _
    have : p = b := by omega
    subst this
    exact parent_walk_used _ _ _ _ (Or.inr ⟨by omega, by simpa using hub⟩)
  | succ fuel ih =>
    intro p hpb hf hun
    by_cases hpe : p = b
    · subst hpe
      exact parent_walk_used _ _ _ _ (Or.inr ⟨by omega, by simpa using hub⟩)
    · have hup : used[p]? = some false := hun p (Nat.le_refl _) (by omega)
      have hs : (p : Int) ≠ SHRT_MAX := by omega
      have hq : (explicit_chain n)[((p : Int)).toNat]? = some ((p : Int) + 1) := by
        simp only [Int.toNat_ofNat]
        rw [explicit_chain_getElem? n p (by omega), if_neg (by omega)]
      have hstep : parent_walk (explicit_chain n) used (fuel + 1) (p : Int) =
          parent_walk (explicit_chain n) used fuel ((p : Int) + 1) := by
        simp [parent_walk, walk_cond_go used (p : Int) hs (by omega) (by simpa using hup),
          vget_int_eq_ok (explicit_chain n) (p : Int) _ (by omega) hq]
      rw [hstep]
      have := ih (p + 1) (by omega) (by omega) (fun j h1 h2 => hun j (by omega) h2)
      simpa using this

/-- C19 (amended): for fewer frames than the sentinel value, the explicit chain
`[1,...,N-1,SHRT_MAX]` and a proof in which some reachable assumption leaf
concludes the final frame, `get_frames` returns a reduced parent vector that
`is_linear` accepts, so `proof_to_interpolant` hands the translator an empty
parent vector. -/
theorem C19_chain_stays_chain (fuel : Nat) (F : List ast) (P : z3pf) (hN : 1 ≤ F.length)
    (hS : (F.length : Int) ≤ SHRT_MAX)
    (hlast : ∃ c, reachable P (.asserted c) ∧ F[F.length - 1]? = some c)
    (hf : F.length ≤ fuel) :
    ∃ fr cnsts_vec parents_vec,
      get_frames fuel F (explicit_chain F.length) [] [] P =
        .ok (fr, cnsts_vec, parents_vec) ∧
      is_linear parents_vec = true ∧
      ∀ (tr : translator) (theory : List ast),
        proof_to_interpolant tr fuel P F (explicit_chain F.length) theory =
          proof_to_interpolant (fun c _ t p i => tr c [] t p i) fuel P F
            (explicit_chain F.length) theory := by
  obtain ⟨vals, hvals, hg⟩ := get_frames_total_vals fuel F (explicit_chain F.length) P
    (explicit_chain_ok _) hf
  have hcl : (explicit_chain F.length).length = F.length := by simp [explicit_chain]
  have hne : (explicit_chain F.length).length ≠ 0 := by omega
  rw [if_pos hne] at hg
  have hul := used_of_length F P
  have hfin : (used_of F P)[F.length - 1]? = some true := by
    obtain ⟨c, hc1, hc2⟩ := hlast
    rw [used_of_iff]
    refine ⟨c, hc1, hc2, ?_⟩
    intro k hk
    rw [List.getElem?_eq_none (by omega)]
    exact fun h => Option.noConfusion h
  have hval : ∀ i, i + 1 < (retained F.length (used_of F P)).length →
      vals i = (i : Int) + 1 := by
    intro i hi
    have hi0 : i < (retained F.length (used_of F P)).length := by omega
    have ha := List.getElem?_eq_getElem hi0
    have hb := List.getElem?_eq_getElem hi
    have haN := retained_lt _ _ _ _ ha
    have hbN := retained_lt _ _ _ _ hb
    have hab := (retained_lt_iff _ _ i (i + 1) _ _ ha hb).mpr (by omega)
    have hbu : (used_of F P)[(retained F.length (used_of F P))[i + 1]]? = some true := by
      rcases ((mem_retained _ _ _).mp (List.getElem?_mem hb)).2 with h | h
      · rw [h]; exact hfin
      · exact h
    have hbetween : ∀ j, (retained F.length (used_of F P))[i] + 1 ≤ j →
        j < (retained F.length (used_of F P))[i + 1] → (used_of F P)[j]? = some false := by
      intro j h1 h2
      have hjl : j < (used_of F P).length := by omega
      cases hbj : (used_of F P)[j] with
      | false => rw [List.getElem?_eq_getElem hjl, hbj]
      | true =>
        exfalso
        have hju : (used_of F P)[j]? = some true := by
          rw [List.getElem?_eq_getElem hjl, hbj]
        obtain ⟨k, hk⟩ := retained_index_of_mem F.length (used_of F P) j (by omega)
          (Or.inr hju)
        have h3 := (retained_lt_iff _ _ i k _ _ ha hk).mp (by omega)
        have h4 := (retained_lt_iff _ _ k (i + 1) _ _ hk hb).mp h2
        omega
    have hp0 : (explicit_chain F.length)[(retained F.length (used_of F P))[i]]? =
        some (((retained F.length (used_of F P))[i] : Nat) + 1 : Int) := by
      rw [explicit_chain_getElem? _ _ haN, if_neg (by omega)]
    have hwalk := chain_walk F.length (used_of F P) hS
      (retained F.length (used_of F P))[i + 1] hbN hbu fuel
      ((retained F.length (used_of F P))[i] + 1) (by omega) (by omega) hbetween
    have hwalk2 : parent_walk (explicit_chain F.length) (used_of F P) fuel
        (((retained F.length (used_of F P))[i] : Nat) + 1 : Int) =
        .ok (((retained F.length (used_of F P))[i + 1] : Nat) : Int) := by
      simpa using hwalk
    obtain ⟨_, e2⟩ := reduced_parent_eq fuel F (explicit_chain F.length) (used_of F P) i
      _ _ _ ha hp0 hwalk2
    have hrp := e2 (i + 1) (by omega) (by omega) (by simp)
    have hvi := hvals hne i hi0
    rw [hrp] at hvi
    simp only [Except.ok.injEq] at hvi
    rw [← hvi]
    simp
  have hlin : is_linear ((List.range (retained F.length (used_of F P)).length).map vals)
      = true := by
    simp only [is_linear, List.all_eq_true, List.mem_range, beq_iff_eq, List.length_map,
      List.length_range]
    intro i hi
    rw [List.getD_eq_getElem?_getD, List.getElem?_map,
      range_getElem?_some _ _ (by omega)]
    simp only [Option.map_some', Option.getD_some]
    exact hval i (by omega)
  refine ⟨_, _, _, hg, hlin, ?_⟩
  intro tr theory
  unfold proof_to_interpolant
  rw [hg]
  simp only [hlin, if_true]

theorem C19_chain_stays_chain_witness :
    ∃ fr cnsts_vec parents_vec,
      get_frames 4 [atom 1, atom 2, atom 3, atom 4]
          (explicit_chain [atom 1, atom 2, atom 3, atom 4].length) [] []
          (.step 0 mk_false [.asserted (atom 4), .asserted (atom 2)]) =
        .ok (fr, cnsts_vec, parents_vec) ∧
      is_linear parents_vec = true ∧
      ∀ (tr : translator) (theory : List ast),
        proof_to_interpolant tr 4
            (.step 0 mk_false [.asserted (atom 4), .asserted (atom 2)])
            [atom 1, atom 2, atom 3, atom 4]
            (explicit_chain [atom 1, atom 2, atom 3, atom 4].length) theory =
          proof_to_interpolant (fun c _ t p i => tr c [] t p i) 4
            (.step 0 mk_false [.asserted (atom 4), .asserted (atom 2)])
            [atom 1, atom 2, atom 3, atom 4]
            (explicit_chain [atom 1, atom 2, atom 3, atom 4].length) theory :=
  C19_chain_stays_chain 4 [atom 1, atom 2, atom 3, atom 4]
    (.step 0 mk_false [.asserted (atom 4), .asserted (atom 2)]) (by decide) (by decide)
    ⟨atom 4, reachable.through 0 mk_false _ _ _ (List.mem_cons_self _ _) (reachable.here _),
      rfl⟩
    (by decide)

end iz3

namespace iz3

/-! ## Frame counts that reach the sentinel value -/

theorem atom_inj (a b : Nat) (h : atom a = atom b) : a = b := by
  simpa [atom] using h

theorem atoms_getElem? (n j : Nat) :
    ((List.range n).map atom)[j]? = if j < n then some (atom j) else none := by
  by_cases h : j < n
  · rw [if_pos h, List.getElem?_map, range_getElem?_some n j h]
    rfl
  · rw [if_neg h, List.getElem?_eq_none (by simp; omega)]

/-- With the frames `atom 0, ..., atom (n-1)`, frame `j` is marked exactly when
the proof has an assumption leaf concluding `atom j`. -/
theorem used_of_atoms (n : Nat) (P : z3pf) (j : Nat) :
    (used_of ((List.range n).map atom) P)[j]? = some true ↔
      j < n ∧ atom j ∈ asserted_concs P := by
  rw [used_of_iff]
  constructor
  · rintro ⟨c, hc, hj, _⟩
    rw [atoms_getElem?] at hj
    by_cases h : j < n
    · rw [if_pos h] at hj
      cases hj
      exact ⟨h, (mem_asserted_concs_iff P _).mpr hc⟩
    · rw [if_neg h] at hj
      exact Option.noConfusion hj
  · rintro ⟨h, hm⟩
    refine ⟨atom j, (mem_asserted_concs_iff P _).mp hm, ?_, ?_⟩
    · rw [atoms_getElem?, if_pos h]
    · intro k hk hkj
      rw [atoms_getElem?] at hkj
      by_cases h2 : k < n
      · rw [if_pos h2] at hkj
        simp only [Option.some.injEq] at hkj
        have := atom_inj _ _ hkj
        omega
      · rw [if_neg h2] at hkj
        exact Option.noConfusion hkj

theorem filter_range_single (p : Nat → Bool) (m : Nat) :
    ∀ n : Nat, (∀ i, i < n → (p i = true ↔ i = m)) →
      (List.range n).filter p = if m < n then [m] else [] := by
  intro n
  induction n with
  | zero => intro _; rfl
  | succ n ih =>
    intro h
    rw [List.range_succ, List.filter_append, ih (fun i hi => h i (by omega))]
    by_cases hmn : m = n
    · subst hmn
      have hp : p m = true := (h m (by omega)).mpr rfl
      simp [List.filter_cons, hp]
    · have hp : p n = false := by
        cases hb : p n with
        | false => rfl
        | true => exact absurd ((h n (by omega)).mp hb).symm hmn
      have hiff : m < n + 1 ↔ m < n := by omega
      simp only [List.filter_cons, hp, Bool.false_eq_true, if_false, List.filter_nil,
        List.append_nil, hiff]

theorem getD_false_eq_true (used : List Bool) (i : Nat) :
    used.getD i false = true ↔ used[i]? = some true := by
  rw [List.getD_eq_getElem?_getD]
  cases used[i]? with
  | none => simp
  | some b => simp

/-- The result of `get_frames` when exactly one non-final frame `a` is used and
the parent entries of `a` and of the final frame are `SHRT_MAX`. -/
theorem get_frames_two (fuel a : Nat) (F : List ast) (parents : List Int) (P : z3pf)
    (ha : a + 1 < F.length)
    (hused : ∀ j, j < F.length - 1 → ((used_of F P)[j]? = some true ↔ j = a))
    (hpl : parents.length ≠ 0)
    (hpa : parents[a]? = some SHRT_MAX) (hpb : parents[F.length - 1]? = some SHRT_MAX) :
    retained F.length (used_of F P) = [a, F.length - 1] ∧
    get_frames fuel F parents [] [] P =
      .ok ({ frames := F.length, frame_map := build_frame_map F [],
             assertions_map := [a, F.length - 1],
             orig_parents_copy := parents, used_frames := used_of F P },
           [F.getD a default, F.getD (F.length - 1) default],
           [SHRT_MAX, SHRT_MAX]) := by
  have hret : retained F.length (used_of F P) = [a, F.length - 1] := by
    rw [retained_eq _ _ (by omega),
      filter_range_single (fun i => (used_of F P).getD i false) a (F.length - 1)
        (fun i hi => by
          rw [getD_false_eq_true]
          exact hused i hi),
      if_pos (by omega)]
    rfl
  refine ⟨hret, ?_⟩
  have hg := get_frames_ok fuel F parents P (fun _ => SHRT_MAX) (by
    intro _ i hi
    rw [hret] at hi ⊢
    have hstop := parent_walk_used parents (used_of F P) fuel SHRT_MAX (Or.inl rfl)
    have hi2 : i = 0 ∨ i = 1 := by
      simp only [List.length_cons, List.length_nil] at hi
      omega
    rcases hi2 with h | h
    · subst h
      have := (reduced_parent_eq fuel F parents (used_of F P) 0 a SHRT_MAX SHRT_MAX
        (by rw [hret]; rfl) hpa hstop).1 rfl
      rw [hret] at this
      exact this
    · subst h
      have := (reduced_parent_eq fuel F parents (used_of F P) 1 (F.length - 1) SHRT_MAX
        SHRT_MAX (by rw [hret]; rfl) hpb hstop).1 rfl
      rw [hret] at this
      exact this)
  rw [hret, if_pos hpl] at hg
  exact hg

theorem replicate_sentinel_ok (n : Nat) (strict : Bool) :
    parents_ok strict n (List.replicate n SHRT_MAX) := by
  right
  refine ⟨by simp, ?_⟩
  intro i p hp
  left
  have := List.getElem?_mem hp
  exact (List.mem_replicate.mp this).2

/-- With every parent entry equal to `SHRT_MAX` and more than `SHRT_MAX + 3`
frames, the propagation loop of `fix_interpolants` reads the sentinel as the
frame index 32767 and leaves in that slot the interpolant of the last frame it
visits. -/
theorem fix_sentinel_slot (n a : Nat) (fm : hash_map ast Nat) (used : List Bool) (x : ast)
    (hn : a + 3 = n) (ha : 32767 < a) (hu : used.length = n)
    (hus : used[32767]? = some false) :
    ∃ r, fix_interpolants
        (⟨n, fm, [a, n - 1], List.replicate n SHRT_MAX, used⟩ : frame_reducer) [x]
        = .ok r ∧
      r.length = n - 1 ∧ r[32767]? = some x ∧
      ∀ j, j < n - 1 → j ≠ a → j ≠ 32767 → r[j]? = some mk_true := by
  have hnd : [a, n - 1].Nodup := by
    simp only [List.nodup_cons, List.mem_singleton, List.not_mem_nil, not_false_eq_true,
      List.nodup_nil, and_true]
    omega
  obtain ⟨v2, hv2, hA, hB, heq⟩ := fix_interpolants_eq
    (⟨n, fm, [a, n - 1], List.replicate n SHRT_MAX, used⟩ : frame_reducer) [x]
    (by show 1 ≤ n; omega) hnd
    (by
      intro k hk
      have hk0 : k = 0 := by
        simp only [List.length_cons, List.length_nil] at hk
        omega
      subst hk0
      exact ⟨a, rfl, by show a < n - 1; omega⟩)
  have hpok := replicate_sentinel_ok n false
  obtain ⟨r, hr, hrl⟩ := propagate_loop_length
    (⟨n, fm, [a, n - 1], List.replicate n SHRT_MAX, used⟩ : frame_reducer) v2 hu hv2
    (fun i hi => propagate_parent_ok _ false hpok i hi)
  have hpar : ∀ (k : Nat) (q : Int), propagate_parent
      (⟨n, fm, [a, n - 1], List.replicate n SHRT_MAX, used⟩ : frame_reducer) k = some q →
      q = SHRT_MAX := by
    intro k q hq
    unfold propagate_parent at hq
    have hne : (List.replicate n SHRT_MAX).length ≠ 0 := by simp; omega
    rw [if_neg hne] at hq
    exact (List.mem_replicate.mp (List.getElem?_mem hq)).2
  have hpa : propagate_parent
      (⟨n, fm, [a, n - 1], List.replicate n SHRT_MAX, used⟩ : frame_reducer) a
      = some SHRT_MAX := by
    unfold propagate_parent
    have hne : (List.replicate n SHRT_MAX).length ≠ 0 := by simp; omega
    rw [if_neg hne]
    simp only [List.getElem?_replicate]
    rw [if_pos (by omega)]
  have hst : SHRT_MAX.toNat = 32767 := rfl
  have hcopy := propagate_loop_copy
    (⟨n, fm, [a, n - 1], List.replicate n SHRT_MAX, used⟩ : frame_reducer) v2 false
    hu hv2 hpok a SHRT_MAX (by show a < n - 2; omega) hpa
    (by show SHRT_MAX < ((n : Nat) : Int) - 1; unfold SHRT_MAX; omega)
    (by rw [hst]; exact hus) (by rw [hst]; omega)
    (by
      intro k q hak hk _ _ _
      have : k < n - 2 := hk
      omega)
    r hr
  have hun : ∀ j, j ≠ 32767 → r[j]? = v2[j]? := by
    intro j hj
    apply propagate_loop_untouched
      (⟨n, fm, [a, n - 1], List.replicate n SHRT_MAX, used⟩ : frame_reducer) v2 false
      hu hv2 hpok j _ r hr
    intro k q _ hq _ _
    rw [hpar k q hq, hst]
    omega
  rw [hst] at hcopy
  refine ⟨r, by rw [heq]; exact hr, hrl, ?_, ?_⟩
  · rw [hcopy, hun a (by omega)]
    exact hA 0 a (by simp) rfl
  · intro j hj hja hjs
    rw [hun j hjs]
    apply hB j hj
    intro k hk hkj
    have hk0 : k = 0 := by
      simp only [List.length_cons, List.length_nil] at hk
      omega
    subst hk0
    simp only [List.getElem?_cons_zero, Option.some.injEq] at hkj
    exact hja hkj.symm

end iz3

namespace iz3

/-- C16 (as stated, refuted): with 32771 frames, every parent entry equal to
the sentinel and a proof asserting frame 32768 only, no frame has a parent and
frame 32767 is pruned and not final, yet its slot ends as the interpolant
`atom 9` of frame 32768 rather than `true`: the propagation loop reads the
sentinel 32767 as a frame index. -/
theorem C16_counterexample_sentinel_index :
    ∃ fr cnsts_vec parents_vec r,
      get_frames 0 ((List.range 32771).map atom) (List.replicate 32771 SHRT_MAX) [] []
          (.asserted (atom 32768)) = .ok (fr, cnsts_vec, parents_vec) ∧
      [atom 9].length = cnsts_vec.length - 1 ∧
      fix_interpolants fr [atom 9] = .ok r ∧
      (∀ (i : Nat) (p : Int), fr.orig_parents_copy[i]? = some p → p = SHRT_MAX) ∧
      fr.used_frames[32767]? = some false ∧
      r[32767]? = some (atom 9) ∧
      r[32769]? = some mk_true ∧
      atom 9 ≠ mk_true := by
  have hFl : ((List.range 32771).map atom).length = 32771 := by
    rw [List.length_map, List.length_range]
  have hconcs : ∀ j : Nat, atom j ∈ asserted_concs (.asserted (atom 32768)) ↔ j = 32768 := by
    intro j
    simp only [asserted_concs, List.mem_singleton]
    exact ⟨atom_inj _ _, fun h => by rw [h]⟩
  obtain ⟨_, hg⟩ := get_frames_two 0 32768 ((List.range 32771).map atom)
    (List.replicate 32771 SHRT_MAX) (.asserted (atom 32768))
    (by rw [hFl]; omega)
    (by
      intro j hj
      rw [hFl] at hj
      rw [used_of_atoms, hconcs]
      omega)
    (by rw [List.length_replicate]; omega)
    (by rw [List.getElem?_replicate, if_pos (by omega)])
    (by rw [hFl, List.getElem?_replicate, if_pos (by omega)])
  rw [hFl] at hg
  have hul : (used_of ((List.range 32771).map atom) (.asserted (atom 32768))).length
      = 32771 := by
    rw [used_of_length, hFl]
  have hus : (used_of ((List.range 32771).map atom) (.asserted (atom 32768)))[32767]?
      = some false := by
    have hlt : 32767 <
        (used_of ((List.range 32771).map atom) (.asserted (atom 32768))).length := by
      rw [hul]; omega
    cases hb : (used_of ((List.range 32771).map atom) (.asserted (atom 32768)))[32767] with
    | false => rw [List.getElem?_eq_getElem hlt, hb]
    | true =>
      exfalso
      have hT : (used_of ((List.range 32771).map atom) (.asserted (atom 32768)))[32767]?
          = some true := by rw [List.getElem?_eq_getElem hlt, hb]
      rw [used_of_atoms, hconcs] at hT
      omega
  obtain ⟨r, hr, _, hr1, hr2⟩ := fix_sentinel_slot 32771 32768
    (build_frame_map ((List.range 32771).map atom) [])
    (used_of ((List.range 32771).map atom) (.asserted (atom 32768))) (atom 9)
    (by omega) (by omega) hul hus
  refine ⟨_, _, _, r, hg, rfl, hr, ?_, ?_, hr1,
    hr2 32769 (by omega) (by omega) (by omega), by decide⟩
  · intro i p hp
    exact (List.mem_replicate.mp (List.getElem?_mem hp)).2
  · dsimp only
    exact hus

/-- C19 (as stated, refuted): with 32768 frames in the explicit chain and a
proof asserting frames 32766 and 32767 (the final frame), the parent entry of
frame 32766 is 32767, which the walk takes for the sentinel; the reduced
parent vector is `[SHRT_MAX, SHRT_MAX]` and `is_linear` rejects it. -/
theorem C19_counterexample_sentinel_index :
    ∃ fr cnsts_vec parents_vec,
      get_frames 32768 ((List.range 32768).map atom) (explicit_chain 32768) [] []
          (.step 0 mk_false [.asserted (atom 32766), .asserted (atom 32767)]) =
        .ok (fr, cnsts_vec, parents_vec) ∧
      fr.used_frames[32767]? = some true ∧
      parents_vec = [SHRT_MAX, SHRT_MAX] ∧
      is_linear parents_vec = false := by
  have hFl : ((List.range 32768).map atom).length = 32768 := by
    rw [List.length_map, List.length_range]
  have hconcs : ∀ j : Nat,
      atom j ∈ asserted_concs
        (.step 0 mk_false [.asserted (atom 32766), .asserted (atom 32767)]) ↔
      (j = 32766 ∨ j = 32767) := by
    intro j
    simp only [asserted_concs, asserted_concs_prems, List.append_nil, List.mem_append,
      List.mem_singleton]
    constructor
    · rintro (h | h)
      · exact Or.inl (atom_inj _ _ h)
      · exact Or.inr (atom_inj _ _ h)
    · rintro (h | h)
      · exact Or.inl (by rw [h])
      · exact Or.inr (by rw [h])
  have hcl : (explicit_chain 32768).length = 32768 := by
    unfold explicit_chain
    rw [List.length_map, List.length_range]
  obtain ⟨_, hg⟩ := get_frames_two 32768 32766 ((List.range 32768).map atom)
    (explicit_chain 32768)
    (.step 0 mk_false [.asserted (atom 32766), .asserted (atom 32767)])
    (by rw [hFl]; omega)
    (by
      intro j hj
      rw [hFl] at hj
      rw [used_of_atoms, hconcs]
      omega)
    (by rw [hcl]; omega)
    (by
      rw [explicit_chain_getElem? 32768 32766 (by omega), if_neg (by omega)]
      rfl)
    (by
      rw [hFl, explicit_chain_getElem? 32768 (32768 - 1) (by omega), if_pos (by omega)])
  refine ⟨_, _, _, hg, ?_, rfl, by decide⟩
  dsimp only
  rw [used_of_atoms, hconcs]
  omega

end iz3
